import Mathlib

/-!
Verification development for the PlanForgeAI production scheduler
(engine sources: mock_without_operator.py, mock.py).

The Python engine is shallowly embedded: datetimes become rational
minutes since an epoch midnight, float minutes become rationals,
dictionaries keyed by ids become association lists or total functions,
and the GA randomness is exposed as explicit parameters (cut points).
Every definition follows the corresponding source function; doc comments
name the source symbol.
-/

set_option linter.unusedVariables false

namespace Scheduler

/-- Minutes since the epoch midnight.  Python naive datetimes and float
minute amounts are both embedded as rationals. -/
abbrev Time := ℚ

/-- Calendar day index of a time: day d covers the half-open minute
interval from 1440 d to 1440 (d + 1).  Embeds datetime.date(). -/
def dayOf (t : Time) : ℤ := Int.floor (t / 1440)

/-- Window kind tag (REG or OT) as used by build_shift_windows. -/
inductive WKind
  | REG
  | OT
deriving DecidableEq, Repr

/-- A half-open interval of time, written as a pair (start, stop). -/
abbrev Interval := Time × Time

/-- A machine availability window (start, stop, kind), one tuple of the
lists build_shift_windows returns. -/
structure Window where
  ws : Time
  we : Time
  kind : WKind
deriving DecidableEq, Repr

/-- Lexicographic comparison of interval pairs: Python sorted() on tuples. -/
def intervalLe (a b : Interval) : Bool :=
  decide (a.1 < b.1) || (decide (a.1 = b.1) && decide (a.2 ≤ b.2))

/-- The sweep of _merge_intervals: walk the sorted list keeping a
current interval, coalescing any interval whose start is at or before
the current stop. -/
def mergeGo (cur : Interval) : List Interval → List Interval
  | [] => [cur]
  | (s, e) :: rest =>
    if s ≤ cur.2 then mergeGo (cur.1, max cur.2 e) rest
    else cur :: mergeGo (s, e) rest

/-- _merge_intervals: sort, then sweep coalescing touching or
overlapping intervals. -/
def merge_intervals (l : List Interval) : List Interval :=
  match l.mergeSort intervalLe with
  | [] => []
  | x :: xs => mergeGo x xs

/-- One step of the inner loop of _subtract_intervals: the residual
pieces of a current segment after removing one subtrahend interval. -/
def cutOne (sub : Interval) (seg : Interval) : List Interval :=
  if sub.2 ≤ seg.1 ∨ sub.1 ≥ seg.2 then [seg]
  else
    (if sub.1 > seg.1 then [(seg.1, sub.1)] else []) ++
    (if sub.2 < seg.2 then [(sub.2, seg.2)] else [])

/-- One pass of the inner loop of _subtract_intervals: cut every
current segment by one subtrahend interval. -/
def cutStep (cur : List Interval) (sub : Interval) : List Interval :=
  cur.flatMap (fun seg => cutOne sub seg)

/-- _subtract_intervals: remove a list of forbidden intervals from a
list of base intervals; empty baseline cases follow the source guards. -/
def subtract_intervals (base subtracts : List Interval) : List Interval :=
  if base = [] then []
  else if subtracts = [] then base
  else
    let subs := merge_intervals subtracts
    let out := base.flatMap (fun b => subs.foldl cutStep [b])
    out.filter (fun seg => seg.1 < seg.2)

/- ===================== Data model ===================== -/

/-- Lot-size rule attached to a batchable operation (op["batch"]). -/
structure BatchRule where
  min_batch_qty : Option ℤ
  max_batch_qty : Option ℤ
deriving DecidableEq, Repr

/-- An operation of a routing.  Optional numeric fields model the
alternative JSON keys recognized on ingest. -/
structure Op where
  op_no : ℤ
  name : String
  work_center_id : String
  setup_state_key : Option String
  proc_time_per_unit_min : Option ℚ
  proc_time_per_unit : Option ℚ
  setup_time_fixed_min : Option ℚ
  setup_time_fixed : Option ℚ
  setup_matrix_id : Option String
  batchable : Bool
  batch : Option BatchRule
  preemptable : Bool
  preemption_overhead_min : ℚ
deriving DecidableEq, Repr

/-- A routing: ordered list of operations. -/
structure Routing where
  routing_id : String
  operations : List Op
deriving DecidableEq, Repr

/-- A product with its candidate routing ids (routing_ids preferred,
legacy single routing_id as fallback). -/
structure Product where
  product_id : String
  routing_ids : List String
  routing_id : Option String
  lot_size : Option ℚ
deriving DecidableEq, Repr

/-- A work center. -/
structure WorkCenter where
  work_center_id : String
  parallel_machines : List String
  setup_matrix_id : Option String
  default_setup_min : Option ℚ
deriving DecidableEq, Repr

/-- A machine. -/
structure Machine where
  machine_id : String
  work_center_id : String
  initial_state : Option String
  efficiency : Option ℚ
  shifts : List String
  setup_matrix_id : Option String
  default_setup_min : Option ℚ
deriving DecidableEq, Repr

/-- A setup matrix: prev state to next state to minutes, as nested
association lists (Python dicts with unique keys). -/
structure SetupMatrix where
  setup_matrix_id : String
  matrix : List (String × List (String × ℚ))
deriving DecidableEq, Repr

/-- A speed override entry after collect_speed_overrides normalization. -/
structure SpeedOverride where
  key : List String
  multiplier : ℚ
deriving DecidableEq, Repr

/-- A shift; times are minutes within the day (24:00 becomes 1440). -/
structure Shift where
  shift_id : String
  start_time : ℕ
  end_time : ℕ
  breaks : List (ℕ × ℕ)
deriving DecidableEq, Repr

/-- A machine maintenance interval of the calendar. -/
structure Maint where
  machine_id : String
  mstart : Time
  mstop : Time
deriving DecidableEq, Repr

/-- The calendar block (already parsed: holidays are day indices,
breaks are minute-of-day pairs). -/
structure Calendar where
  holidays : List ℤ
  machine_maintenances : List Maint
  ot_windows : List Interval
  ot_cap_hours_per_day : Option ℚ
  breaks : List (ℕ × ℕ)
deriving DecidableEq, Repr

/-- An order line. -/
structure Line where
  product_id : String
  quantity : ℤ
  priority : Option ℤ
deriving DecidableEq, Repr

/-- An order, already normalized to its list of lines (single-line
orders become one line on ingest). -/
structure Order where
  order_id : String
  due_date : Time
  release_date : Option Time
  priority : ℤ
  lines : List Line
deriving DecidableEq, Repr

/-- Objective weights of settings.objective_weights; a missing field
uses the defaults of evaluate. -/
structure Settings where
  w_makespan : Option ℚ
  w_tardiness : Option ℚ
  w_setup_cost : Option ℚ
  w_preemption_cost : Option ℚ
deriving DecidableEq, Repr

/-- The immutable catalog handed to the engine (the Context dataclass
after its indexers). -/
structure Context where
  products : List Product
  routings : List Routing
  work_centers : List WorkCenter
  machines : List Machine
  setup_matrices : List SetupMatrix
  speed_overrides : List SpeedOverride
  orders : List Order
  calendar : Calendar
  shifts : List Shift
  settings : Settings
  allow_job_preemption : Bool
deriving Repr

/-- A generated batch (immutable once built). -/
structure Batch where
  batch_id : String
  order_id : String
  product_id : String
  qty : ℚ
  priority : ℤ
  due_date : Time
  release_date : Time
deriving DecidableEq, Repr

/-- A schedule entry as appended by try_schedule_with_routing. -/
structure Step where
  batch_id : String
  order_id : String
  product_id : String
  routing_id : String
  operation : String
  qty : ℚ
  machine : String
  start : Time
  finish : Time
  setup_min : ℚ
  proc_min : ℚ
  splits : ℕ
deriving DecidableEq, Repr

/- ===================== Indexers ===================== -/

/-- ctx.idx_products lookup (dict built from the products list). -/
def idxProduct (ctx : Context) (pid : String) : Option Product :=
  ctx.products.find? (fun p => p.product_id = pid)

/-- ctx.idx_routings lookup. -/
def idxRouting (ctx : Context) (rid : String) : Option Routing :=
  ctx.routings.find? (fun r => r.routing_id = rid)

/-- ctx.idx_wc lookup. -/
def idxWc (ctx : Context) (wid : String) : Option WorkCenter :=
  ctx.work_centers.find? (fun w => w.work_center_id = wid)

/-- ctx.idx_machines_by_id lookup. -/
def idxMachine (ctx : Context) (mid : String) : Option Machine :=
  ctx.machines.find? (fun m => m.machine_id = mid)

/-- ctx.idx_machines_by_wc: machines grouped by work center in list
order (dict of lists built by setdefault append). -/
def machinesByWc (ctx : Context) (wid : String) : List Machine :=
  ctx.machines.filter (fun m => m.work_center_id = wid)

/-- ctx.setup_mats lookup by matrix id. -/
def idxSetupMat (ctx : Context) (mid : String) : Option SetupMatrix :=
  ctx.setup_matrices.find? (fun m => m.setup_matrix_id = mid)

/-- product_routing_candidates: prefer the routing_ids list (filtered
against known routings) and fall back to the single routing_id key. -/
def product_routing_candidates (ctx : Context) (pid : String) : List Routing :=
  match idxProduct ctx pid with
  | none => []
  | some p =>
    if p.routing_ids ≠ [] then
      (p.routing_ids.filter (fun rid => (idxRouting ctx rid).isSome)).filterMap
        (fun rid => idxRouting ctx rid)
    else
      match p.routing_id with
      | some rid => match idxRouting ctx rid with
        | some r => [r]
        | none => []
      | none => []

/- ===================== Time and cost oracles ===================== -/

/-- Association lookup in a setup matrix (prev in matrix and next in
matrix[prev]). -/
def matrixCell (m : SetupMatrix) (prev next : String) : Option ℚ :=
  match m.matrix.find? (fun row => row.1 = prev) with
  | none => none
  | some row => (row.2.find? (fun c => c.1 = next)).map (fun c => c.2)

/-- The matrix-id resolution phase of _lookup_matrix_setup_min of
mock_without_operator.py: machine.setup_matrix_id or op.setup_matrix_id,
else the setup_matrix_id of the work center of the op. -/
def lookup_mat_id (ctx : Context) (machine : Machine) (op : Op) : Option String :=
  match machine.setup_matrix_id with
  | some v => some v
  | none =>
    match op.setup_matrix_id with
    | some v => some v
    | none => (idxWc ctx op.work_center_id).bind (fun w => w.setup_matrix_id)

/-- The matrix-cell phase of _lookup_matrix_setup_min: the transition
cell of the resolved matrix, when both exist. -/
def lookup_cell (ctx : Context) (prev_state next_state : String)
    (machine : Machine) (op : Op) : Option ℚ :=
  match lookup_mat_id ctx machine op with
  | none => none
  | some mid =>
    match idxSetupMat ctx mid with
    | none => none
    | some mat => matrixCell mat prev_state next_state

/-- The fixed-setup fallback of _lookup_matrix_setup_min. -/
def lookup_fixed_fallback (ctx : Context) (machine : Machine) (op : Op) : ℚ :=
  match op.setup_time_fixed_min with
  | some v => v
  | none =>
    match op.setup_time_fixed with
    | some v => v * 60
    | none =>
      match machine.default_setup_min with
      | some v => v
      | none =>
        match (idxWc ctx op.work_center_id).bind (fun w => w.default_setup_min) with
        | some v => v
        | none => 0

/-- _lookup_matrix_setup_min assembled from its phases. -/
def lookup_matrix_setup_min (ctx : Context) (prev_state next_state : String)
    (machine : Machine) (op : Op) : ℚ :=
  match lookup_cell ctx prev_state next_state machine op with
  | some v => v
  | none => lookup_fixed_fallback ctx machine op

/-- Multiplier actually applied for one speed override entry: Python
reads so.get("multiplier", 1.0) or 1.0, so a zero multiplier acts as 1. -/
def effMult (so : SpeedOverride) : ℚ :=
  if so.multiplier = 0 then 1 else so.multiplier

/-- One speed-override application step of _get_proc_time_min. -/
def applyOverride (machine_id product_id op_name : String) (total : ℚ)
    (so : SpeedOverride) : ℚ :=
  match so.key with
  | [mk, pk, ok] =>
    if machine_id = mk ∧ product_id = pk ∧ op_name = ok then total / effMult so else total
  | [mk, ok] =>
    if machine_id = mk ∧ op_name = ok then total / effMult so else total
  | _ => total

/-- _get_proc_time_min: per-unit minutes (minute key preferred, hour
key times 60), times qty, speed overrides in list order, then divide by
a positive machine efficiency. -/
def get_proc_time_min (ctx : Context) (op : Op) (qty : ℚ)
    (machine_id product_id : String) (machine_eff : ℚ) : ℚ :=
  let per_unit_min : ℚ :=
    match op.proc_time_per_unit_min with
    | some v => v
    | none =>
      match op.proc_time_per_unit with
      | some v => v * 60
      | none => 0
  let total := per_unit_min * qty
  let total := ctx.speed_overrides.foldl (applyOverride machine_id product_id op.name) total
  if 0 < machine_eff then total / machine_eff else total

/- ===================== Calendar compiler ===================== -/

/-- A break of the calendar materialized on a base day; a break whose
stop is at or before its start rolls over midnight. -/
def normBreak (base : ℤ) (br : ℕ × ℕ) : Interval :=
  let brs : Time := ((base * 1440 : ℤ) : ℚ) + (br.1 : ℚ)
  let bre : Time := ((base * 1440 : ℤ) : ℚ) + (br.2 : ℚ)
  if bre ≤ brs then (brs, bre + 1440) else (brs, bre)

/-- The shift interval of one base day with its breaks (shift breaks
followed by the global calendar breaks) subtracted one at a time,
exactly as the inner loop of build_shift_windows. -/
def shiftDayWindows (s : Shift) (global_breaks : List (ℕ × ℕ)) (base : ℤ) : List Interval :=
  let st : Time := ((base * 1440 : ℤ) : ℚ) + (s.start_time : ℚ)
  let en0 : Time := ((base * 1440 : ℤ) : ℚ) + (s.end_time : ℚ)
  let en := if en0 ≤ st then en0 + 1440 else en0
  (s.breaks ++ global_breaks).foldl
    (fun dw br => subtract_intervals dw [normBreak base br]) [(st, en)]

/-- reg_by_shift of build_shift_windows: the merged per-day windows of
one shift across the horizon. -/
def regForShift (ctx : Context) (anchorDay : ℤ) (days : ℕ) (s : Shift) : List Interval :=
  merge_intervals
    ((List.range days).flatMap (fun d => shiftDayWindows s ctx.calendar.breaks (anchorDay + d)))

/-- Holiday full-day intervals. -/
def holidayIntervals (ctx : Context) : List Interval :=
  ctx.calendar.holidays.map (fun d => (((d * 1440 : ℤ) : ℚ), (((d + 1) * 1440 : ℤ) : ℚ)))

/-- The REG windows of one machine: union of its shift windows (24/7
default when none), minus holidays, minus its maintenance intervals. -/
def regForMachine (ctx : Context) (anchor : Time) (days : ℕ) (m : Machine) : List Interval :=
  let anchorDay := dayOf anchor
  let merged := m.shifts.flatMap (fun sid =>
    match ctx.shifts.find? (fun s => s.shift_id = sid) with
    | some s => regForShift ctx anchorDay days s
    | none => [])
  let merged := if merged = [] then
      [(((anchorDay * 1440 : ℤ) : ℚ), ((anchorDay * 1440 : ℤ) : ℚ) + (days : ℚ) * 1440)]
    else merged
  let merged := merge_intervals merged
  let merged := subtract_intervals merged (holidayIntervals ctx)
  let maints := (ctx.calendar.machine_maintenances.filter
      (fun mm => mm.machine_id = m.machine_id)).filterMap
      (fun mm => if mm.mstop > mm.mstart then some (mm.mstart, mm.mstop) else none)
  subtract_intervals merged maints

/-- The merged raw OT intervals declared by the calendar. -/
def rawOts (ctx : Context) : List Interval :=
  merge_intervals (ctx.calendar.ot_windows.filter (fun o => o.2 > o.1))

/-- Sort key of the final window list (Python list.sort key start,
stable). -/
def windowLe (a b : Window) : Bool := decide (a.ws ≤ b.ws)

/-- build_shift_windows for one machine: REG windows, then the raw OT
intervals minus REG (OT cannot overlap REG), tagged and sorted by
start. -/
def windowsForMachine (ctx : Context) (anchor : Time) (days : ℕ) (m : Machine) : List Window :=
  let reg := regForMachine ctx anchor days m
  let ot := merge_intervals ((rawOts ctx).flatMap (fun o => subtract_intervals [o] reg))
  ((reg.map (fun p => Window.mk p.1 p.2 WKind.REG)) ++
   (ot.map (fun p => Window.mk p.1 p.2 WKind.OT))).mergeSort windowLe

/-- build_shift_windows as a map from machine id, defaulting to no
windows for an unknown machine (the decoder reads it with .get). -/
def build_shift_windows (ctx : Context) (anchor : Time) (days : ℕ) : String → List Window :=
  fun mid =>
    match idxMachine ctx mid with
    | some m => windowsForMachine ctx anchor days m
    | none => []

/- ===================== Window packer ===================== -/

/-- _find_slot_contiguous: first window with room for need_min minutes
at or after earliest, wholly inside that window. -/
def find_slot_contiguous (windows : List Window) (earliest : Time) (need_min : ℚ) :
    Option (Time × Time) :=
  match windows with
  | [] => none
  | w :: rest =>
    let s := max w.ws earliest
    if w.we - s ≥ need_min then some (s, s + need_min)
    else find_slot_contiguous rest earliest need_min

/-- _split_minutes_by_day, fuel-bounded: minutes of the interval per
calendar day.  The fuel covers every day the interval can touch. -/
def splitGo (e : Time) : ℕ → Time → List (ℤ × ℚ)
  | 0, _ => []
  | Nat.succ fuel, cur =>
    if cur < e then
      let d := dayOf cur
      let dayEnd : Time := (((d + 1) * 1440 : ℤ) : ℚ)
      let segEnd := min e dayEnd
      (d, segEnd - cur) :: splitGo e fuel segEnd
    else []

/-- _split_minutes_by_day. -/
def split_minutes_by_day (s e : Time) : List (ℤ × ℚ) :=
  splitGo e ((dayOf e - dayOf s).toNat + 2) s

/-- Add minutes for one day into a per-day usage association list
(dict setdefault plus increment). -/
def addOt : List (ℤ × ℚ) → ℤ → ℚ → List (ℤ × ℚ)
  | [], d, v => [(d, v)]
  | (k, x) :: rest, d, v =>
    if k = d then (k, x + v) :: rest else (k, x) :: addOt rest d v

/-- Accumulate a list of per-day contributions into a usage map. -/
def otFold (m : List (ℤ × ℚ)) (adds : List (ℤ × ℚ)) : List (ℤ × ℚ) :=
  adds.foldl (fun acc p => addOt acc p.1 p.2) m

/-- Read a usage map with default 0 (dict .get((m, d), 0.0)). -/
def otGet (m : List (ℤ × ℚ)) (d : ℤ) : ℚ :=
  ((m.find? (fun p => p.1 = d)).map (fun p => p.2)).getD 0

/-- Loop state of _pack_across_windows. -/
structure PackSt where
  remaining : ℚ
  setup_td : ℚ
  started : Option Time
  cur_time : Time
  total_ovh : ℚ
  num_splits : ℕ
  ot_by_day : List (ℤ × ℚ)
deriving Repr

/-- The window walk of _pack_across_windows: place setup wholly inside
one window, then consume run time across following windows, adding the
preemption overhead at each spill; break mirrors the source. -/
def packLoop (ovh : ℚ) : List Window → PackSt → PackSt
  | [], st => st
  | w :: rest, st =>
    let s0 := max w.ws st.cur_time
    if s0 ≥ w.we then packLoop ovh rest st
    else if st.setup_td > 0 ∧ ¬ (w.we - s0 ≥ st.setup_td) then packLoop ovh rest st
    else
      let doSetup := st.setup_td > 0
      let started1 := if doSetup then some (st.started.getD s0) else st.started
      let s1 := if doSetup then s0 + st.setup_td else s0
      let rem1 := if doSetup then st.remaining - st.setup_td else st.remaining
      let st1 : PackSt := { st with setup_td := 0, started := started1, remaining := rem1 }
      if rem1 ≤ 0 then st1
      else
        let usable := w.we - s1
        if usable ≤ 0 then packLoop ovh rest st1
        else
          let use := min usable rem1
          let ot2 := if w.kind = WKind.OT then
              otFold st1.ot_by_day (split_minutes_by_day s1 (s1 + use))
            else st1.ot_by_day
          let started2 := some (started1.getD s1)
          let s2 := s1 + use
          let rem2 := rem1 - use
          if rem2 > 0 then
            packLoop ovh rest
              { remaining := rem2, setup_td := 0, started := started2, cur_time := w.we,
                total_ovh := st.total_ovh + ovh, num_splits := st.num_splits + 1,
                ot_by_day := ot2 }
          else
            { remaining := rem2, setup_td := 0, started := started2, cur_time := s2,
              total_ovh := st.total_ovh, num_splits := st.num_splits, ot_by_day := ot2 }

/-- _pack_across_windows: returns (start, finish including overhead,
overhead minutes, split count, per-day OT minutes), or none when the
operation cannot be fully placed. -/
def pack_across_windows (windows : List Window) (earliest : Time)
    (need_min setup_min preemption_overhead_min : ℚ) :
    Option (Time × Time × ℚ × ℕ × List (ℤ × ℚ)) :=
  let st := packLoop preemption_overhead_min windows
    { remaining := need_min, setup_td := setup_min, started := none,
      cur_time := earliest, total_ovh := 0, num_splits := 0, ot_by_day := [] }
  if st.remaining > 0 then none
  else
    match st.started with
    | none => none
    | some b => some (b, st.cur_time + st.total_ovh, st.total_ovh, st.num_splits, st.ot_by_day)

/- ===================== SGS decoder ===================== -/

/-- The tolerance of the OT-cap comparison (1e-9). -/
def otEps : ℚ := 1 / 1000000000

/-- Effective machine efficiency: float(mc.get("efficiency", 1.0) or
1.0), so missing or zero both act as 1. -/
def machineEffOf (mc : Machine) : ℚ :=
  match mc.efficiency with
  | some v => if v = 0 then 1 else v
  | none => 1

/-- wins_to_search: windows ending after est, clipped to start no
earlier than est. -/
def winsToSearch (wins : List Window) (est : Time) : List Window :=
  (wins.filter (fun w => w.we > est)).map
    (fun w => { ws := max est w.ws, we := w.we, kind := w.kind })

/-- True when some day of the candidate usage would push the machine
past the OT cap (used + mins > cap + 1e-9). -/
def otViolation (cap : ℚ) (used : ℤ → ℚ) (usage : List (ℤ × ℚ)) : Bool :=
  usage.any (fun p => decide (used p.1 + p.2 > cap + otEps))

/-- One window of the OT-usage accumulation of a contiguous slot. -/
def otStep (st fn : Time) (acc : List (ℤ × ℚ)) (w : Window) : List (ℤ × ℚ) :=
  if w.kind = WKind.OT then
    let seg_s := max w.ws st
    let seg_e := min w.we fn
    if seg_e > seg_s then otFold acc (split_minutes_by_day seg_s seg_e) else acc
  else acc

/-- OT minutes a contiguous slot [st, fn) overlaps per day, summed over
the OT windows of the searched list. -/
def contigOtUsage (wins : List Window) (st fn : Time) : List (ℤ × ℚ) :=
  wins.foldl (otStep st fn) []

/-- A placement candidate on one machine, as the cand dict of
try_schedule_with_routing. -/
structure Cand where
  machine : String
  start : Time
  finish : Time
  setup_min : ℚ
  proc_min : ℚ
  splits : ℕ
  ot_usage : List (ℤ × ℚ)
deriving Repr

/-- The outcome of attempting one machine: the candidate if any, plus
the diagnostic flags contributed to the per-operation scan. -/
structure CandOut where
  cand : Option Cand
  had_window : Bool
  ot_cap_hit : Bool
  no_contig : Bool
  pack_fail : Bool
deriving Repr

/-- One machine attempt inside the operation loop of
try_schedule_with_routing: compute est, setup and processing minutes,
then fit contiguously (non-preemptable) or packed (preemptable with
preemption allowed), rejecting any fit that violates the OT cap. -/
def candidate_for_machine (ctx : Context) (winsOf : String → List Window)
    (ot_cap_min : Option ℚ) (allow_preempt : Bool)
    (free : String → Time) (mstate : String → String) (ot_used : String → ℤ → ℚ)
    (cur_start : Time) (batch : Batch) (op : Op) (mc : Machine) : CandOut :=
  let mid := mc.machine_id
  let est := max cur_start (free mid)
  let prev_state := mstate mid
  let next_state := (op.setup_state_key).getD "clean"
  let setup_min := lookup_matrix_setup_min ctx prev_state next_state mc op
  let machine_eff := machineEffOf mc
  let proc_min := get_proc_time_min ctx op batch.qty mid batch.product_id machine_eff
  let need_min := setup_min + proc_min
  let wins := winsToSearch (winsOf mid) est
  let had_window := !wins.isEmpty
  let is_preemptable := op.preemptable && allow_preempt
  let preempt_ovh := op.preemption_overhead_min
  if ¬ (is_preemptable = true) then
    match find_slot_contiguous wins est need_min with
    | some (st, fn) =>
      let usage := contigOtUsage wins st fn
      let bad := match ot_cap_min with
        | some cap => otViolation cap (ot_used mid) usage
        | none => false
      if bad then
        { cand := none, had_window := had_window, ot_cap_hit := true,
          no_contig := false, pack_fail := false }
      else
        let c : Cand :=
          { machine := mid, start := st, finish := fn, setup_min := setup_min,
            proc_min := proc_min, splits := 0, ot_usage := usage }
        { cand := some c, had_window := had_window, ot_cap_hit := false,
          no_contig := false, pack_fail := false }
    | none =>
      { cand := none, had_window := had_window, ot_cap_hit := false,
        no_contig := true, pack_fail := false }
  else
    match pack_across_windows wins est need_min setup_min preempt_ovh with
    | some (st, fn, ovh_min, splits, usage) =>
      let bad := match ot_cap_min with
        | some cap => otViolation cap (ot_used mid) usage
        | none => false
      if bad then
        { cand := none, had_window := had_window, ot_cap_hit := true,
          no_contig := false, pack_fail := false }
      else
        let c : Cand :=
          { machine := mid, start := st, finish := fn, setup_min := setup_min,
            proc_min := proc_min + ovh_min, splits := splits, ot_usage := usage }
        { cand := some c, had_window := had_window, ot_cap_hit := false,
          no_contig := false, pack_fail := false }
    | none =>
      { cand := none, had_window := had_window, ot_cap_hit := false,
        no_contig := false, pack_fail := true }

/-- Candidate accumulation: keep the incumbent unless the new finish is
strictly smaller (cand.finish < best.finish). -/
def betterCand (best : Option Cand) (c : Option Cand) : Option Cand :=
  match c with
  | none => best
  | some cand =>
    match best with
    | none => some cand
    | some b => if cand.finish < b.finish then some cand else some b

/-- Scan accumulator over the candidate machines of one operation. -/
structure OpScan where
  best : Option Cand
  saw_no_window : Bool
  saw_ot_cap : Bool
  saw_no_contig : Bool
  saw_pack_fail : Bool
deriving Repr

/-- One machine of the candidate loop of one operation. -/
def scanStep (ctx : Context) (winsOf : String → List Window)
    (ot_cap_min : Option ℚ) (allow_preempt : Bool)
    (free : String → Time) (mstate : String → String) (ot_used : String → ℤ → ℚ)
    (cur_start : Time) (batch : Batch) (op : Op) (acc : OpScan) (mc : Machine) : OpScan :=
  let o := candidate_for_machine ctx winsOf ot_cap_min allow_preempt
      free mstate ot_used cur_start batch op mc
  { best := betterCand acc.best o.cand,
    saw_no_window := acc.saw_no_window && !o.had_window,
    saw_ot_cap := acc.saw_ot_cap || o.ot_cap_hit,
    saw_no_contig := acc.saw_no_contig || o.no_contig,
    saw_pack_fail := acc.saw_pack_fail || o.pack_fail }

/-- The machine loop of one operation, keeping the best candidate and
the diagnostic flags. -/
def scanMachines (ctx : Context) (winsOf : String → List Window)
    (ot_cap_min : Option ℚ) (allow_preempt : Bool)
    (free : String → Time) (mstate : String → String) (ot_used : String → ℤ → ℚ)
    (cur_start : Time) (batch : Batch) (op : Op) (cands : List Machine) : OpScan :=
  cands.foldl (scanStep ctx winsOf ot_cap_min allow_preempt free mstate ot_used cur_start batch op)
    { best := none, saw_no_window := true, saw_ot_cap := false,
      saw_no_contig := false, saw_pack_fail := false }

/-- Bump one fail_stats counter. -/
def bumpStat (fs : String → ℕ) (k : String) : String → ℕ :=
  fun s => if s = k then fs s + 1 else fs s

/-- The fail reason recorded when no machine fits an operation, in the
priority order of the source. -/
def failKey (sc : OpScan) : String :=
  if sc.saw_no_window then "no_window_after_est"
  else if sc.saw_ot_cap then "ot_cap_hit"
  else if sc.saw_no_contig then "no_contiguous_window"
  else if sc.saw_pack_fail then "cannot_pack_across"
  else "unknown_fit_fail"

/-- The candidate machines of a work center: the by-work-center index,
falling back to the parallel_machines ids of the work center (a Python
set; embedded as first-occurrence order). -/
def wcCandidates (ctx : Context) (wc_id : String) : List Machine :=
  match machinesByWc ctx wc_id with
  | [] =>
    (match idxWc ctx wc_id with
     | some wc => wc.parallel_machines.dedup.filterMap (idxMachine ctx)
     | none => [])
  | l => l

/-- A successful tentative routing placement (the dict
try_schedule_with_routing returns). -/
structure Plan where
  steps : List Step
  finish : Time
  temp_free : String → Time
  temp_state : String → String
  temp_ot_used : String → ℤ → ℚ

/-- Commit the per-day OT usage of a committed candidate into the
usage map. -/
def commitOt (ot : String → ℤ → ℚ) (mid : String) (usage : List (ℤ × ℚ)) :
    String → ℤ → ℚ :=
  usage.foldl (fun acc p => fun m d => if m = mid ∧ d = p.1 then acc m d + p.2 else acc m d) ot

/-- The operation loop of try_schedule_with_routing, threading the
tentative copies of machine_free, machine_state and ot_used plus the
shared fail_stats. -/
def tryRoutingGo (ctx : Context) (winsOf : String → List Window)
    (ot_cap_min : Option ℚ) (allow_preempt : Bool)
    (batch : Batch) (routing_id : String) :
    List Op → (String → Time) → (String → String) → (String → ℤ → ℚ) →
    Time → List Step → (String → ℕ) → Option Plan × (String → ℕ)
  | [], free, mstate, ot, cur_start, steps, fs =>
    (some { steps := steps,
            finish := ((steps.getLast?).map (fun s => s.finish)).getD cur_start,
            temp_free := free, temp_state := mstate, temp_ot_used := ot }, fs)
  | op :: rest, free, mstate, ot, cur_start, steps, fs =>
    match wcCandidates ctx op.work_center_id with
    | [] => (none, bumpStat fs "no_machine_in_wc")
    | m :: ms =>
      let sc := scanMachines ctx winsOf ot_cap_min allow_preempt
          free mstate ot cur_start batch op (m :: ms)
      match sc.best with
      | none => (none, bumpStat fs (failKey sc))
      | some best =>
        let step : Step :=
          { batch_id := batch.batch_id, order_id := batch.order_id,
            product_id := batch.product_id, routing_id := routing_id,
            operation := op.name, qty := batch.qty, machine := best.machine,
            start := best.start, finish := best.finish,
            setup_min := best.setup_min, proc_min := best.proc_min, splits := best.splits }
        tryRoutingGo ctx winsOf ot_cap_min allow_preempt batch routing_id rest
          (fun x => if x = best.machine then best.finish else free x)
          (fun x => if x = best.machine then (op.setup_state_key).getD "clean" else mstate x)
          (commitOt ot best.machine best.ot_usage)
          best.finish (steps ++ [step]) fs

/-- try_schedule_with_routing: tentative full placement of one batch
under one routing, starting from copies of the committed state. -/
def try_schedule_with_routing (ctx : Context) (winsOf : String → List Window)
    (ot_cap_min : Option ℚ) (allow_preempt : Bool) (earliest_release : Time)
    (free : String → Time) (mstate : String → String) (ot : String → ℤ → ℚ)
    (fs : String → ℕ) (batch : Batch) (routing : Routing) : Option Plan × (String → ℕ) :=
  tryRoutingGo ctx winsOf ot_cap_min allow_preempt batch routing.routing_id
    routing.operations free mstate ot (max batch.release_date earliest_release) [] fs

/-- The committed per-decode state of _schedule_once. -/
structure OnceState where
  schedule : List Step
  skipped : ℕ
  machine_free : String → Time
  machine_state : String → String
  ot_used : String → ℤ → ℚ
  fail_stats : String → ℕ

/-- One candidate routing of the routing loop of one batch. -/
def planStep (ctx : Context) (winsOf : String → List Window)
    (ot_cap_min : Option ℚ) (allow_preempt : Bool) (earliest_release : Time)
    (st : OnceState) (batch : Batch) (acc : Option Plan × (String → ℕ))
    (routing : Routing) : Option Plan × (String → ℕ) :=
  let r := try_schedule_with_routing ctx winsOf ot_cap_min allow_preempt earliest_release
      st.machine_free st.machine_state st.ot_used acc.2 batch routing
  match r.1 with
  | none => (acc.1, r.2)
  | some p =>
    match acc.1 with
    | none => (some p, r.2)
    | some b => if p.finish < b.finish then (some p, r.2) else (acc.1, r.2)

/-- The routing loop of one batch: try every candidate routing,
keeping the plan with the strictly smallest finish, while the shared
fail_stats accumulates over every attempt. -/
def bestPlanOf (ctx : Context) (winsOf : String → List Window)
    (ot_cap_min : Option ℚ) (allow_preempt : Bool) (earliest_release : Time)
    (st : OnceState) (batch : Batch) (cands : List Routing) :
    Option Plan × (String → ℕ) :=
  cands.foldl (planStep ctx winsOf ot_cap_min allow_preempt earliest_release st batch)
    (none, st.fail_stats)

/-- The per-batch body of the main loop of _schedule_once: skip the
batch (leaving the committed state untouched) or commit the best plan. -/
def processBatch (ctx : Context) (winsOf : String → List Window)
    (ot_cap_min : Option ℚ) (allow_preempt : Bool) (earliest_release : Time)
    (st : OnceState) (batch : Batch) : OnceState :=
  match product_routing_candidates ctx batch.product_id with
  | [] =>
    { st with skipped := st.skipped + 1,
              fail_stats := bumpStat st.fail_stats "no_routing_for_product" }
  | c :: cs =>
    let r := bestPlanOf ctx winsOf ot_cap_min allow_preempt earliest_release st batch (c :: cs)
    match r.1 with
    | none => { st with skipped := st.skipped + 1, fail_stats := r.2 }
    | some plan =>
      { schedule := st.schedule ++ plan.steps, skipped := st.skipped,
        machine_free := plan.temp_free, machine_state := plan.temp_state,
        ot_used := plan.temp_ot_used, fail_stats := r.2 }

/-- Earliest release over a chromosome (the source defaults to the
wall clock for an empty chromosome; decode never reaches that case). -/
def minRelease (chrom : List Batch) : Time :=
  match chrom with
  | [] => 0
  | b :: rest => rest.foldl (fun a x => min a x.release_date) b.release_date

/-- _schedule_once: compile the calendars for the horizon, initialize
the committed state and walk the chromosome. -/
def schedule_once (ctx : Context) (chrom : List Batch) (base_days : ℕ)
    (fs0 : String → ℕ) : OnceState :=
  let earliest_release := minRelease chrom
  let winsOf := build_shift_windows ctx earliest_release base_days
  let ot_cap_min := ctx.calendar.ot_cap_hours_per_day.map (fun h => h * 60)
  chrom.foldl (processBatch ctx winsOf ot_cap_min ctx.allow_job_preemption earliest_release)
    { schedule := [], skipped := 0,
      machine_free := fun _ => earliest_release,
      machine_state := fun mid => ((idxMachine ctx mid).bind (fun m => m.initial_state)).getD "clean",
      ot_used := fun _ _ => 0,
      fail_stats := fs0 }

/- ===================== decode with horizon retry ===================== -/

/-- _auto_horizon_days: max(7, min(60, max(1, (max due - min release)
in days) + 3)); 14 for an empty chromosome (the except branch). -/
def auto_horizon_days (chrom : List Batch) : ℤ :=
  match chrom with
  | [] => 14
  | b :: rest =>
    let rel := rest.foldl (fun a x => min a x.release_date) b.release_date
    let due := rest.foldl (fun a x => max a x.due_date) b.due_date
    let span_days := max 1 (Int.floor ((due - rel) / 1440)) + 3
    max 7 (min span_days 60)

/-- The makespan of one decode attempt: none stands for datetime.max
(an empty schedule). -/
def attemptMakespan (st : OnceState) : Option Time :=
  match st.schedule with
  | [] => none
  | s :: rest => some (rest.foldl (fun a x => max a x.finish) s.finish)

/-- Lexicographic comparison of (skipped, makespan) ranks, none being
the largest makespan. -/
def rankLt (a b : ℕ × Option Time) : Bool :=
  decide (a.1 < b.1) ||
    (decide (a.1 = b.1) &&
      match a.2, b.2 with
      | none, _ => false
      | some _, none => true
      | some x, some y => decide (x < y))

/-- Keep the better of two decode attempts (strictly smaller rank
wins; ties keep the earlier attempt). -/
def pickBetter (best cur : OnceState) : OnceState :=
  if rankLt (cur.skipped, attemptMakespan cur) (best.skipped, attemptMakespan best)
  then cur else best

/-- The decoded result (schedule, skipped, fail_stats). -/
structure Decoded where
  schedule : List Step
  skipped : ℕ
  fail_stats : String → ℕ

/-- decode of mock_without_operator.py: the None and required-key
filters drop nothing in the typed embedding, so skipped_pre is 0; try
the base horizon, then +7 and +14 extra days while skips remain, and
return the attempt with the lexicographically smallest
(skipped, makespan), with the fail stats of that attempt. -/
def decode (ctx : Context) (chrom : List Batch) : Decoded :=
  match chrom with
  | [] => { schedule := [], skipped := 0, fail_stats := fun _ => 0 }
  | _ :: _ =>
    let base_days := (auto_horizon_days chrom).toNat
    let a0 := schedule_once ctx chrom (base_days + 0) (fun _ => 0)
    if a0.skipped = 0 then
      { schedule := a0.schedule, skipped := a0.skipped, fail_stats := a0.fail_stats }
    else
      let a7 := schedule_once ctx chrom (base_days + 7) (fun _ => 0)
      let b1 := pickBetter a0 a7
      if a7.skipped = 0 then
        { schedule := b1.schedule, skipped := b1.skipped, fail_stats := b1.fail_stats }
      else
        let a14 := schedule_once ctx chrom (base_days + 14) (fun _ => 0)
        let b2 := pickBetter b1 a14
        { schedule := b2.schedule, skipped := b2.skipped, fail_stats := b2.fail_stats }

/- ===================== Objective evaluator ===================== -/

/-- One step of building last_finish_by_order (dict keyed by order id,
keeping the max finish). -/
def lfGo : List (String × Time) → Step → List (String × Time)
  | [], s => [(s.order_id, s.finish)]
  | (k, v) :: rest, s =>
    if k = s.order_id then (k, max v s.finish) :: rest else (k, v) :: lfGo rest s

/-- last_finish_by_order over a schedule. -/
def lastFinishByOrder (schedule : List Step) : List (String × Time) :=
  schedule.foldl lfGo []

/-- One step of building due_by_order (dict comprehension, later
duplicates overwrite). -/
def dueGo : List (String × Time) → Order → List (String × Time)
  | [], o => [(o.order_id, o.due_date)]
  | (k, v) :: rest, o =>
    if k = o.order_id then (k, o.due_date) :: rest else (k, v) :: dueGo rest o

/-- due_by_order over the orders of the catalog. -/
def dueByOrder (ctx : Context) : List (String × Time) :=
  ctx.orders.foldl dueGo []

/-- evaluate of mock_without_operator.py.  Times are minutes, so the
total_seconds()/60 conversions are the identity. -/
def evaluate (ctx : Context) (schedule : List Step) (skipped : ℕ) : ℚ :=
  match schedule with
  | [] => 1000000000000 + 1000000000 * (skipped : ℚ)
  | s :: rest =>
    let makespan := rest.foldl (fun a x => max a x.finish) s.finish
    let start0 := rest.foldl (fun a x => min a x.start) s.start
    let dues := dueByOrder ctx
    let tardiness_min := (lastFinishByOrder (s :: rest)).foldl (fun acc p =>
      match (dues.find? (fun q => q.1 = p.1)).map (fun q => q.2) with
      | none => acc
      | some due => acc + max (p.2 - due) 0) 0
    let w_makespan := (ctx.settings.w_makespan).getD 1
    let w_tardiness := (ctx.settings.w_tardiness).getD 10
    let w_setup := (ctx.settings.w_setup_cost).getD 5
    let w_preempt := (ctx.settings.w_preemption_cost).getD 0
    let setup_cost := (s :: rest).foldl (fun a x => a + x.setup_min) 0
    let num_splits_total : ℕ := (s :: rest).foldl (fun a x => a + x.splits) 0
    w_makespan * (makespan - start0) + w_tardiness * tardiness_min +
      w_setup * setup_cost + w_preempt * (num_splits_total : ℚ) +
      1000000 * (skipped : ℚ)

/- ===================== GA operators ===================== -/

/-- The identity key of a batch (_chrom_key_item); datetimes are
embedded directly, isoformat being injective on them. -/
def chrom_key_item (b : Batch) : String × String × String × ℚ × Time × Time :=
  (b.batch_id, b.order_id, b.product_id, b.qty, b.release_date, b.due_date)

/-- One re-append step of _normalize_chromosome. -/
def normStep (acc : List Batch × List (String × String × String × ℚ × Time × Time))
    (b : Batch) : List Batch × List (String × String × String × ℚ × Time × Time) :=
  if chrom_key_item b ∈ acc.2 then acc
  else (acc.1 ++ [b], acc.2 ++ [chrom_key_item b])

/-- _normalize_chromosome with a reference pool: drop the none slots,
then append every pool batch whose key is not yet used. -/
def normalize_chromosome (chrom : List (Option Batch)) (ref_pool : List Batch) : List Batch :=
  let out := chrom.filterMap id
  (ref_pool.foldl normStep (out, out.map chrom_key_item)).1

/-- Search for the next free (none) slot from idx, cycling modulo the
child length; the fuel bounds the cycle (the source while-loop spins
forever when every slot is taken, which the crossover invariants rule
out). -/
def findFreeFrom (child : List (Option Batch)) : ℕ → ℕ → Option ℕ
  | _, 0 => none
  | idx, Nat.succ fuel =>
    match child.get? (idx % child.length) with
    | some none => some (idx % child.length)
    | _ => findFreeFrom child (idx + 1) fuel

/-- One placement step of the fill loop of crossover: skip an already
used key, otherwise write the item into the next free slot from the
running index. -/
def fillStep (acc : List (Option Batch) ×
    List (String × String × String × ℚ × Time × Time) × ℕ) (item : Batch) :
    List (Option Batch) × List (String × String × String × ℚ × Time × Time) × ℕ :=
  if chrom_key_item item ∈ acc.2.1 then acc
  else
    match findFreeFrom acc.1 acc.2.2 acc.1.length with
    | none => acc
    | some j => (acc.1.set j (some item), acc.2.1 ++ [chrom_key_item item], j)

/-- The fill loop of crossover: scan parent2 from just after the cut,
skipping used keys and writing each remaining item into the next free
slot. -/
def placeItems (p2 : List Batch) (child0 : List (Option Batch))
    (used0 : List (String × String × String × ℚ × Time × Time)) (start_idx : ℕ) :
    List (Option Batch) :=
  (p2.foldl fillStep (child0, used0, start_idx)).1

/-- crossover of mock_without_operator.py with the two sampled cut
points a ≤ b < n made explicit: copy the slice of parent1, fill from
parent2 with wraparound, then normalize against parent1. -/
def crossover (p1 p2 : List Batch) (a b : ℕ) : List Batch :=
  let n := p1.length
  if n < 2 then p1
  else
    let mid_slice := (p1.drop a).take (b + 1 - a)
    let child0 : List (Option Batch) :=
      List.replicate a none ++ mid_slice.map some ++ List.replicate (n - (b + 1)) none
    let used0 := mid_slice.map chrom_key_item
    let filled := placeItems p2 child0 used0 ((b + 1) % n)
    normalize_chromosome filled p1

/- ===================== Batch builder ===================== -/

/-- The fallback of _derive_batch_rule_for_product: the batch rule of
the first batchable operation of the first candidate routing, else
(qty_total, qty_total). -/
def batchRuleFromRouting (ctx : Context) (pid : String) (qty_total : ℤ) : ℤ × ℤ :=
  match product_routing_candidates ctx pid with
  | [] => (qty_total, qty_total)
  | r :: _ =>
    match r.operations.find? (fun op => op.batchable) with
    | some op =>
      let mn := ((op.batch.bind (fun b => b.min_batch_qty)).getD qty_total)
      let mx := ((op.batch.bind (fun b => b.max_batch_qty)).getD qty_total)
      (mn, max 1 mx)
    | none => (qty_total, qty_total)

/-- _derive_batch_rule_for_product: a positive lot_size gives
(lot_size, 5 lot_size); otherwise read the first batchable operation. -/
def derive_batch_rule_for_product (ctx : Context) (pid : String) (qty_total : ℤ) : ℤ × ℤ :=
  match (idxProduct ctx pid).bind (fun p => p.lot_size) with
  | some ls =>
    if ls > 0 then (Int.floor ls, max (Int.floor ls) (Int.floor ls * 5))
    else batchRuleFromRouting ctx pid qty_total
  | none => batchRuleFromRouting ctx pid qty_total

/-- Kernel-computable lowercase of a string (character map, matching
str.lower on the names the engine compares). -/
def lower_str (s : String) : String := String.mk (s.data.map Char.toLower)

/-- _has_painting: the first candidate routing has an operation whose
lowercased name is painting. -/
def has_painting (ctx : Context) (pid : String) : Bool :=
  match product_routing_candidates ctx pid with
  | [] => false
  | r :: _ => r.operations.any (fun op => lower_str op.name = "painting")

/-- The while-loop of build_batches splitting a line quantity into
chunks of min(remaining, target); fuel-bounded (the source loop does
not terminate when target is not positive and quantity remains). -/
def splitQtysGo (target : ℤ) : ℕ → ℤ → List ℤ
  | 0, _ => []
  | Nat.succ fuel, remaining =>
    if remaining > 0 then
      let take := min remaining target
      take :: splitQtysGo target fuel (remaining - take)
    else []

/-- The chunk quantities for one remaining quantity. -/
def split_qtys (target qty_total : ℤ) : List ℤ :=
  splitQtysGo target qty_total.toNat qty_total

/-- The quantity projection of the batches build_batches emits for one
order line: unknown products are skipped, the target chunk is
max_batch when the routing contains a Painting operation and min_batch
otherwise. -/
def line_batch_qtys (ctx : Context) (pid : String) (qty_total : ℤ) : List ℤ :=
  match idxProduct ctx pid with
  | none => []
  | some _ =>
    let rule := derive_batch_rule_for_product ctx pid qty_total
    let prefer_max := has_painting ctx pid
    split_qtys (if prefer_max then rule.2 else rule.1) qty_total

/- ===================== Claim C5 ===================== -/

/-- Matrix id resolution as the spec words it: the machine, then the
op, then the work center of the op. -/
def resolved_matrix_id_spec (ctx : Context) (machine : Machine) (op : Op) : Option String :=
  (machine.setup_matrix_id).orElse (fun _ =>
    (op.setup_matrix_id).orElse (fun _ =>
      (idxWc ctx op.work_center_id).bind (fun w => w.setup_matrix_id)))

/-- The fixed-setup fallback chain as the spec words it: the fixed
minutes of the op, else its fixed hours times 60, else the machine
default, else the work-center default, else 0. -/
def fixed_fallback_spec (ctx : Context) (machine : Machine) (op : Op) : ℚ :=
  match op.setup_time_fixed_min with
  | some v => v
  | none =>
    match op.setup_time_fixed with
    | some v => v * 60
    | none =>
      match machine.default_setup_min with
      | some v => v
      | none =>
        match (idxWc ctx op.work_center_id).bind (fun w => w.default_setup_min) with
        | some v => v
        | none => 0

/-- The setup lookup as the spec words it: the resolved matrix cell
when it exists, otherwise the fixed fallback chain. -/
def setup_lookup_spec (ctx : Context) (prev_state next_state : String)
    (machine : Machine) (op : Op) : ℚ :=
  match ((resolved_matrix_id_spec ctx machine op).bind (idxSetupMat ctx)).bind
      (fun mat => matrixCell mat prev_state next_state) with
  | some v => v
  | none => fixed_fallback_spec ctx machine op

/-- C5: every setup lookup resolves the matrix id in the order machine,
op, work center of the op; a found matrix cell is returned, otherwise
the fallback chain op fixed minutes, op fixed hours times 60, machine
default, work-center default, 0 applies. -/
theorem C5_setup_lookup (ctx : Context) (prev_state next_state : String)
    (machine : Machine) (op : Op) :
    lookup_matrix_setup_min ctx prev_state next_state machine op =
      setup_lookup_spec ctx prev_state next_state machine op := by
  have hid : lookup_mat_id ctx machine op = resolved_matrix_id_spec ctx machine op := by
    unfold lookup_mat_id resolved_matrix_id_spec
    cases machine.setup_matrix_id with
    | some v => rfl
    | none =>
      cases op.setup_matrix_id with
      | some v => rfl
      | none => rfl
  have hcell : lookup_cell ctx prev_state next_state machine op =
      ((resolved_matrix_id_spec ctx machine op).bind (idxSetupMat ctx)).bind
        (fun mat => matrixCell mat prev_state next_state) := by
    unfold lookup_cell
    rw [← hid]
    cases lookup_mat_id ctx machine op with
    | none => rfl
    | some mid =>
      dsimp only [Option.bind]
      cases hs : idxSetupMat ctx mid with
      | none => rfl
      | some mat => rfl
  have hfb : lookup_fixed_fallback ctx machine op = fixed_fallback_spec ctx machine op := by
    unfold lookup_fixed_fallback fixed_fallback_spec
    cases op.setup_time_fixed_min with
    | some v => rfl
    | none =>
      cases op.setup_time_fixed with
      | some v => rfl
      | none =>
        cases machine.default_setup_min with
        | some v => rfl
        | none =>
          cases (idxWc ctx op.work_center_id).bind (fun w => w.default_setup_min) with
          | some v => rfl
          | none => rfl
  unfold lookup_matrix_setup_min setup_lookup_spec
  rw [hcell, hfb]

/- ===================== Claim C9 ===================== -/

/-- C9: skip atomicity.  When a batch finds no candidate routing or no
routing attempt yields a plan, the per-batch body leaves the committed
machine_free, machine_state and ot_used (and the schedule) untouched
and only increments skipped. -/
theorem C9_skip_atomicity (ctx : Context) (winsOf : String → List Window)
    (ot_cap_min : Option ℚ) (allow_preempt : Bool) (earliest_release : Time)
    (st : OnceState) (batch : Batch)
    (h : product_routing_candidates ctx batch.product_id = [] ∨
      (bestPlanOf ctx winsOf ot_cap_min allow_preempt earliest_release st batch
        (product_routing_candidates ctx batch.product_id)).1 = none) :
    (processBatch ctx winsOf ot_cap_min allow_preempt earliest_release st batch).machine_free
        = st.machine_free ∧
    (processBatch ctx winsOf ot_cap_min allow_preempt earliest_release st batch).machine_state
        = st.machine_state ∧
    (processBatch ctx winsOf ot_cap_min allow_preempt earliest_release st batch).ot_used
        = st.ot_used ∧
    (processBatch ctx winsOf ot_cap_min allow_preempt earliest_release st batch).schedule
        = st.schedule ∧
    (processBatch ctx winsOf ot_cap_min allow_preempt earliest_release st batch).skipped
        = st.skipped + 1 := by
  unfold processBatch
  cases hc : product_routing_candidates ctx batch.product_id with
  | nil => exact ⟨rfl, rfl, rfl, rfl, rfl⟩
  | cons c cs =>
    rcases h with h | h
    · rw [hc] at h; cases h
    · rw [hc] at h
      simp only [h]
      exact ⟨trivial, trivial, trivial, trivial, trivial⟩

/-- A context whose product P has no candidate routing, used to witness
C9 at a concrete input. -/
def ctxW9 : Context :=
  { products := [{ product_id := "P", routing_ids := [], routing_id := none, lot_size := none }],
    routings := [], work_centers := [], machines := [],
    setup_matrices := [], speed_overrides := [], orders := [],
    calendar := { holidays := [], machine_maintenances := [], ot_windows := [],
                  ot_cap_hours_per_day := none, breaks := [] },
    shifts := [],
    settings := { w_makespan := none, w_tardiness := none, w_setup_cost := none,
                  w_preemption_cost := none },
    allow_job_preemption := true }

/-- A batch of product P. -/
def batchW9 : Batch :=
  { batch_id := "B1", order_id := "O1", product_id := "P", qty := 1, priority := 1,
    due_date := 1440, release_date := 0 }

/-- A concrete committed state. -/
def stW9 : OnceState :=
  { schedule := [], skipped := 0, machine_free := fun _ => 0,
    machine_state := fun _ => "clean", ot_used := fun _ _ => 0, fail_stats := fun _ => 0 }

/-- Witness for C9 at a concrete skipped batch. -/
theorem C9_skip_atomicity_witness :
    (product_routing_candidates ctxW9 batchW9.product_id = [] ∨
      (bestPlanOf ctxW9 (fun _ => []) none true 0 stW9 batchW9
        (product_routing_candidates ctxW9 batchW9.product_id)).1 = none) ∧
    (processBatch ctxW9 (fun _ => []) none true 0 stW9 batchW9).machine_free
        = stW9.machine_free ∧
    (processBatch ctxW9 (fun _ => []) none true 0 stW9 batchW9).machine_state
        = stW9.machine_state ∧
    (processBatch ctxW9 (fun _ => []) none true 0 stW9 batchW9).ot_used
        = stW9.ot_used ∧
    (processBatch ctxW9 (fun _ => []) none true 0 stW9 batchW9).schedule
        = stW9.schedule ∧
    (processBatch ctxW9 (fun _ => []) none true 0 stW9 batchW9).skipped
        = stW9.skipped + 1 :=
  ⟨Or.inl rfl, C9_skip_atomicity ctxW9 (fun _ => []) none true 0 stW9 batchW9 (Or.inl rfl)⟩

/- ===================== Claim C10 ===================== -/

/-- Sum of the chunk list: with a positive target and enough fuel the
while-loop of build_batches emits chunks summing to the remaining
quantity. -/
theorem splitQtysGo_sum (t : ℤ) (fuel : ℕ) : ∀ r : ℤ, 1 ≤ t → 0 ≤ r → r ≤ (fuel : ℤ) →
    (splitQtysGo t fuel r).sum = r := by
  induction fuel with
  | zero =>
    intro r ht h0 hle
    have : r = 0 := le_antisymm (by exact_mod_cast hle) h0
    subst this
    simp [splitQtysGo]
  | succ fuel ih =>
    intro r ht h0 hle
    by_cases hr : r > 0
    · have htake1 : (1 : ℤ) ≤ min r t := le_min hr ht
      have htake2 : min r t ≤ r := min_le_left r t
      simp only [splitQtysGo, if_pos hr, List.sum_cons]
      rw [ih (r - min r t) ht (by omega) (by push_cast at hle ⊢; omega)]
      ring
    · have : r = 0 := le_antisymm (by omega) h0
      subst this
      simp [splitQtysGo]

/-- The target chunk quantity of one order line (max_batch with a
Painting routing, min_batch otherwise). -/
def line_target (ctx : Context) (pid : String) (qty_total : ℤ) : ℤ :=
  if has_painting ctx pid then (derive_batch_rule_for_product ctx pid qty_total).2
  else (derive_batch_rule_for_product ctx pid qty_total).1

/-- C10: for a known product and a nonnegative line quantity, when the
derived target chunk is at least 1 the emitted batch quantities sum to
the line quantity; a zero quantity emits no batches. -/
theorem C10_qty_conservation (ctx : Context) (pid : String) (q : ℤ)
    (hq : 0 ≤ q) (hp : (idxProduct ctx pid).isSome)
    (ht : 1 ≤ line_target ctx pid q) :
    (line_batch_qtys ctx pid q).sum = q ∧
    (q = 0 → line_batch_qtys ctx pid q = []) := by
  unfold line_batch_qtys
  cases hfind : idxProduct ctx pid with
  | none => rw [hfind] at hp; simp at hp
  | some p =>
    simp only
    unfold line_target at ht
    have hle : q ≤ ((q.toNat : ℕ) : ℤ) := by omega
    constructor
    · unfold split_qtys
      cases hpaint : has_painting ctx pid with
      | false =>
        simp only [hpaint] at ht ⊢
        simp only [Bool.false_eq_true, if_false] at ht ⊢
        exact splitQtysGo_sum _ _ q ht hq hle
      | true =>
        simp only [hpaint] at ht ⊢
        simp only [if_true] at ht ⊢
        exact splitQtysGo_sum _ _ q ht hq hle
    · intro h0
      subst h0
      rfl

/-- A context with one product P and one routing whose first batchable
op carries a min 2 max 5 lot rule, to witness C10. -/
def ctxW10 : Context :=
  { products := [{ product_id := "P", routing_ids := ["R"], routing_id := none, lot_size := none }],
    routings := [{ routing_id := "R", operations :=
      [{ op_no := 1, name := "Cut", work_center_id := "W", setup_state_key := none,
         proc_time_per_unit_min := some 1, proc_time_per_unit := none,
         setup_time_fixed_min := none, setup_time_fixed := none, setup_matrix_id := none,
         batchable := true, batch := some { min_batch_qty := some 2, max_batch_qty := some 5 },
         preemptable := false, preemption_overhead_min := 0 }] }],
    work_centers := [], machines := [], setup_matrices := [], speed_overrides := [],
    orders := [],
    calendar := { holidays := [], machine_maintenances := [], ot_windows := [],
                  ot_cap_hours_per_day := none, breaks := [] },
    shifts := [],
    settings := { w_makespan := none, w_tardiness := none, w_setup_cost := none,
                  w_preemption_cost := none },
    allow_job_preemption := true }

/-- Witness for C10 at a concrete line of 5 units. -/
theorem C10_qty_conservation_witness :
    (0 ≤ (5 : ℤ) ∧ (idxProduct ctxW10 "P").isSome ∧ 1 ≤ line_target ctxW10 "P" 5) ∧
    ((line_batch_qtys ctxW10 "P" 5).sum = 5 ∧
      ((5 : ℤ) = 0 → line_batch_qtys ctxW10 "P" 5 = [])) :=
  ⟨⟨by decide, by decide, by decide⟩,
    C10_qty_conservation ctxW10 "P" 5 (by decide) (by decide) (by decide)⟩

/- ===================== Claim C6 ===================== -/

/-- Latest due date over a chromosome (0 for the unreachable empty
case). -/
def maxDue (chrom : List Batch) : Time :=
  match chrom with
  | [] => 0
  | b :: rest => rest.foldl (fun a x => max a x.due_date) b.due_date

/-- The rank of a decode attempt: (skipped, makespan). -/
def rankOf (st : OnceState) : ℕ × Option Time := (st.skipped, attemptMakespan st)

/-- Makespan as a value of a linear order in which a missing makespan
is largest (datetime.max). -/
def mkTop : Option Time → WithTop ℚ
  | none => ⊤
  | some x => (x : WithTop ℚ)

/-- Key of an attempt in the lexicographic linear order. -/
def rankKeyOf (st : OnceState) : Lex (ℕ × WithTop ℚ) :=
  toLex (st.skipped, mkTop (attemptMakespan st))

/-- The decode attempts actually performed: the base horizon always,
+7 days only when skips remain, +14 only when they still remain. -/
def decode_attempts (ctx : Context) (chrom : List Batch) : List OnceState :=
  let base_days := (auto_horizon_days chrom).toNat
  let a0 := schedule_once ctx chrom (base_days + 0) (fun _ => 0)
  let a7 := schedule_once ctx chrom (base_days + 7) (fun _ => 0)
  let a14 := schedule_once ctx chrom (base_days + 14) (fun _ => 0)
  if a0.skipped = 0 then [a0] else if a7.skipped = 0 then [a0, a7] else [a0, a7, a14]

/-- The boolean rank comparison agrees with the lexicographic order on
(skipped, makespan with missing largest). -/
theorem rankLt_iff (r1 r2 : ℕ × Option Time) :
    rankLt r1 r2 = true ↔
      (toLex (r1.1, mkTop r1.2) : Lex (ℕ × WithTop ℚ)) < toLex (r2.1, mkTop r2.2) := by
  rcases r1 with ⟨s1, m1⟩
  rcases r2 with ⟨s2, m2⟩
  rw [Prod.Lex.lt_iff]
  unfold rankLt mkTop
  cases m1 <;> cases m2 <;>
    simp [WithTop.coe_lt_top, WithTop.coe_lt_coe, lt_irrefl]

/-- pickBetter returns one of its two arguments. -/
theorem pickBetter_cases (b c : OnceState) :
    pickBetter b c = b ∨ pickBetter b c = c := by
  unfold pickBetter
  by_cases h : rankLt (c.skipped, attemptMakespan c) (b.skipped, attemptMakespan b) = true
  · right; simp [h]
  · left; simp [Bool.eq_false_iff.mpr h]

/-- The key of pickBetter is the minimum of the two keys. -/
theorem pickBetter_key (b c : OnceState) :
    rankKeyOf (pickBetter b c) = min (rankKeyOf b) (rankKeyOf c) := by
  unfold pickBetter rankKeyOf
  by_cases h : rankLt (c.skipped, attemptMakespan c) (b.skipped, attemptMakespan b) = true
  · have hlt := (rankLt_iff (c.skipped, attemptMakespan c) (b.skipped, attemptMakespan b)).mp h
    simp only [h, if_true]
    exact (min_eq_right (le_of_lt hlt)).symm
  · have hle : (toLex (b.skipped, mkTop (attemptMakespan b)) : Lex (ℕ × WithTop ℚ)) ≤
        toLex (c.skipped, mkTop (attemptMakespan c)) := by
      by_contra hcon
      exact h ((rankLt_iff _ _).mpr (not_le.mp hcon))
    simp only [Bool.eq_false_iff.mpr h, if_false]
    exact (min_eq_left hle).symm

/-- rankLt is false whenever the key of the right argument is at most
the key of the left. -/
theorem rankLt_eq_false_of_le (x best : OnceState)
    (h : rankKeyOf best ≤ rankKeyOf x) :
    rankLt (rankOf x) (rankOf best) = false := by
  rw [Bool.eq_false_iff]
  intro hcon
  have := (rankLt_iff (rankOf x) (rankOf best)).mp hcon
  exact absurd this (not_lt.mpr h)

/-- The horizon arithmetic: the inner max-1 clamp of the source is
redundant under the outer max 7. -/
theorem horizon_arith (d : ℤ) :
    max 7 (min (max 1 d + 3) 60) = max 7 (min 60 (d + 3)) := by omega

/-- C6: for a non-empty chromosome the base horizon is
max(7, min(60, days between extreme due and release dates + 3)); the
decoder retries at +7 and then +14 days only while skips remain, and
decode returns the performed attempt whose (skipped, makespan) pair is
lexicographically smallest (ties to the earliest attempt), including
the fail stats of that attempt. -/
theorem C6_decode_horizon_retry (ctx : Context) (chrom : List Batch) (hne : chrom ≠ []) :
    auto_horizon_days chrom =
      max 7 (min 60 (Int.floor ((maxDue chrom - minRelease chrom) / 1440) + 3)) ∧
    ∃ best ∈ decode_attempts ctx chrom,
      decode ctx chrom =
        { schedule := best.schedule, skipped := best.skipped, fail_stats := best.fail_stats } ∧
      ∀ x ∈ decode_attempts ctx chrom, rankLt (rankOf x) (rankOf best) = false := by
  constructor
  · match chrom, hne with
    | b :: rest, _ =>
      show auto_horizon_days (b :: rest) = _
      unfold auto_horizon_days maxDue minRelease
      exact horizon_arith _
  · match chrom, hne with
    | b :: rest, _ =>
      unfold decode decode_attempts
      dsimp only
      set a0 := schedule_once ctx (b :: rest) ((auto_horizon_days (b :: rest)).toNat + 0)
        (fun _ => 0) with ha0
      set a7 := schedule_once ctx (b :: rest) ((auto_horizon_days (b :: rest)).toNat + 7)
        (fun _ => 0) with ha7
      set a14 := schedule_once ctx (b :: rest) ((auto_horizon_days (b :: rest)).toNat + 14)
        (fun _ => 0) with ha14
      by_cases h0 : a0.skipped = 0
      · simp only [h0, if_true]
        refine ⟨a0, List.mem_singleton_self a0, by rw [h0], ?_⟩
        intro x hx
        rw [List.mem_singleton] at hx
        subst hx
        exact rankLt_eq_false_of_le a0 a0 (le_refl _)
      · simp only [h0, if_false]
        by_cases h7 : a7.skipped = 0
        · simp only [h7, if_true]
          have hmem : pickBetter a0 a7 ∈ [a0, a7] := by
            rcases pickBetter_cases a0 a7 with h | h
            · rw [h]; exact List.mem_cons_self _ _
            · rw [h]; exact List.mem_cons_of_mem _ (List.mem_cons_self _ _)
          refine ⟨pickBetter a0 a7, hmem, rfl, ?_⟩
          intro x hx
          have hkey := pickBetter_key a0 a7
          rcases List.mem_cons.mp hx with hx | hx
          · subst hx
            exact rankLt_eq_false_of_le _ _ (hkey ▸ min_le_left _ _)
          · rw [List.mem_singleton] at hx
            subst hx
            exact rankLt_eq_false_of_le _ _ (hkey ▸ min_le_right _ _)
        · simp only [h7, if_false]
          have hmem : pickBetter (pickBetter a0 a7) a14 ∈ [a0, a7, a14] := by
            rcases pickBetter_cases (pickBetter a0 a7) a14 with h | h
            · rcases pickBetter_cases a0 a7 with h2 | h2
              · rw [h, h2]; exact List.mem_cons_self _ _
              · rw [h, h2]; exact List.mem_cons_of_mem _ (List.mem_cons_self _ _)
            · rw [h]
              exact List.mem_cons_of_mem _ (List.mem_cons_of_mem _ (List.mem_cons_self _ _))
          refine ⟨pickBetter (pickBetter a0 a7) a14, hmem, rfl, ?_⟩
          intro x hx
          have hkey1 := pickBetter_key (pickBetter a0 a7) a14
          have hkey2 := pickBetter_key a0 a7
          have hle0 : rankKeyOf (pickBetter (pickBetter a0 a7) a14) ≤ rankKeyOf a0 := by
            rw [hkey1, hkey2]
            exact le_trans (min_le_left _ _) (min_le_left _ _)
          have hle7 : rankKeyOf (pickBetter (pickBetter a0 a7) a14) ≤ rankKeyOf a7 := by
            rw [hkey1, hkey2]
            exact le_trans (min_le_left _ _) (min_le_right _ _)
          have hle14 : rankKeyOf (pickBetter (pickBetter a0 a7) a14) ≤ rankKeyOf a14 := by
            rw [hkey1]
            exact min_le_right _ _
          rcases List.mem_cons.mp hx with hx | hx
          · subst hx; exact rankLt_eq_false_of_le _ _ hle0
          · rcases List.mem_cons.mp hx with hx | hx
            · subst hx; exact rankLt_eq_false_of_le _ _ hle7
            · rw [List.mem_singleton] at hx
              subst hx; exact rankLt_eq_false_of_le _ _ hle14

/-- Witness for C6 at a concrete one-batch chromosome. -/
theorem C6_decode_horizon_retry_witness :
    ([batchW9] : List Batch) ≠ [] ∧
    (auto_horizon_days [batchW9] =
      max 7 (min 60 (Int.floor ((maxDue [batchW9] - minRelease [batchW9]) / 1440) + 3)) ∧
    ∃ best ∈ decode_attempts ctxW9 [batchW9],
      decode ctxW9 [batchW9] =
        { schedule := best.schedule, skipped := best.skipped, fail_stats := best.fail_stats } ∧
      ∀ x ∈ decode_attempts ctxW9 [batchW9], rankLt (rankOf x) (rankOf best) = false) :=
  ⟨by simp, C6_decode_horizon_retry ctxW9 [batchW9] (by simp)⟩

/- ===================== Claim C3 ===================== -/

/-- Merge of two optional maxima. -/
def optMergeT : Option Time → Option Time → Option Time
  | none, r => r
  | some v, none => some v
  | some v, some u => some (max v u)

def order_last_finish : List Step → String → Option Time
  | [], _ => none
  | s :: rest, k =>
    if s.order_id = k then
      some (match order_last_finish rest k with
            | none => s.finish
            | some v => max s.finish v)
    else order_last_finish rest k

def lfLookup (l : List (String × Time)) (k : String) : Option Time :=
  (l.find? (fun p => p.1 = k)).map (fun p => p.2)

def order_due (ctx : Context) (k : String) : Option Time :=
  (ctx.orders.find? (fun o => o.order_id = k)).map (fun o => o.due_date)

def distinct_order_ids (schedule : List Step) : List String :=
  schedule.foldl (fun ks s => if s.order_id ∈ ks then ks else ks ++ [s.order_id]) []

def tardinessSpec (ctx : Context) (schedule : List Step) : ℚ :=
  ((distinct_order_ids schedule).map (fun k =>
    match order_due ctx k, order_last_finish schedule k with
    | some due, some fin => max (fin - due) 0
    | _, _ => 0)).sum

def maxFinishOf (schedule : List Step) : Time :=
  match schedule with
  | [] => 0
  | s :: rest => rest.foldl (fun a x => max a x.finish) s.finish

def minStartOf (schedule : List Step) : Time :=
  match schedule with
  | [] => 0
  | s :: rest => rest.foldl (fun a x => min a x.start) s.start

theorem lfGo_lookup (l : List (String × Time)) (s : Step) (k : String) :
    lfLookup (lfGo l s) k =
      if k = s.order_id then
        some (match lfLookup l k with
              | none => s.finish
              | some v => max v s.finish)
      else lfLookup l k := by
  induction l with
  | nil =>
    by_cases hk : k = s.order_id
    · simp [lfGo, lfLookup, hk]
    · have hsk : ¬ (s.order_id = k) := fun h => hk (Eq.symm h)
      simp [lfGo, lfLookup, hk, hsk]
  | cons p rest ih =>
    rcases p with ⟨k0, v0⟩
    by_cases h0 : k0 = s.order_id
    · subst h0
      by_cases hk : k = s.order_id
      · subst hk
        simp [lfGo, lfLookup]
      · have hkk : ¬ (s.order_id = k) := fun h => hk (Eq.symm h)
        simp [lfGo, lfLookup, hk, hkk]
    · by_cases hk : k = k0
      · subst hk
        have hne : ¬ (k = s.order_id) := by
          intro h
          exact h0 h
        simp [lfGo, lfLookup, h0, hne]
      · have hkk : ¬ (k0 = k) := fun h => hk (Eq.symm h)
        simp only [lfGo, if_neg h0, lfLookup, List.find?, List.map_cons,
          decide_eq_true_eq, hkk, decide_eq_false hkk]
        simp only [lfLookup] at ih
        exact ih

theorem lastFinish_fold (sched : List Step) : ∀ (acc : List (String × Time)) (k : String),
    lfLookup (sched.foldl lfGo acc) k =
      optMergeT (lfLookup acc k) (order_last_finish sched k) := by
  induction sched with
  | nil =>
    intro acc k
    simp only [List.foldl_nil, order_last_finish]
    cases h : lfLookup acc k <;> simp [optMergeT, h]
  | cons s rest ih =>
    intro acc k
    rw [List.foldl_cons, ih (lfGo acc s) k, lfGo_lookup]
    by_cases hk : k = s.order_id
    · subst hk
      simp only [if_pos rfl, order_last_finish, if_pos rfl]
      cases hacc : lfLookup acc s.order_id <;>
        cases holf : order_last_finish rest s.order_id <;>
          simp [optMergeT, hacc, holf, max_assoc, max_comm, max_left_comm,
            sup_assoc, sup_comm, sup_left_comm]
    · have hsk : ¬ (s.order_id = k) := fun h => hk (Eq.symm h)
      simp only [if_neg hk, order_last_finish, if_neg hsk]

theorem lfGo_keys (l : List (String × Time)) (s : Step) :
    (lfGo l s).map Prod.fst =
      if s.order_id ∈ l.map Prod.fst then l.map Prod.fst
      else l.map Prod.fst ++ [s.order_id] := by
  induction l with
  | nil => simp [lfGo]
  | cons p rest ih =>
    rcases p with ⟨k0, v0⟩
    by_cases h0 : k0 = s.order_id
    · subst h0
      simp [lfGo]
    · have hns : ¬ (s.order_id = k0) := fun h => h0 (Eq.symm h)
      simp only [lfGo, if_neg h0, List.map_cons, List.mem_cons, hns, false_or]
      rw [ih]
      by_cases hm : s.order_id ∈ rest.map Prod.fst <;> simp [hm]

theorem lastFinish_keys (sched : List Step) : ∀ (acc : List (String × Time)),
    ((sched.foldl lfGo acc).map Prod.fst) =
      sched.foldl (fun ks s => if s.order_id ∈ ks then ks else ks ++ [s.order_id])
        (acc.map Prod.fst) := by
  induction sched with
  | nil => intro acc; rfl
  | cons s rest ih =>
    intro acc
    rw [List.foldl_cons, List.foldl_cons, ih (lfGo acc s), lfGo_keys]

theorem keyIns_nodup (sched : List Step) : ∀ (ks : List String), ks.Nodup →
    (sched.foldl (fun ks s => if s.order_id ∈ ks then ks else ks ++ [s.order_id]) ks).Nodup := by
  induction sched with
  | nil => intro ks h; exact h
  | cons s rest ih =>
    intro ks h
    rw [List.foldl_cons]
    by_cases hm : s.order_id ∈ ks
    · simp only [if_pos hm]
      exact ih ks h
    · simp only [if_neg hm]
      refine ih _ ?_
      simp [List.nodup_append, h, hm]

theorem assoc_lookup_of_mem (l : List (String × Time)) (p : String × Time)
    (hnd : (l.map Prod.fst).Nodup) (hm : p ∈ l) : lfLookup l p.1 = some p.2 := by
  induction l with
  | nil => cases hm
  | cons q rest ih =>
    rcases List.mem_cons.mp hm with h | h
    · subst h
      simp [lfLookup]
    · have hq : ¬ (q.1 = p.1) := by
        intro hqe
        rw [List.map_cons, List.nodup_cons] at hnd
        exact hnd.1 (hqe ▸ List.mem_map_of_mem Prod.fst h)
      rw [List.map_cons, List.nodup_cons] at hnd
      simp only [lfLookup, List.find?, decide_eq_false hq]
      simpa [lfLookup] using ih hnd.2 h

theorem foldl_add_map {β : Type} (f : β → ℚ) (l : List β) : ∀ (a : ℚ),
    l.foldl (fun acc x => acc + f x) a = a + (l.map f).sum := by
  induction l with
  | nil => intro a; simp
  | cons x rest ih =>
    intro a
    rw [List.foldl_cons, ih (a + f x)]
    simp [add_assoc]

theorem foldl_add_map_nat {β : Type} (f : β → ℕ) (l : List β) : ∀ (a : ℕ),
    l.foldl (fun acc x => acc + f x) a = a + (l.map f).sum := by
  induction l with
  | nil => intro a; simp
  | cons x rest ih =>
    intro a
    rw [List.foldl_cons, ih (a + f x)]
    simp [add_assoc]

theorem tardFold (dues : List (String × Time)) (l : List (String × Time)) :
    ∀ (a : ℚ),
    l.foldl (fun acc p =>
      match (dues.find? (fun q => q.1 = p.1)).map (fun q => q.2) with
      | none => acc
      | some due => acc + max (p.2 - due) 0) a =
    a + (l.map (fun p =>
      match (dues.find? (fun q => q.1 = p.1)).map (fun q => q.2) with
      | none => (0 : ℚ)
      | some due => max (p.2 - due) 0)).sum := by
  induction l with
  | nil => intro a; simp
  | cons p rest ih =>
    intro a
    rw [List.foldl_cons, List.map_cons, List.sum_cons]
    cases hd : (dues.find? (fun q => q.1 = p.1)).map (fun q => q.2) with
    | none =>
      simp only [hd]
      rw [ih a, zero_add]
    | some due =>
      simp only [hd]
      rw [ih (a + max (p.2 - due) 0), add_assoc]


theorem dueGo_lookup (l : List (String × Time)) (o : Order) (k : String) :
    lfLookup (dueGo l o) k =
      if k = o.order_id then some o.due_date else lfLookup l k := by
  induction l with
  | nil =>
    by_cases hk : k = o.order_id
    · simp [dueGo, lfLookup, hk]
    · have hok : ¬ (o.order_id = k) := fun h => hk (Eq.symm h)
      simp [dueGo, lfLookup, hk, hok]
  | cons p rest ih =>
    rcases p with ⟨k0, v0⟩
    by_cases h0 : k0 = o.order_id
    · subst h0
      by_cases hk : k = o.order_id
      · subst hk
        simp [dueGo, lfLookup]
      · have hok : ¬ (o.order_id = k) := fun h => hk (Eq.symm h)
        simp [dueGo, lfLookup, hk, hok]
    · by_cases hk : k = k0
      · subst hk
        have hne : ¬ (k = o.order_id) := fun h => h0 h
        simp [dueGo, lfLookup, h0, hne]
      · have hkk : ¬ (k0 = k) := fun h => hk (Eq.symm h)
        simp only [dueGo, if_neg h0, lfLookup, List.find?, decide_eq_false hkk]
        simp only [lfLookup] at ih
        exact ih

theorem dueFold_not_mem (orders : List Order) (k : String) :
    (∀ o ∈ orders, ¬ (o.order_id = k)) →
    ∀ (acc : List (String × Time)),
    lfLookup (orders.foldl dueGo acc) k = lfLookup acc k := by
  induction orders with
  | nil => intro _ acc; rfl
  | cons o rest ih =>
    intro hno acc
    rw [List.foldl_cons,
      ih (fun x hx => hno x (List.mem_cons_of_mem o hx)) (dueGo acc o), dueGo_lookup]
    have hne : ¬ (k = o.order_id) := fun h => hno o (List.mem_cons_self o rest) (Eq.symm h)
    simp [hne]

theorem dueLookup_eq_order_due (ctx : Context)
    (h : (ctx.orders.map (fun o => o.order_id)).Nodup) (k : String) :
    lfLookup (dueByOrder ctx) k = order_due ctx k := by
  unfold dueByOrder order_due
  have main : ∀ (orders : List Order), (orders.map (fun o => o.order_id)).Nodup →
      ∀ (acc : List (String × Time)),
      lfLookup (orders.foldl dueGo acc) k =
        match orders.find? (fun o => o.order_id = k) with
        | some o => some o.due_date
        | none => lfLookup acc k := by
    intro orders
    induction orders with
    | nil => intro _ acc; rfl
    | cons o rest ih =>
      intro hnd acc
      rw [List.map_cons, List.nodup_cons] at hnd
      by_cases hk : o.order_id = k
      · have hrest : ∀ x ∈ rest, ¬ (x.order_id = k) := by
          intro x hx hxk
          exact hnd.1 (by
            rw [hk, ← hxk]
            exact List.mem_map_of_mem (fun o => o.order_id) hx)
        rw [List.foldl_cons, dueFold_not_mem rest k hrest (dueGo acc o), dueGo_lookup]
        have hk2 : k = o.order_id := Eq.symm hk
        rw [if_pos hk2]
        simp [List.find?, hk]
      · rw [List.foldl_cons, ih hnd.2 (dueGo acc o)]
        have hfind : List.find? (fun o => o.order_id = k) (o :: rest) =
            List.find? (fun o => o.order_id = k) rest := by
          simp [List.find?, hk]
        rw [hfind]
        cases rest.find? (fun o => o.order_id = k) with
        | some q => rfl
        | none =>
          rw [dueGo_lookup]
          have hne : ¬ (k = o.order_id) := fun hc => hk (Eq.symm hc)
          simp [hne]
  have hm := main ctx.orders h []
  rw [hm]
  cases ctx.orders.find? (fun o => o.order_id = k) <;> simp [lfLookup]

/-- C3: evaluate returns exactly 1e12 + 1e9 skipped on an empty
schedule; otherwise the weighted sum of span, per-order tardiness,
total setup minutes and total splits plus 1e6 skipped, with weights
read from the settings and defaulting to 1, 10, 5 and 0. -/
theorem C3_evaluate (ctx : Context) (schedule : List Step) (skipped : ℕ)
    (horders : (ctx.orders.map (fun o => o.order_id)).Nodup) :
    (schedule = [] →
      evaluate ctx schedule skipped = 1000000000000 + 1000000000 * (skipped : ℚ)) ∧
    (schedule ≠ [] →
      evaluate ctx schedule skipped =
        ((ctx.settings.w_makespan).getD 1) * (maxFinishOf schedule - minStartOf schedule) +
        ((ctx.settings.w_tardiness).getD 10) * tardinessSpec ctx schedule +
        ((ctx.settings.w_setup_cost).getD 5) * ((schedule.map (fun x => x.setup_min)).sum) +
        ((ctx.settings.w_preemption_cost).getD 0) *
          (((schedule.map (fun x => x.splits)).sum : ℕ) : ℚ) +
        1000000 * (skipped : ℚ)) := by
  constructor
  · intro he
    subst he
    rfl
  · intro hne
    match schedule, hne with
    | s :: rest, _ =>
      show evaluate ctx (s :: rest) skipped = _
      unfold evaluate
      dsimp only
      have hsetup : (s :: rest).foldl (fun a x => a + x.setup_min) 0 =
          ((s :: rest).map (fun x => x.setup_min)).sum := by
        rw [foldl_add_map]
        rw [zero_add]
      have hsplits : (s :: rest).foldl (fun a x => a + x.splits) 0 =
          ((s :: rest).map (fun x => x.splits)).sum := by
        rw [foldl_add_map_nat, Nat.zero_add]
      have htard : (lastFinishByOrder (s :: rest)).foldl (fun acc p =>
          match ((dueByOrder ctx).find? (fun q => q.1 = p.1)).map (fun q => q.2) with
          | none => acc
          | some due => acc + max (p.2 - due) 0) 0 = tardinessSpec ctx (s :: rest) := by
        rw [tardFold, zero_add]
        unfold tardinessSpec
        have hkeysnd : ((lastFinishByOrder (s :: rest)).map Prod.fst).Nodup := by
          unfold lastFinishByOrder
          rw [lastFinish_keys]
          exact keyIns_nodup (s :: rest) [] List.nodup_nil
        have hpair : ∀ p ∈ lastFinishByOrder (s :: rest),
            order_last_finish (s :: rest) p.1 = some p.2 := by
          intro p hp
          have h1 := assoc_lookup_of_mem _ p hkeysnd hp
          have h2 := lastFinish_fold (s :: rest) [] p.1
          unfold lastFinishByOrder at h1
          rw [h1] at h2
          have h3 : lfLookup [] p.1 = none := rfl
          rw [h3] at h2
          cases holf : order_last_finish (s :: rest) p.1 with
          | none => rw [holf] at h2; cases h2
          | some v => rw [holf] at h2; simp only [optMergeT] at h2; rw [h2]
        have hcongr : (lastFinishByOrder (s :: rest)).map (fun p =>
            match ((dueByOrder ctx).find? (fun q => q.1 = p.1)).map (fun q => q.2) with
            | none => (0 : ℚ)
            | some due => max (p.2 - due) 0) =
          ((lastFinishByOrder (s :: rest)).map Prod.fst).map (fun k =>
            match order_due ctx k, order_last_finish (s :: rest) k with
            | some due, some fin => max (fin - due) 0
            | _, _ => 0) := by
          rw [List.map_map]
          refine List.map_congr_left ?_
          intro p hp
          have hdue : ((dueByOrder ctx).find? (fun q => q.1 = p.1)).map (fun q => q.2) =
              order_due ctx p.1 := dueLookup_eq_order_due ctx horders p.1
          rw [hdue]
          show _ = (match order_due ctx p.1, order_last_finish (s :: rest) p.1 with
            | some due, some fin => max (fin - due) 0
            | _, _ => (0 : ℚ))
          rw [hpair p hp]
          cases order_due ctx p.1 <;> rfl
        rw [hcongr]
        have hkeys : (lastFinishByOrder (s :: rest)).map Prod.fst =
            distinct_order_ids (s :: rest) := by
          unfold lastFinishByOrder distinct_order_ids
          rw [lastFinish_keys]
          rfl
        rw [hkeys]
      rw [hsetup, hsplits, htard]
      rfl

/-- Witness for C3 at a concrete input discharging the nodup
hypothesis. -/
theorem C3_evaluate_witness :
    ((ctxW9.orders.map (fun o => o.order_id)).Nodup) ∧
    ((([] : List Step) = [] →
      evaluate ctxW9 [] 2 = 1000000000000 + 1000000000 * ((2 : ℕ) : ℚ)) ∧
    (([] : List Step) ≠ [] →
      evaluate ctxW9 [] 2 =
        ((ctxW9.settings.w_makespan).getD 1) * (maxFinishOf [] - minStartOf []) +
        ((ctxW9.settings.w_tardiness).getD 10) * tardinessSpec ctxW9 [] +
        ((ctxW9.settings.w_setup_cost).getD 5) *
          ((([] : List Step).map (fun x => x.setup_min)).sum) +
        ((ctxW9.settings.w_preemption_cost).getD 0) *
          (((([] : List Step).map (fun x => x.splits)).sum : ℕ) : ℚ) +
        1000000 * ((2 : ℕ) : ℚ))) :=
  ⟨by decide, C3_evaluate ctxW9 [] 2 (by decide)⟩

/- ===================== Claim C7 ===================== -/

/-- Keys of the placed batches of a child, in slot order. -/
def keysOfChild (c : List (Option Batch)) :
    List (String × String × String × ℚ × Time × Time) :=
  (c.filterMap id).map chrom_key_item

theorem findFreeFrom_sound (c : List (Option Batch)) :
    ∀ (fuel idx j : ℕ), findFreeFrom c idx fuel = some j →
      c.get? j = some none ∧ j < c.length := by
  intro fuel
  induction fuel with
  | zero => intro idx j h; cases h
  | succ fuel ih =>
    intro idx j h
    unfold findFreeFrom at h
    cases hg : c.get? (idx % c.length) with
    | none => rw [hg] at h; exact ih (idx + 1) j h
    | some o =>
      cases o with
      | none =>
        rw [hg] at h
        cases h
        exact ⟨hg, (List.get?_eq_some.mp hg).1⟩
      | some x => rw [hg] at h; exact ih (idx + 1) j h

theorem findFreeFrom_none (c : List (Option Batch)) :
    ∀ (fuel idx : ℕ), findFreeFrom c idx fuel = none →
      ∀ t < fuel, ¬ (c.get? ((idx + t) % c.length) = some none) := by
  intro fuel
  induction fuel with
  | zero => intro idx h t ht; omega
  | succ fuel ih =>
    intro idx h t ht
    unfold findFreeFrom at h
    cases hg : c.get? (idx % c.length) with
    | none =>
      rw [hg] at h
      match t with
      | 0 => intro hc; rw [Nat.add_zero] at hc; rw [hg] at hc; cases hc
      | Nat.succ t2 =>
        have : idx + (t2 + 1) = (idx + 1) + t2 := by omega
        rw [this]
        exact ih (idx + 1) h t2 (by omega)
    | some o =>
      cases o with
      | none => rw [hg] at h; cases h
      | some x =>
        rw [hg] at h
        match t with
        | 0 => intro hc; rw [Nat.add_zero] at hc; rw [hg] at hc; cases hc
        | Nat.succ t2 =>
          have : idx + (t2 + 1) = (idx + 1) + t2 := by omega
          rw [this]
          exact ih (idx + 1) h t2 (by omega)

theorem findFreeFrom_exists (c : List (Option Batch)) (j : ℕ)
    (hj : j < c.length) (hfree : c.get? j = some none) (idx : ℕ) :
    findFreeFrom c idx c.length ≠ none := by
  intro hnone
  have hlen : 0 < c.length := Nat.lt_of_le_of_lt (Nat.zero_le j) hj
  have ht := findFreeFrom_none c c.length idx hnone
  set n := c.length with hn
  set t := (j + n - idx % n) % n with htdef
  have htlt : t < n := Nat.mod_lt _ hlen
  have harith : (idx + t) % n = j := by
    have h1 : idx % n < n := Nat.mod_lt _ hlen
    have h2 : (idx + t) % n = (idx % n + t) % n := by
      rw [Nat.mod_add_mod]
    rw [h2, htdef, Nat.add_mod_mod]
    have h3 : idx % n + (j + n - idx % n) = j + n := by omega
    rw [h3, Nat.add_mod_right]
    exact Nat.mod_eq_of_lt hj
  exact ht t htlt (by rw [harith]; exact hfree)

theorem keysOfChild_set (c : List (Option Batch)) :
    ∀ (j : ℕ) (x : Batch), c.get? j = some none →
      (keysOfChild (c.set j (some x))).Perm (chrom_key_item x :: keysOfChild c) := by
  induction c with
  | nil => intro j x h; cases h
  | cons o rest ih =>
    intro j x h
    match j with
    | 0 =>
      cases h
      simp [keysOfChild, List.filterMap_cons]
    | Nat.succ j2 =>
      have h2 : rest.get? j2 = some none := h
      cases o with
      | none =>
        have := ih j2 x h2
        simpa [keysOfChild, List.set, List.filterMap_cons] using this
      | some bb =>
        have := ih j2 x h2
        have hstep : keysOfChild ((some bb :: rest).set (j2 + 1) (some x)) =
            chrom_key_item bb :: keysOfChild (rest.set j2 (some x)) := by
          simp [keysOfChild, List.set, List.filterMap_cons]
        have hstep2 : keysOfChild (some bb :: rest) =
            chrom_key_item bb :: keysOfChild rest := by
          simp [keysOfChild, List.filterMap_cons]
        rw [hstep, hstep2]
        exact (this.cons _).trans (List.Perm.swap _ _ _)

theorem exists_none_of_filterMap_lt (c : List (Option Batch))
    (h : (c.filterMap id).length < c.length) :
    ∃ j, j < c.length ∧ c.get? j = some none := by
  induction c with
  | nil => simp at h
  | cons o rest ih =>
    cases o with
    | none => exact ⟨0, by simp, rfl⟩
    | some bb =>
      have h2 : (rest.filterMap id).length < rest.length := by
        simpa [List.filterMap_cons] using h
      obtain ⟨j, hj, hget⟩ := ih h2
      exact ⟨j + 1, by simpa using hj, hget⟩


theorem fill_inv (p1keys : List (String × String × String × ℚ × Time × Time))
    (hnd : p1keys.Nodup) :
    ∀ (l : List Batch)
      (st : List (Option Batch) × List (String × String × String × ℚ × Time × Time) × ℕ),
      (∀ x ∈ l, chrom_key_item x ∈ p1keys) →
      st.1.length = p1keys.length →
      (keysOfChild st.1).Perm st.2.1 →
      st.2.1.Nodup →
      (∀ k ∈ st.2.1, k ∈ p1keys) →
      ((l.foldl fillStep st).1.length = p1keys.length ∧
       (keysOfChild (l.foldl fillStep st).1).Perm (l.foldl fillStep st).2.1 ∧
       (l.foldl fillStep st).2.1.Nodup ∧
       (∀ k ∈ (l.foldl fillStep st).2.1, k ∈ p1keys) ∧
       (∀ k ∈ st.2.1, k ∈ (l.foldl fillStep st).2.1) ∧
       (∀ x ∈ l, chrom_key_item x ∈ (l.foldl fillStep st).2.1)) := by
  intro l
  induction l with
  | nil =>
    intro st _ h1 h2 h3 h4
    exact ⟨h1, h2, h3, h4, fun k hk => hk, fun x hx => absurd hx (List.not_mem_nil x)⟩
  | cons x rest ih =>
    intro st hmem h1 h2 h3 h4
    rw [List.foldl_cons]
    by_cases hkx : chrom_key_item x ∈ st.2.1
    · have hstep : fillStep st x = st := by unfold fillStep; rw [if_pos hkx]
      rw [hstep]
      obtain ⟨a1, a2, a3, a4, a5, a6⟩ :=
        ih st (fun y hy => hmem y (List.mem_cons_of_mem _ hy)) h1 h2 h3 h4
      refine ⟨a1, a2, a3, a4, a5, fun y hy => ?_⟩
      rcases List.mem_cons.mp hy with h | h
      · rw [h]; exact a5 _ hkx
      · exact a6 y h
    · have hxp1 : chrom_key_item x ∈ p1keys := hmem x (List.mem_cons_self _ _)
      have hsubnd : (chrom_key_item x :: st.2.1).Nodup := List.nodup_cons.mpr ⟨hkx, h3⟩
      have hsubsub : (chrom_key_item x :: st.2.1) ⊆ p1keys := by
        intro k hk
        rcases List.mem_cons.mp hk with h | h
        · rw [h]; exact hxp1
        · exact h4 k h
      have hlenlt : st.2.1.length < p1keys.length :=
        Nat.lt_of_succ_le (List.subperm_of_subset hsubnd hsubsub).length_le
      have hfm : (st.1.filterMap id).length = st.2.1.length := by
        have := h2.length_eq
        simpa [keysOfChild] using this
      have hflt : (st.1.filterMap id).length < st.1.length := by omega
      obtain ⟨j, hj, hfree⟩ := exists_none_of_filterMap_lt st.1 hflt
      have hne : findFreeFrom st.1 st.2.2 st.1.length ≠ none :=
        findFreeFrom_exists st.1 j hj hfree st.2.2
      cases hff : findFreeFrom st.1 st.2.2 st.1.length with
      | none => exact absurd hff hne
      | some j2 =>
        obtain ⟨hfree2, hj2⟩ := findFreeFrom_sound st.1 st.1.length st.2.2 j2 hff
        have hstep : fillStep st x =
            (st.1.set j2 (some x), st.2.1 ++ [chrom_key_item x], j2) := by
          unfold fillStep; rw [if_neg hkx, hff]
        rw [hstep]
        have hb1 : (st.1.set j2 (some x)).length = p1keys.length := by
          rw [List.length_set]; exact h1
        have hb2 : (keysOfChild (st.1.set j2 (some x))).Perm
            (st.2.1 ++ [chrom_key_item x]) :=
          (keysOfChild_set st.1 j2 x hfree2).trans
            ((h2.cons _).trans (List.perm_append_singleton _ _).symm)
        have hb3 : (st.2.1 ++ [chrom_key_item x]).Nodup :=
          (List.perm_append_singleton _ _).symm.nodup hsubnd
        have hb4 : ∀ k ∈ st.2.1 ++ [chrom_key_item x], k ∈ p1keys := by
          intro k hk
          rcases List.mem_append.mp hk with h | h
          · exact h4 k h
          · rw [List.mem_singleton.mp h]; exact hxp1
        obtain ⟨a1, a2, a3, a4, a5, a6⟩ :=
          ih (st.1.set j2 (some x), st.2.1 ++ [chrom_key_item x], j2)
            (fun y hy => hmem y (List.mem_cons_of_mem _ hy)) hb1 hb2 hb3 hb4
        refine ⟨a1, a2, a3, a4, fun k hk => a5 k (List.mem_append_left _ hk),
          fun y hy => ?_⟩
        rcases List.mem_cons.mp hy with h | h
        · rw [h]
          exact a5 _ (List.mem_append_right _ (List.mem_singleton_self _))
        · exact a6 y h

theorem norm_noop :
    ∀ (pool out : List Batch) (used : List (String × String × String × ℚ × Time × Time)),
      (∀ b ∈ pool, chrom_key_item b ∈ used) →
      (pool.foldl normStep (out, used)).1 = out := by
  intro pool
  induction pool with
  | nil => intro out used _; rfl
  | cons b rest ih =>
    intro out used h
    rw [List.foldl_cons]
    have hb : chrom_key_item b ∈ used := h b (List.mem_cons_self _ _)
    have hstep : normStep (out, used) b = (out, used) := by
      unfold normStep; rw [if_pos hb]
    rw [hstep]
    exact ih out used (fun y hy => h y (List.mem_cons_of_mem _ hy))

theorem filterMap_id_replicate_none (a : ℕ) :
    (List.replicate a (none : Option Batch)).filterMap id = [] := by
  induction a with
  | zero => rfl
  | succ a ih => simp [List.replicate_succ, List.filterMap_cons, ih]

theorem filterMap_id_map_some (l : List Batch) :
    (l.map some).filterMap id = l := by
  induction l with
  | nil => rfl
  | cons x rest ih => simp [List.filterMap_cons, ih]

/-- C7: for parents p1 and p2 that permute the same batch pool with
pairwise distinct identity keys (batch_id, order_id, product_id, qty,
release_date, due_date), the child produced by crossover with cut
points a ≤ b < n, after normalization against p1, has length n and
carries every batch identity exactly once (its key multiset is a
permutation of the pool's, which with nodup keys means exactly once),
with no residual None slots. -/
theorem C7_crossover_permutation (p1 p2 : List Batch) (a b : ℕ)
    (hnd : (p1.map chrom_key_item).Nodup)
    (hperm : p2.Perm p1) (hab : a ≤ b) (hb : b < p1.length) :
    ((crossover p1 p2 a b).map chrom_key_item).Perm (p1.map chrom_key_item) ∧
    (crossover p1 p2 a b).length = p1.length := by
  have hp2 : ∀ x ∈ p2, chrom_key_item x ∈ p1.map chrom_key_item := fun x hx =>
    List.mem_map_of_mem _ (hperm.subset hx)
  have hmain : ((crossover p1 p2 a b).map chrom_key_item).Perm
      (p1.map chrom_key_item) := by
    by_cases hn2 : p1.length < 2
    · have : crossover p1 p2 a b = p1 := by
        unfold crossover
        rw [if_pos hn2]
      rw [this]
    · have hcross : crossover p1 p2 a b =
          normalize_chromosome
            (placeItems p2
              (List.replicate a none ++ ((p1.drop a).take (b + 1 - a)).map some ++
                List.replicate (p1.length - (b + 1)) none)
              (((p1.drop a).take (b + 1 - a)).map chrom_key_item)
              ((b + 1) % p1.length)) p1 := by
        unfold crossover
        rw [if_neg hn2]
      rw [hcross]
      have hmidlen : ((p1.drop a).take (b + 1 - a)).length = b + 1 - a := by
        rw [List.length_take, List.length_drop]
        omega
      have hmidsub : ((p1.drop a).take (b + 1 - a)).Sublist p1 :=
        (List.take_sublist _ _).trans (List.drop_sublist _ _)
      have hch0len :
          (List.replicate a (none : Option Batch) ++
            ((p1.drop a).take (b + 1 - a)).map some ++
            List.replicate (p1.length - (b + 1)) none).length =
          (p1.map chrom_key_item).length := by
        rw [List.length_append, List.length_append, List.length_replicate,
          List.length_replicate, List.length_map, hmidlen, List.length_map]
        omega
      have hch0keys :
          keysOfChild (List.replicate a (none : Option Batch) ++
            ((p1.drop a).take (b + 1 - a)).map some ++
            List.replicate (p1.length - (b + 1)) none) =
          ((p1.drop a).take (b + 1 - a)).map chrom_key_item := by
        unfold keysOfChild
        rw [List.filterMap_append, List.filterMap_append,
          filterMap_id_replicate_none, filterMap_id_replicate_none,
          filterMap_id_map_some, List.nil_append, List.append_nil]
      have hused0nd : (((p1.drop a).take (b + 1 - a)).map chrom_key_item).Nodup :=
        hnd.sublist (hmidsub.map _)
      have hused0sub : ∀ k ∈ ((p1.drop a).take (b + 1 - a)).map chrom_key_item,
          k ∈ p1.map chrom_key_item := fun k hk => (hmidsub.map _).subset hk
      obtain ⟨a1, a2, a3, a4, a5, a6⟩ :=
        fill_inv (p1.map chrom_key_item) hnd p2
          (List.replicate a none ++ ((p1.drop a).take (b + 1 - a)).map some ++
            List.replicate (p1.length - (b + 1)) none,
           ((p1.drop a).take (b + 1 - a)).map chrom_key_item,
           (b + 1) % p1.length)
          hp2 hch0len (by rw [hch0keys]) hused0nd hused0sub
      have husedF : ((p2.foldl fillStep
          (List.replicate a none ++ ((p1.drop a).take (b + 1 - a)).map some ++
            List.replicate (p1.length - (b + 1)) none,
           ((p1.drop a).take (b + 1 - a)).map chrom_key_item,
           (b + 1) % p1.length)).2.1).Perm (p1.map chrom_key_item) := by
        refine (List.perm_ext_iff_of_nodup a3 hnd).mpr (fun k => ⟨fun hk => a4 k hk,
          fun hk => ?_⟩)
        obtain ⟨x, hx, hxk⟩ := List.mem_map.mp hk
        rw [← hxk]
        exact a6 x (hperm.symm.subset hx)
      have hkeysF : (keysOfChild (placeItems p2
          (List.replicate a none ++ ((p1.drop a).take (b + 1 - a)).map some ++
            List.replicate (p1.length - (b + 1)) none)
          (((p1.drop a).take (b + 1 - a)).map chrom_key_item)
          ((b + 1) % p1.length))).Perm (p1.map chrom_key_item) :=
        a2.trans husedF
      have hnormeq : normalize_chromosome (placeItems p2
          (List.replicate a none ++ ((p1.drop a).take (b + 1 - a)).map some ++
            List.replicate (p1.length - (b + 1)) none)
          (((p1.drop a).take (b + 1 - a)).map chrom_key_item)
          ((b + 1) % p1.length)) p1 =
          (placeItems p2
            (List.replicate a none ++ ((p1.drop a).take (b + 1 - a)).map some ++
              List.replicate (p1.length - (b + 1)) none)
            (((p1.drop a).take (b + 1 - a)).map chrom_key_item)
            ((b + 1) % p1.length)).filterMap id := by
        unfold normalize_chromosome
        exact norm_noop p1 _ _ (fun b2 hb2 => (hkeysF.symm.subset
          (List.mem_map_of_mem _ hb2)))
      rw [hnormeq]
      exact hkeysF
  refine ⟨hmain, ?_⟩
  have := hmain.length_eq
  rwa [List.length_map, List.length_map] at this


def b1W7 : Batch :=
  { batch_id := "B1", order_id := "O1", product_id := "P", qty := 1, priority := 1,
    due_date := 1440, release_date := 0 }

def b2W7 : Batch :=
  { batch_id := "B2", order_id := "O1", product_id := "P", qty := 1, priority := 1,
    due_date := 1440, release_date := 0 }

/-- Witness for C7 at concrete two-batch parents with cut points 0,0. -/
theorem C7_crossover_permutation_witness :
    (([b1W7, b2W7].map chrom_key_item).Nodup ∧
      ([b2W7, b1W7] : List Batch).Perm [b1W7, b2W7] ∧
      (0 : ℕ) ≤ 0 ∧ 0 < [b1W7, b2W7].length) ∧
    (((crossover [b1W7, b2W7] [b2W7, b1W7] 0 0).map chrom_key_item).Perm
        ([b1W7, b2W7].map chrom_key_item) ∧
      (crossover [b1W7, b2W7] [b2W7, b1W7] 0 0).length = [b1W7, b2W7].length) :=
  ⟨⟨by decide, List.Perm.swap b1W7 b2W7 [], by decide, by decide⟩,
    C7_crossover_permutation [b1W7, b2W7] [b2W7, b1W7] 0 0 (by decide)
      (List.Perm.swap b1W7 b2W7 []) (by decide) (by decide)⟩

/- ===================== Claim C8 ===================== -/

/-- Membership of a time point in a half-open interval. -/
def inIv (t : Time) (iv : Interval) : Prop := iv.1 ≤ t ∧ t < iv.2

/-- A time point lies inside some interval of a list. -/
def covered (t : Time) (l : List Interval) : Prop := ∃ iv ∈ l, inIv t iv

/-- An interval whose endpoints are in order. -/
def properIv (iv : Interval) : Prop := iv.1 ≤ iv.2

/-- Semantic disjointness of two half-open intervals. -/
def ivdisj (a b : Interval) : Prop := ∀ t : Time, ¬ (inIv t a ∧ inIv t b)

/-- Semantic disjointness of two windows as half-open intervals. -/
def wdisj (a b : Window) : Prop :=
  ∀ t : Time, ¬ (a.ws ≤ t ∧ t < a.we ∧ b.ws ≤ t ∧ t < b.we)

/-- Start-ordering of intervals. -/
def startLe (a b : Interval) : Prop := a.1 ≤ b.1

/-- Strict gap between two intervals. -/
def gapR (a b : Interval) : Prop := a.2 < b.1

theorem covered_cons {t : Time} {iv : Interval} {l : List Interval} :
    covered t (iv :: l) ↔ inIv t iv ∨ covered t l := by
  constructor
  · rintro ⟨x, hx, hin⟩
    rcases List.mem_cons.mp hx with h | h
    · exact Or.inl (h ▸ hin)
    · exact Or.inr ⟨x, h, hin⟩
  · rintro (h | ⟨x, hx, hin⟩)
    · exact ⟨iv, List.mem_cons_self _ _, h⟩
    · exact ⟨x, List.mem_cons_of_mem _ hx, hin⟩

theorem ivdisj_of_gap {a b : Interval} (h : gapR a b) : ivdisj a b := by
  intro t hc
  exact lt_irrefl t (lt_of_lt_of_le (lt_trans hc.1.2 h) hc.2.1)

theorem mergeGo_start_le :
    ∀ (xs : List Interval) (cur : Interval), ((cur :: xs).Pairwise startLe) →
      ∀ y ∈ mergeGo cur xs, cur.1 ≤ y.1 := by
  intro xs
  induction xs with
  | nil =>
    intro cur _ y hy
    simp only [mergeGo] at hy
    have h := List.mem_singleton.mp hy
    subst h
    exact le_refl _
  | cons p rest ih =>
    intro cur hpw y hy
    obtain ⟨s, e⟩ := p
    simp only [mergeGo] at hy
    have hhead := List.pairwise_cons.mp hpw
    have htail := hhead.2
    have hcs : cur.1 ≤ s := hhead.1 (s, e) (List.mem_cons_self _ _)
    by_cases hle : s ≤ cur.2
    · rw [if_pos hle] at hy
      have hpw2 : ((cur.1, max cur.2 e) :: rest).Pairwise startLe := by
        rw [List.pairwise_cons]
        exact ⟨fun z hz => hhead.1 z (List.mem_cons_of_mem _ hz),
          (List.pairwise_cons.mp htail).2⟩
      exact ih (cur.1, max cur.2 e) hpw2 y hy
    · rw [if_neg hle] at hy
      rcases List.mem_cons.mp hy with h | h
      · subst h; exact le_refl _
      · exact le_trans hcs (ih (s, e) htail y h)

theorem mergeGo_gap :
    ∀ (xs : List Interval) (cur : Interval), ((cur :: xs).Pairwise startLe) →
      (mergeGo cur xs).Pairwise gapR := by
  intro xs
  induction xs with
  | nil =>
    intro cur _
    simp only [mergeGo]
    exact List.pairwise_singleton _ _
  | cons p rest ih =>
    intro cur hpw
    obtain ⟨s, e⟩ := p
    simp only [mergeGo]
    have hhead := List.pairwise_cons.mp hpw
    have htail := hhead.2
    by_cases hle : s ≤ cur.2
    · rw [if_pos hle]
      refine ih (cur.1, max cur.2 e) ?_
      rw [List.pairwise_cons]
      exact ⟨fun z hz => hhead.1 z (List.mem_cons_of_mem _ hz),
        (List.pairwise_cons.mp htail).2⟩
    · rw [if_neg hle]
      rw [List.pairwise_cons]
      refine ⟨fun y hy => ?_, ih (s, e) htail⟩
      have hsy : s ≤ y.1 := mergeGo_start_le rest (s, e) htail y hy
      exact lt_of_lt_of_le (lt_of_not_le hle) hsy

theorem mergeGo_proper :
    ∀ (xs : List Interval) (cur : Interval), properIv cur → (∀ iv ∈ xs, properIv iv) →
      ∀ y ∈ mergeGo cur xs, properIv y := by
  intro xs
  induction xs with
  | nil =>
    intro cur hcur _ y hy
    simp only [mergeGo] at hy
    have h := List.mem_singleton.mp hy
    subst h
    exact hcur
  | cons p rest ih =>
    intro cur hcur hxs y hy
    obtain ⟨s, e⟩ := p
    simp only [mergeGo] at hy
    by_cases hle : s ≤ cur.2
    · rw [if_pos hle] at hy
      refine ih (cur.1, max cur.2 e) ?_ (fun iv hiv => hxs iv (List.mem_cons_of_mem _ hiv)) y hy
      exact le_trans hcur (le_max_left _ _)
    · rw [if_neg hle] at hy
      rcases List.mem_cons.mp hy with h | h
      · subst h; exact hcur
      · exact ih (s, e) (hxs (s, e) (List.mem_cons_self _ _))
          (fun iv hiv => hxs iv (List.mem_cons_of_mem _ hiv)) y h

theorem mergeGo_cover :
    ∀ (xs : List Interval) (cur : Interval), ((cur :: xs).Pairwise startLe) →
      ∀ t, covered t (mergeGo cur xs) ↔ (inIv t cur ∨ covered t xs) := by
  intro xs
  induction xs with
  | nil =>
    intro cur _ t
    simp only [mergeGo]
    rw [covered_cons]
  | cons p rest ih =>
    intro cur hpw t
    obtain ⟨s, e⟩ := p
    simp only [mergeGo]
    have hhead := List.pairwise_cons.mp hpw
    have htail := hhead.2
    have hcs : cur.1 ≤ s := hhead.1 (s, e) (List.mem_cons_self _ _)
    by_cases hle : s ≤ cur.2
    · have hpw2 : ((cur.1, max cur.2 e) :: rest).Pairwise startLe := by
        rw [List.pairwise_cons]
        exact ⟨fun z hz => hhead.1 z (List.mem_cons_of_mem _ hz),
          (List.pairwise_cons.mp htail).2⟩
      rw [if_pos hle, ih (cur.1, max cur.2 e) hpw2 t, covered_cons]
      constructor
      · rintro (hm | h)
        · by_cases htc : t < cur.2
          · exact Or.inl ⟨hm.1, htc⟩
          · refine Or.inr (Or.inl ⟨le_trans hle (le_of_not_lt htc), ?_⟩)
            rcases lt_max_iff.mp hm.2 with h1 | h1
            · exact absurd h1 htc
            · exact h1
        · exact Or.inr (Or.inr h)
      · rintro (hc | hse | h)
        · exact Or.inl ⟨hc.1, lt_of_lt_of_le hc.2 (le_max_left _ _)⟩
        · exact Or.inl ⟨le_trans hcs hse.1, lt_of_lt_of_le hse.2 (le_max_right _ _)⟩
        · exact Or.inr h
    · rw [if_neg hle, covered_cons, ih (s, e) htail t, covered_cons]

theorem intervalLe_trans (a b c : Interval) (h1 : intervalLe a b = true)
    (h2 : intervalLe b c = true) : intervalLe a c = true := by
  simp only [intervalLe, Bool.or_eq_true, Bool.and_eq_true, decide_eq_true_eq] at h1 h2 ⊢
  rcases h1 with h1 | ⟨h1e, h1r⟩ <;> rcases h2 with h2 | ⟨h2e, h2r⟩
  · exact Or.inl (lt_trans h1 h2)
  · exact Or.inl (lt_of_lt_of_eq h1 h2e)
  · exact Or.inl (lt_of_eq_of_lt h1e h2)
  · exact Or.inr ⟨h1e.trans h2e, le_trans h1r h2r⟩

theorem intervalLe_total (a b : Interval) : (intervalLe a b || intervalLe b a) = true := by
  simp only [intervalLe, Bool.or_eq_true, Bool.and_eq_true, decide_eq_true_eq]
  rcases lt_trichotomy a.1 b.1 with h | h | h
  · exact Or.inl (Or.inl h)
  · rcases le_total a.2 b.2 with h2 | h2
    · exact Or.inl (Or.inr ⟨h, h2⟩)
    · exact Or.inr (Or.inr ⟨h.symm, h2⟩)
  · exact Or.inr (Or.inl h)

theorem intervalLe_startLe {a b : Interval} (h : intervalLe a b = true) : startLe a b := by
  simp only [intervalLe, Bool.or_eq_true, Bool.and_eq_true, decide_eq_true_eq] at h
  rcases h with h | ⟨h, _⟩
  · exact le_of_lt h
  · exact le_of_eq h

theorem merge_pairwise_gap (l : List Interval) : (merge_intervals l).Pairwise gapR := by
  unfold merge_intervals
  have hs := @List.sorted_mergeSort _ intervalLe intervalLe_trans intervalLe_total l
  cases hms : l.mergeSort intervalLe with
  | nil => exact List.Pairwise.nil
  | cons x xs =>
    rw [hms] at hs
    exact mergeGo_gap xs x (hs.imp (fun h => intervalLe_startLe h))

theorem merge_cover (l : List Interval) (t : Time) :
    covered t (merge_intervals l) ↔ covered t l := by
  unfold merge_intervals
  have hperm := List.mergeSort_perm l intervalLe
  have hs := @List.sorted_mergeSort _ intervalLe intervalLe_trans intervalLe_total l
  have hmem : covered t (l.mergeSort intervalLe) ↔ covered t l := by
    constructor
    · rintro ⟨iv, hiv, hin⟩; exact ⟨iv, hperm.subset hiv, hin⟩
    · rintro ⟨iv, hiv, hin⟩; exact ⟨iv, hperm.symm.subset hiv, hin⟩
  cases hms : l.mergeSort intervalLe with
  | nil =>
    rw [hms] at hmem
    exact hmem
  | cons x xs =>
    rw [hms] at hmem hs
    show covered t (mergeGo x xs) ↔ covered t l
    rw [mergeGo_cover xs x (hs.imp (fun h => intervalLe_startLe h)) t, ← covered_cons]
    exact hmem

theorem merge_proper (l : List Interval) (h : ∀ iv ∈ l, properIv iv) :
    ∀ y ∈ merge_intervals l, properIv y := by
  unfold merge_intervals
  have hperm := List.mergeSort_perm l intervalLe
  cases hms : l.mergeSort intervalLe with
  | nil => intro y hy; exact absurd hy (List.not_mem_nil _)
  | cons x xs =>
    have hsub : ∀ iv ∈ x :: xs, properIv iv := by
      intro iv hiv
      refine h iv (hperm.subset ?_)
      rw [hms]; exact hiv
    intro y hy
    exact mergeGo_proper xs x (hsub x (List.mem_cons_self _ _))
      (fun iv hiv => hsub iv (List.mem_cons_of_mem _ hiv)) y hy

theorem cutOne_sound {sub seg p : Interval} (hp : p ∈ cutOne sub seg) :
    ∀ t, inIv t p → inIv t seg ∧ ¬ inIv t sub := by
  intro t ht
  unfold cutOne at hp
  by_cases hg : sub.2 ≤ seg.1 ∨ sub.1 ≥ seg.2
  · rw [if_pos hg] at hp
    have h := List.mem_singleton.mp hp
    subst h
    refine ⟨ht, fun hs => ?_⟩
    rcases hg with hg | hg
    · exact lt_irrefl t (lt_of_lt_of_le hs.2 (le_trans hg ht.1))
    · exact lt_irrefl t (lt_of_lt_of_le ht.2 (le_trans hg hs.1))
  · rw [if_neg hg] at hp
    push_neg at hg
    rcases List.mem_append.mp hp with h | h
    · by_cases h1 : sub.1 > seg.1
      · rw [if_pos h1] at h
        have h2 := List.mem_singleton.mp h
        subst h2
        exact ⟨⟨ht.1, lt_trans ht.2 hg.2⟩, fun hs => lt_irrefl t (lt_of_lt_of_le ht.2 hs.1)⟩
      · rw [if_neg h1] at h
        exact absurd h (List.not_mem_nil _)
    · by_cases h2 : sub.2 < seg.2
      · rw [if_pos h2] at h
        have h3 := List.mem_singleton.mp h
        subst h3
        exact ⟨⟨le_trans (le_of_lt hg.1) ht.1, ht.2⟩,
          fun hs => lt_irrefl t (lt_of_lt_of_le hs.2 ht.1)⟩
      · rw [if_neg h2] at h
        exact absurd h (List.not_mem_nil _)

theorem cutOne_complete {sub seg : Interval} {t : Time}
    (hseg : inIv t seg) (hsub : ¬ inIv t sub) : covered t (cutOne sub seg) := by
  unfold cutOne
  by_cases hg : sub.2 ≤ seg.1 ∨ sub.1 ≥ seg.2
  · rw [if_pos hg]
    exact ⟨seg, List.mem_singleton_self _, hseg⟩
  · rw [if_neg hg]
    rcases not_and_or.mp hsub with h | h
    · have h1 : sub.1 > seg.1 := lt_of_le_of_lt hseg.1 (lt_of_not_le h)
      rw [if_pos h1]
      exact ⟨(seg.1, sub.1), List.mem_append_left _ (List.mem_singleton_self _),
        hseg.1, lt_of_not_le h⟩
    · have h2 : sub.2 < seg.2 := lt_of_le_of_lt (le_of_not_lt h) hseg.2
      rw [if_pos h2]
      exact ⟨(sub.2, seg.2), List.mem_append_right _ (List.mem_singleton_self _),
        le_of_not_lt h, hseg.2⟩

theorem cutOne_pairwise {sub seg : Interval} (hsub : properIv sub) :
    (cutOne sub seg).Pairwise ivdisj := by
  unfold cutOne
  by_cases hg : sub.2 ≤ seg.1 ∨ sub.1 ≥ seg.2
  · rw [if_pos hg]
    exact List.pairwise_singleton _ _
  · rw [if_neg hg]
    by_cases h1 : sub.1 > seg.1
    · rw [if_pos h1]
      by_cases h2 : sub.2 < seg.2
      · rw [if_pos h2]
        refine List.pairwise_cons.mpr ⟨?_, List.pairwise_singleton _ _⟩
        intro y hy
        have h3 := List.mem_singleton.mp hy
        subst h3
        intro t hc
        exact lt_irrefl t (lt_of_lt_of_le hc.1.2 (le_trans hsub hc.2.1))
      · rw [if_neg h2]
        exact List.pairwise_singleton _ _
    · rw [if_neg h1]
      by_cases h2 : sub.2 < seg.2
      · rw [if_pos h2]
        exact List.pairwise_singleton _ _
      · rw [if_neg h2]
        exact List.Pairwise.nil

theorem cutStep_cover (cur : List Interval) (sub : Interval) (t : Time) :
    covered t (cutStep cur sub) ↔ covered t cur ∧ ¬ inIv t sub := by
  unfold cutStep
  constructor
  · rintro ⟨p, hp, hin⟩
    obtain ⟨seg, hseg, hpseg⟩ := List.mem_flatMap.mp hp
    obtain ⟨hin2, hns⟩ := cutOne_sound hpseg t hin
    exact ⟨⟨seg, hseg, hin2⟩, hns⟩
  · rintro ⟨⟨seg, hseg, hin⟩, hns⟩
    obtain ⟨p, hp, hpin⟩ := cutOne_complete hin hns
    exact ⟨p, List.mem_flatMap.mpr ⟨seg, hseg, hp⟩, hpin⟩

theorem cutStep_pairwise (cur : List Interval) (sub : Interval) (hsub : properIv sub)
    (hcur : cur.Pairwise ivdisj) : (cutStep cur sub).Pairwise ivdisj := by
  unfold cutStep
  rw [List.pairwise_flatMap]
  refine ⟨fun seg _ => cutOne_pairwise hsub, hcur.imp ?_⟩
  intro a b hab x hx y hy t hc
  exact hab t ⟨(cutOne_sound hx t hc.1).1, (cutOne_sound hy t hc.2).1⟩

theorem subFold_cover :
    ∀ (S : List Interval) (cur : List Interval) (t : Time),
      covered t (S.foldl cutStep cur) ↔ covered t cur ∧ ∀ s ∈ S, ¬ inIv t s := by
  intro S
  induction S with
  | nil =>
    intro cur t
    simp [List.foldl_nil]
  | cons s rest ih =>
    intro cur t
    rw [List.foldl_cons, ih (cutStep cur s) t, cutStep_cover]
    constructor
    · rintro ⟨⟨hc, hns⟩, hrest⟩
      refine ⟨hc, fun s2 hs2 => ?_⟩
      rcases List.mem_cons.mp hs2 with h | h
      · rw [h]; exact hns
      · exact hrest s2 h
    · rintro ⟨hc, hall⟩
      exact ⟨⟨hc, hall s (List.mem_cons_self _ _)⟩,
        fun s2 hs2 => hall s2 (List.mem_cons_of_mem _ hs2)⟩

theorem subFold_pairwise :
    ∀ (S : List Interval), (∀ s ∈ S, properIv s) →
      ∀ (cur : List Interval), cur.Pairwise ivdisj →
        (S.foldl cutStep cur).Pairwise ivdisj := by
  intro S
  induction S with
  | nil => intro _ cur h; exact h
  | cons s rest ih =>
    intro hS cur h
    rw [List.foldl_cons]
    exact ih (fun s2 hs2 => hS s2 (List.mem_cons_of_mem _ hs2)) (cutStep cur s)
      (cutStep_pairwise cur s (hS s (List.mem_cons_self _ _)) h)

theorem subtract_cover (base subtracts : List Interval) (t : Time) :
    covered t (subtract_intervals base subtracts) ↔
      covered t base ∧ ∀ s ∈ subtracts, ¬ inIv t s := by
  unfold subtract_intervals
  by_cases hb : base = []
  · rw [if_pos hb]
    subst hb
    constructor
    · rintro ⟨iv, hiv, _⟩; exact absurd hiv (List.not_mem_nil _)
    · rintro ⟨⟨iv, hiv, _⟩, _⟩; exact absurd hiv (List.not_mem_nil _)
  · rw [if_neg hb]
    by_cases hs : subtracts = []
    · rw [if_pos hs]
      subst hs
      simp
    · rw [if_neg hs]
      dsimp only
      have hfilter : ∀ (l : List Interval),
          covered t (l.filter (fun seg => decide (seg.1 < seg.2))) ↔ covered t l := by
        intro l
        constructor
        · rintro ⟨iv, hiv, hin⟩
          exact ⟨iv, (List.mem_filter.mp hiv).1, hin⟩
        · rintro ⟨iv, hiv, hin⟩
          refine ⟨iv, List.mem_filter.mpr ⟨hiv, ?_⟩, hin⟩
          exact decide_eq_true (lt_of_le_of_lt hin.1 hin.2)
      rw [hfilter]
      constructor
      · rintro ⟨p, hp, hin⟩
        obtain ⟨b, hb2, hpb⟩ := List.mem_flatMap.mp hp
        obtain ⟨hcb, hns⟩ := (subFold_cover (merge_intervals subtracts) [b] t).mp ⟨p, hpb, hin⟩
        obtain ⟨c, hc, hcin⟩ := hcb
        have hcb2 := List.mem_singleton.mp hc
        subst hcb2
        refine ⟨⟨c, hb2, hcin⟩, fun s2 hs2 hin2 => ?_⟩
        obtain ⟨s3, hs3, hin3⟩ := (merge_cover subtracts t).mpr ⟨s2, hs2, hin2⟩
        exact hns s3 hs3 hin3
      · rintro ⟨⟨b, hb2, hbin⟩, hall⟩
        have hnm : ∀ s3 ∈ merge_intervals subtracts, ¬ inIv t s3 := by
          intro s3 hs3 hin3
          obtain ⟨s4, hs4, hin4⟩ := (merge_cover subtracts t).mp ⟨s3, hs3, hin3⟩
          exact hall s4 hs4 hin4
        obtain ⟨p, hp, hpin⟩ := (subFold_cover (merge_intervals subtracts) [b] t).mpr
          ⟨⟨b, List.mem_singleton_self _, hbin⟩, hnm⟩
        exact ⟨p, List.mem_flatMap.mpr ⟨b, hb2, hp⟩, hpin⟩

theorem subtract_pairwise (base subtracts : List Interval)
    (hbase : base.Pairwise ivdisj) (hsubs : ∀ s ∈ subtracts, properIv s) :
    (subtract_intervals base subtracts).Pairwise ivdisj := by
  unfold subtract_intervals
  by_cases hb : base = []
  · rw [if_pos hb]; exact List.Pairwise.nil
  · rw [if_neg hb]
    by_cases hs : subtracts = []
    · rw [if_pos hs]; exact hbase
    · rw [if_neg hs]
      dsimp only
      refine List.Pairwise.filter _ ?_
      rw [List.pairwise_flatMap]
      have hmp : ∀ s ∈ merge_intervals subtracts, properIv s := merge_proper subtracts hsubs
      constructor
      · intro b _
        exact subFold_pairwise (merge_intervals subtracts) hmp [b] (List.pairwise_singleton _ _)
      · refine hbase.imp ?_
        intro b1 b2 h12 x hx y hy t hc
        have hx1 : inIv t b1 := by
          obtain ⟨⟨c, hc2, hcin⟩, _⟩ :=
            (subFold_cover (merge_intervals subtracts) [b1] t).mp ⟨x, hx, hc.1⟩
          have h3 := List.mem_singleton.mp hc2
          rw [← h3]
          exact hcin
        have hy1 : inIv t b2 := by
          obtain ⟨⟨c, hc2, hcin⟩, _⟩ :=
            (subFold_cover (merge_intervals subtracts) [b2] t).mp ⟨y, hy, hc.2⟩
          have h3 := List.mem_singleton.mp hc2
          rw [← h3]
          exact hcin
        exact h12 t ⟨hx1, hy1⟩

theorem subtract_proper (base subtracts : List Interval)
    (hbase : ∀ iv ∈ base, properIv iv) :
    ∀ iv ∈ subtract_intervals base subtracts, properIv iv := by
  unfold subtract_intervals
  by_cases hb : base = []
  · rw [if_pos hb]; intro iv hiv; exact absurd hiv (List.not_mem_nil _)
  · rw [if_neg hb]
    by_cases hs : subtracts = []
    · rw [if_pos hs]; exact hbase
    · rw [if_neg hs]
      dsimp only
      intro iv hiv
      exact le_of_lt (of_decide_eq_true (List.mem_filter.mp hiv).2)

theorem regForMachine_pairwise (ctx : Context) (anchor : Time) (days : ℕ) (m : Machine) :
    (regForMachine ctx anchor days m).Pairwise ivdisj := by
  unfold regForMachine
  dsimp only
  apply subtract_pairwise
  · apply subtract_pairwise
    · exact (merge_pairwise_gap _).imp (fun h => ivdisj_of_gap h)
    · intro s hs
      obtain ⟨d, hd, heq⟩ := List.mem_map.mp hs
      rw [← heq]
      show ((d * 1440 : ℤ) : ℚ) ≤ (((d + 1) * 1440 : ℤ) : ℚ)
      exact Int.cast_le.mpr (by omega)
  · intro s hs
    obtain ⟨mm, hmm, heq⟩ := List.mem_filterMap.mp hs
    by_cases hgt : mm.mstop > mm.mstart
    · rw [if_pos hgt] at heq
      cases heq
      exact le_of_lt hgt
    · rw [if_neg hgt] at heq
      cases heq

theorem reg_ot_disjoint (ctx : Context) (anchor : Time) (days : ℕ) (m : Machine) :
    ∀ o ∈ merge_intervals ((rawOts ctx).flatMap
        (fun o2 => subtract_intervals [o2] (regForMachine ctx anchor days m))),
      ∀ r ∈ regForMachine ctx anchor days m, ivdisj o r := by
  intro o ho r hr t hc
  have hcov : covered t (merge_intervals ((rawOts ctx).flatMap
      (fun o2 => subtract_intervals [o2] (regForMachine ctx anchor days m)))) := ⟨o, ho, hc.1⟩
  rw [merge_cover] at hcov
  obtain ⟨p, hp, hpin⟩ := hcov
  obtain ⟨o2, ho2, hpo2⟩ := List.mem_flatMap.mp hp
  exact ((subtract_cover [o2] (regForMachine ctx anchor days m) t).mp ⟨p, hpo2, hpin⟩).2
    r hr hc.2

theorem windowLe_trans (a b c : Window) (h1 : windowLe a b = true)
    (h2 : windowLe b c = true) : windowLe a c = true := by
  simp only [windowLe, decide_eq_true_eq] at h1 h2 ⊢
  exact le_trans h1 h2

theorem windowLe_total (a b : Window) : (windowLe a b || windowLe b a) = true := by
  simp only [windowLe, Bool.or_eq_true, decide_eq_true_eq]
  exact le_total a.ws b.ws

theorem windows_sorted_disjoint (reg ot : List Interval)
    (hreg : reg.Pairwise ivdisj) (hot : ot.Pairwise ivdisj)
    (hcross : ∀ o ∈ ot, ∀ r ∈ reg, ivdisj o r) :
    (((reg.map (fun p => Window.mk p.1 p.2 WKind.REG)) ++
      (ot.map (fun p => Window.mk p.1 p.2 WKind.OT))).mergeSort windowLe).Pairwise
        (fun a b => a.ws ≤ b.ws) ∧
    (((reg.map (fun p => Window.mk p.1 p.2 WKind.REG)) ++
      (ot.map (fun p => Window.mk p.1 p.2 WKind.OT))).mergeSort windowLe).Pairwise wdisj ∧
    (∀ w1 ∈ ((reg.map (fun p => Window.mk p.1 p.2 WKind.REG)) ++
        (ot.map (fun p => Window.mk p.1 p.2 WKind.OT))).mergeSort windowLe,
      ∀ w2 ∈ ((reg.map (fun p => Window.mk p.1 p.2 WKind.REG)) ++
        (ot.map (fun p => Window.mk p.1 p.2 WKind.OT))).mergeSort windowLe,
      w1.kind = WKind.REG → w2.kind = WKind.OT → wdisj w1 w2) := by
  have hperm := List.mergeSort_perm
    ((reg.map (fun p => Window.mk p.1 p.2 WKind.REG)) ++
      (ot.map (fun p => Window.mk p.1 p.2 WKind.OT))) windowLe
  refine ⟨?_, ?_, ?_⟩
  · exact (@List.sorted_mergeSort _ windowLe windowLe_trans windowLe_total _).imp
      (fun h => of_decide_eq_true h)
  · have hcomb : ((reg.map (fun p => Window.mk p.1 p.2 WKind.REG)) ++
        (ot.map (fun p => Window.mk p.1 p.2 WKind.OT))).Pairwise wdisj := by
      rw [List.pairwise_append]
      refine ⟨List.pairwise_map.mpr (hreg.imp ?_), List.pairwise_map.mpr (hot.imp ?_), ?_⟩
      · intro a b h t hc
        exact h t ⟨⟨hc.1, hc.2.1⟩, hc.2.2.1, hc.2.2.2⟩
      · intro a b h t hc
        exact h t ⟨⟨hc.1, hc.2.1⟩, hc.2.2.1, hc.2.2.2⟩
      · intro a ha b hb
        obtain ⟨r, hr, hra⟩ := List.mem_map.mp ha
        obtain ⟨o, ho, hob⟩ := List.mem_map.mp hb
        rw [← hra, ← hob]
        intro t hc
        exact hcross o ho r hr t ⟨⟨hc.2.2.1, hc.2.2.2⟩, hc.1, hc.2.1⟩
    exact hcomb.perm hperm.symm (fun h t hc => h t ⟨hc.2.2.1, hc.2.2.2, hc.1, hc.2.1⟩)
  · intro w1 h1 w2 h2 hk1 hk2
    have h1c := hperm.subset h1
    have h2c := hperm.subset h2
    rcases List.mem_append.mp h1c with h1r | h1o
    · rcases List.mem_append.mp h2c with h2r | h2o
      · obtain ⟨q, hq, hqb⟩ := List.mem_map.mp h2r
        rw [← hqb] at hk2
        exact absurd hk2 (by simp)
      · obtain ⟨r, hr, hra⟩ := List.mem_map.mp h1r
        obtain ⟨o, ho, hob⟩ := List.mem_map.mp h2o
        rw [← hra, ← hob]
        intro t hc
        exact hcross o ho r hr t ⟨⟨hc.2.2.1, hc.2.2.2⟩, hc.1, hc.2.1⟩
    · obtain ⟨q, hq, hqb⟩ := List.mem_map.mp h1o
      rw [← hqb] at hk1
      exact absurd hk1 (by simp)


/-- C8: for every machine id, the window list compiled by
build_shift_windows is sorted by start time, any two windows at
distinct positions are disjoint as half-open intervals, and every
REG-tagged window is disjoint from every OT-tagged window. -/
theorem C8_window_invariants (ctx : Context) (anchor : Time) (days : ℕ) (mid : String) :
    (build_shift_windows ctx anchor days mid).Pairwise (fun a b => a.ws ≤ b.ws) ∧
    (build_shift_windows ctx anchor days mid).Pairwise wdisj ∧
    ∀ w1 ∈ build_shift_windows ctx anchor days mid,
      ∀ w2 ∈ build_shift_windows ctx anchor days mid,
        w1.kind = WKind.REG → w2.kind = WKind.OT → wdisj w1 w2 := by
  unfold build_shift_windows
  cases hm : idxMachine ctx mid with
  | none =>
    exact ⟨List.Pairwise.nil, List.Pairwise.nil,
      fun w1 h1 => absurd h1 (List.not_mem_nil _)⟩
  | some m =>
    unfold windowsForMachine
    dsimp only
    exact windows_sorted_disjoint (regForMachine ctx anchor days m)
      (merge_intervals ((rawOts ctx).flatMap
        (fun o => subtract_intervals [o] (regForMachine ctx anchor days m))))
      (regForMachine_pairwise ctx anchor days m)
      ((merge_pairwise_gap _).imp (fun h => ivdisj_of_gap h))
      (reg_ot_disjoint ctx anchor days m)

/- ===================== Claim C4 ===================== -/

theorem addOt_keys :
    ∀ (m : List (ℤ × ℚ)) (d : ℤ) (v : ℚ) (k : ℤ),
      k ∈ (addOt m d v).map Prod.fst → k ∈ m.map Prod.fst ∨ k = d := by
  intro m
  induction m with
  | nil =>
    intro d v k hk
    simp only [addOt, List.map_cons, List.map_nil] at hk
    exact Or.inr (List.mem_singleton.mp hk)
  | cons p rest ih =>
    intro d v k hk
    obtain ⟨kp, x⟩ := p
    simp only [addOt] at hk
    by_cases he : kp = d
    · rw [if_pos he, List.map_cons] at hk
      rcases List.mem_cons.mp hk with h | h
      · simp only [] at h
        exact Or.inl (by simp [h])
      · exact Or.inl (by rw [List.map_cons]; exact List.mem_cons_of_mem _ h)
    · rw [if_neg he, List.map_cons] at hk
      rcases List.mem_cons.mp hk with h | h
      · exact Or.inl (by simp [h])
      · rcases ih d v k h with h2 | h2
        · exact Or.inl (by rw [List.map_cons]; exact List.mem_cons_of_mem _ h2)
        · exact Or.inr h2

theorem addOt_nodup :
    ∀ (m : List (ℤ × ℚ)) (d : ℤ) (v : ℚ),
      ((m.map Prod.fst).Nodup) → (((addOt m d v).map Prod.fst).Nodup) := by
  intro m
  induction m with
  | nil => intro d v _; simp [addOt]
  | cons p rest ih =>
    intro d v hnd
    obtain ⟨kp, x⟩ := p
    rw [List.map_cons, List.nodup_cons] at hnd
    simp only [addOt]
    by_cases he : kp = d
    · rw [if_pos he, List.map_cons, List.nodup_cons]
      exact ⟨hnd.1, hnd.2⟩
    · rw [if_neg he, List.map_cons, List.nodup_cons]
      refine ⟨fun hk => ?_, ih d v hnd.2⟩
      rcases addOt_keys rest d v kp hk with h | h
      · exact hnd.1 h
      · exact he h

theorem otFold_nodup :
    ∀ (adds m : List (ℤ × ℚ)), ((m.map Prod.fst).Nodup) →
      (((otFold m adds).map Prod.fst).Nodup) := by
  intro adds
  induction adds with
  | nil => intro m h; exact h
  | cons p rest ih =>
    intro m h
    unfold otFold
    rw [List.foldl_cons]
    exact ih (addOt m p.1 p.2) (addOt_nodup m p.1 p.2 h)

theorem otStep_nodup (st fn : Time) (acc : List (ℤ × ℚ)) (w : Window)
    (h : (acc.map Prod.fst).Nodup) : (((otStep st fn acc w).map Prod.fst).Nodup) := by
  unfold otStep
  by_cases hk : w.kind = WKind.OT
  · rw [if_pos hk]
    dsimp only
    by_cases hg : min w.we fn > max w.ws st
    · rw [if_pos hg]
      exact otFold_nodup _ _ h
    · rw [if_neg hg]; exact h
  · rw [if_neg hk]; exact h

theorem contigOtUsage_nodup (wins : List Window) (st fn : Time) :
    (((contigOtUsage wins st fn).map Prod.fst).Nodup) := by
  unfold contigOtUsage
  have hgen : ∀ (ws : List Window) (acc : List (ℤ × ℚ)), (acc.map Prod.fst).Nodup →
      (((ws.foldl (otStep st fn) acc).map Prod.fst).Nodup) := by
    intro ws
    induction ws with
    | nil => intro acc h; exact h
    | cons w rest ih =>
      intro acc h
      rw [List.foldl_cons]
      exact ih _ (otStep_nodup st fn acc w h)
  exact hgen wins [] (by simp)

theorem packLoop_nodup (ovh : ℚ) :
    ∀ (ws : List Window) (st : PackSt), ((st.ot_by_day.map Prod.fst).Nodup) →
      (((packLoop ovh ws st).ot_by_day.map Prod.fst).Nodup) := by
  intro ws
  induction ws with
  | nil => intro st h; exact h
  | cons w rest ih =>
    intro st h
    unfold packLoop
    dsimp only
    by_cases h1 : max w.ws st.cur_time ≥ w.we
    · rw [if_pos h1]; exact ih st h
    · rw [if_neg h1]
      by_cases h2 : st.setup_td > 0 ∧ ¬ (w.we - max w.ws st.cur_time ≥ st.setup_td)
      · rw [if_pos h2]; exact ih st h
      · rw [if_neg h2]
        by_cases h3 : (if st.setup_td > 0 then st.remaining - st.setup_td else st.remaining) ≤ 0
        · rw [if_pos h3]; exact h
        · rw [if_neg h3]
          by_cases h4 : w.we - (if st.setup_td > 0 then max w.ws st.cur_time + st.setup_td else max w.ws st.cur_time) ≤ 0
          · rw [if_pos h4]; exact ih _ h
          · rw [if_neg h4]
            have hot2 : ((((if w.kind = WKind.OT then
                otFold st.ot_by_day (split_minutes_by_day
                  (if st.setup_td > 0 then max w.ws st.cur_time + st.setup_td else max w.ws st.cur_time)
                  ((if st.setup_td > 0 then max w.ws st.cur_time + st.setup_td else max w.ws st.cur_time) +
                    min (w.we - (if st.setup_td > 0 then max w.ws st.cur_time + st.setup_td else max w.ws st.cur_time))
                      (if st.setup_td > 0 then st.remaining - st.setup_td else st.remaining)))
              else st.ot_by_day)).map Prod.fst).Nodup) := by
              by_cases hk : w.kind = WKind.OT
              · rw [if_pos hk]; exact otFold_nodup _ _ h
              · rw [if_neg hk]; exact h
            by_cases h5 : (if st.setup_td > 0 then st.remaining - st.setup_td else st.remaining) -
                min (w.we - (if st.setup_td > 0 then max w.ws st.cur_time + st.setup_td else max w.ws st.cur_time))
                  (if st.setup_td > 0 then st.remaining - st.setup_td else st.remaining) > 0
            · rw [if_pos h5]
              exact ih _ hot2
            · rw [if_neg h5]
              exact hot2


theorem pack_usage_nodup (windows : List Window) (earliest : Time)
    (need_min setup_min ovh : ℚ) (st fn : Time) (o : ℚ) (k : ℕ) (usage : List (ℤ × ℚ))
    (h : pack_across_windows windows earliest need_min setup_min ovh =
      some (st, fn, o, k, usage)) :
    ((usage.map Prod.fst).Nodup) := by
  unfold pack_across_windows at h
  dsimp only at h
  by_cases h1 : (packLoop ovh windows
      { remaining := need_min, setup_td := setup_min, started := none,
        cur_time := earliest, total_ovh := 0, num_splits := 0, ot_by_day := [] }).remaining > 0
  · rw [if_pos h1] at h; cases h
  · rw [if_neg h1] at h
    cases hst : (packLoop ovh windows
        { remaining := need_min, setup_td := setup_min, started := none,
          cur_time := earliest, total_ovh := 0, num_splits := 0, ot_by_day := [] }).started with
    | none => rw [hst] at h; cases h
    | some b =>
      rw [hst] at h
      dsimp only at h
      have hn := packLoop_nodup ovh windows
        { remaining := need_min, setup_td := setup_min, started := none,
          cur_time := earliest, total_ovh := 0, num_splits := 0, ot_by_day := [] } (by simp)
      cases h
      exact hn

theorem otViolation_false {cap : ℚ} {used : ℤ → ℚ} {usage : List (ℤ × ℚ)}
    (h : otViolation cap used usage = false) :
    ∀ p ∈ usage, used p.1 + p.2 ≤ cap + otEps := by
  intro p hp
  unfold otViolation at h
  rw [List.any_eq_false] at h
  have h2 := h p hp
  rw [decide_eq_true_eq] at h2
  exact not_lt.mp h2

theorem commitOt_le (capE : ℚ) :
    ∀ (usage : List (ℤ × ℚ)) (ot : String → ℤ → ℚ) (mid : String),
      ((usage.map Prod.fst).Nodup) →
      (∀ p ∈ usage, ot mid p.1 + p.2 ≤ capE) →
      (∀ m d, ot m d ≤ capE) →
      ∀ m d, commitOt ot mid usage m d ≤ capE := by
  intro usage
  induction usage with
  | nil => intro ot mid _ _ hall m d; exact hall m d
  | cons p rest ih =>
    intro ot mid hnd hus hall m d
    unfold commitOt
    rw [List.foldl_cons]
    rw [List.map_cons, List.nodup_cons] at hnd
    refine ih (fun m2 d2 => if m2 = mid ∧ d2 = p.1 then ot m2 d2 + p.2 else ot m2 d2)
      mid hnd.2 ?_ ?_ m d
    · intro q hq
      have hne : ¬ (mid = mid ∧ q.1 = p.1) :=
        fun hc => hnd.1 (hc.2 ▸ List.mem_map_of_mem Prod.fst hq)
      show (if mid = mid ∧ q.1 = p.1 then ot mid q.1 + p.2 else ot mid q.1) + q.2 ≤ capE
      rw [if_neg hne]
      exact hus q (List.mem_cons_of_mem _ hq)
    · intro m2 d2
      show (if m2 = mid ∧ d2 = p.1 then ot m2 d2 + p.2 else ot m2 d2) ≤ capE
      by_cases hc : m2 = mid ∧ d2 = p.1
      · rw [if_pos hc]
        rw [hc.1, hc.2]
        exact hus p (List.mem_cons_self _ _)
      · rw [if_neg hc]
        exact hall m2 d2

theorem candidate_ok (ctx : Context) (winsOf : String → List Window) (capmin : ℚ)
    (allow_preempt : Bool) (free : String → Time) (mstate : String → String)
    (ot : String → ℤ → ℚ) (cur_start : Time) (batch : Batch) (op : Op) (mc : Machine)
    (c : Cand)
    (h : (candidate_for_machine ctx winsOf (some capmin) allow_preempt
        free mstate ot cur_start batch op mc).cand = some c) :
    c.machine = mc.machine_id ∧
    (∀ p ∈ c.ot_usage, ot mc.machine_id p.1 + p.2 ≤ capmin + otEps) ∧
    ((c.ot_usage.map Prod.fst).Nodup) := by
  unfold candidate_for_machine at h
  dsimp only at h
  split at h
  · split at h
    · split at h
      · simp at h
      · next hbad =>
        rw [Bool.not_eq_true] at hbad
        cases h
        refine ⟨rfl, ?_, contigOtUsage_nodup _ _ _⟩
        exact otViolation_false hbad
    · simp at h
  · split at h
    · split at h
      · simp at h
      · next hbad =>
        rw [Bool.not_eq_true] at hbad
        cases h
        refine ⟨rfl, ?_, ?_⟩
        · exact otViolation_false hbad
        · next st2 fn2 ovh2 k2 usage2 heq =>
          exact pack_usage_nodup _ _ _ _ _ _ _ _ _ _ heq
    · simp at h


theorem scanMachines_best_ok (ctx : Context) (winsOf : String → List Window) (capmin : ℚ)
    (allow_preempt : Bool) (free : String → Time) (mstate : String → String)
    (ot : String → ℤ → ℚ) (cur_start : Time) (batch : Batch) (op : Op) :
    ∀ (cands : List Machine) (acc : OpScan),
      (∀ c, acc.best = some c →
        (∀ p ∈ c.ot_usage, ot c.machine p.1 + p.2 ≤ capmin + otEps) ∧
        ((c.ot_usage.map Prod.fst).Nodup)) →
      ∀ c, (cands.foldl (scanStep ctx winsOf (some capmin) allow_preempt free mstate ot
          cur_start batch op) acc).best = some c →
        (∀ p ∈ c.ot_usage, ot c.machine p.1 + p.2 ≤ capmin + otEps) ∧
        ((c.ot_usage.map Prod.fst).Nodup) := by
  intro cands
  induction cands with
  | nil => intro acc hacc c h; exact hacc c h
  | cons mc ms ih =>
    intro acc hacc c h
    rw [List.foldl_cons] at h
    refine ih _ ?_ c h
    intro c2 h2
    unfold scanStep at h2
    dsimp only at h2
    unfold betterCand at h2
    cases ho : (candidate_for_machine ctx winsOf (some capmin) allow_preempt free mstate ot
        cur_start batch op mc).cand with
    | none =>
      rw [ho] at h2
      exact hacc c2 h2
    | some cand =>
      rw [ho] at h2
      obtain ⟨hm, hle, hnd⟩ := candidate_ok ctx winsOf capmin allow_preempt free mstate ot
        cur_start batch op mc cand ho
      cases hb : acc.best with
      | none =>
        rw [hb] at h2
        dsimp only at h2
        cases h2
        exact ⟨fun p hp => by rw [hm]; exact hle p hp, hnd⟩
      | some b =>
        rw [hb] at h2
        dsimp only at h2
        by_cases hf : cand.finish < b.finish
        · rw [if_pos hf] at h2
          cases h2
          exact ⟨fun p hp => by rw [hm]; exact hle p hp, hnd⟩
        · rw [if_neg hf] at h2
          cases h2
          exact hacc _ hb

theorem tryRoutingGo_inv (ctx : Context) (winsOf : String → List Window) (capmin : ℚ)
    (allow_preempt : Bool) (batch : Batch) (rid : String) :
    ∀ (ops : List Op) (free : String → Time) (mstate : String → String)
      (ot : String → ℤ → ℚ) (cur_start : Time) (steps : List Step) (fs : String → ℕ)
      (p : Plan),
      (∀ m d, ot m d ≤ capmin + otEps) →
      (tryRoutingGo ctx winsOf (some capmin) allow_preempt batch rid ops free mstate ot
        cur_start steps fs).1 = some p →
      ∀ m d, p.temp_ot_used m d ≤ capmin + otEps := by
  intro ops
  induction ops with
  | nil =>
    intro free mstate ot cur_start steps fs p hInv h
    simp only [tryRoutingGo] at h
    cases h
    exact hInv
  | cons op rest ih =>
    intro free mstate ot cur_start steps fs p hInv h
    simp only [tryRoutingGo] at h
    cases hwc : wcCandidates ctx op.work_center_id with
    | nil =>
      rw [hwc] at h
      simp at h
    | cons m0 ms =>
      rw [hwc] at h
      dsimp only at h
      cases hb : (scanMachines ctx winsOf (some capmin) allow_preempt free mstate ot
          cur_start batch op (m0 :: ms)).best with
      | none =>
        rw [hb] at h
        simp at h
      | some best =>
        rw [hb] at h
        dsimp only at h
        obtain ⟨hle, hnd⟩ := scanMachines_best_ok ctx winsOf capmin allow_preempt free mstate ot
          cur_start batch op (m0 :: ms) _ (fun c hc => by simp at hc) best hb
        refine ih _ _ (commitOt ot best.machine best.ot_usage) _ _ _ p ?_ h
        exact commitOt_le (capmin + otEps) best.ot_usage ot best.machine hnd hle hInv

theorem planFold_inv (ctx : Context) (winsOf : String → List Window) (capmin : ℚ)
    (allow_preempt : Bool) (ear : Time) (st : OnceState) (batch : Batch)
    (hInv : ∀ m d, st.ot_used m d ≤ capmin + otEps) :
    ∀ (cands : List Routing) (acc : Option Plan × (String → ℕ)),
      (∀ p, acc.1 = some p → ∀ m d, p.temp_ot_used m d ≤ capmin + otEps) →
      ∀ p, ((cands.foldl (planStep ctx winsOf (some capmin) allow_preempt ear st batch)
          acc).1 = some p) →
        ∀ m d, p.temp_ot_used m d ≤ capmin + otEps := by
  intro cands
  induction cands with
  | nil => intro acc hacc p h; exact hacc p h
  | cons r rs ih =>
    intro acc hacc p h
    rw [List.foldl_cons] at h
    refine ih _ ?_ p h
    intro p2 h2
    unfold planStep at h2
    dsimp only at h2
    cases hr : (try_schedule_with_routing ctx winsOf (some capmin) allow_preempt ear
        st.machine_free st.machine_state st.ot_used acc.2 batch r).1 with
    | none =>
      rw [hr] at h2
      exact hacc p2 h2
    | some q =>
      rw [hr] at h2
      dsimp only at h2
      have hq : ∀ m d, q.temp_ot_used m d ≤ capmin + otEps :=
        tryRoutingGo_inv ctx winsOf capmin allow_preempt batch r.routing_id r.operations
          st.machine_free st.machine_state st.ot_used (max batch.release_date ear) [] acc.2
          q hInv hr
      cases hab : acc.1 with
      | none =>
        rw [hab] at h2
        dsimp only at h2
        cases h2
        exact hq
      | some b =>
        rw [hab] at h2
        dsimp only at h2
        by_cases hf : q.finish < b.finish
        · rw [if_pos hf] at h2
          cases h2
          exact hq
        · rw [if_neg hf] at h2
          cases h2
          exact hacc _ hab

theorem processBatch_inv (ctx : Context) (winsOf : String → List Window) (capmin : ℚ)
    (allow_preempt : Bool) (ear : Time) (st : OnceState) (batch : Batch)
    (hInv : ∀ m d, st.ot_used m d ≤ capmin + otEps) :
    ∀ m d, (processBatch ctx winsOf (some capmin) allow_preempt ear st batch).ot_used m d ≤
      capmin + otEps := by
  unfold processBatch
  cases hpc : product_routing_candidates ctx batch.product_id with
  | nil => exact hInv
  | cons c cs =>
    dsimp only
    cases hr : (bestPlanOf ctx winsOf (some capmin) allow_preempt ear st batch (c :: cs)).1 with
    | none => exact hInv
    | some plan =>
      intro m d
      exact planFold_inv ctx winsOf capmin allow_preempt ear st batch hInv (c :: cs)
        (none, st.fail_stats) (fun p hp => by simp at hp) plan hr m d

theorem schedule_once_inv (ctx : Context) (caph : ℚ)
    (hcap : ctx.calendar.ot_cap_hours_per_day = some caph) (h0 : 0 ≤ caph) :
    ∀ (chrom : List Batch) (base_days : ℕ) (fs0 : String → ℕ) (m : String) (d : ℤ),
      (schedule_once ctx chrom base_days fs0).ot_used m d ≤ caph * 60 + otEps := by
  intro chrom base_days fs0 m d
  unfold schedule_once
  dsimp only
  rw [hcap]
  have hfold : ∀ (l : List Batch) (st : OnceState),
      (∀ m2 d2, st.ot_used m2 d2 ≤ caph * 60 + otEps) →
      ∀ m2 d2, (l.foldl (processBatch ctx (build_shift_windows ctx (minRelease chrom) base_days)
          (some (caph * 60)) ctx.allow_job_preemption (minRelease chrom)) st).ot_used m2 d2 ≤
        caph * 60 + otEps := by
    intro l
    induction l with
    | nil => intro st h m2 d2; exact h m2 d2
    | cons b bs ih =>
      intro st h m2 d2
      rw [List.foldl_cons]
      exact ih _ (processBatch_inv ctx _ (caph * 60) ctx.allow_job_preemption _ st b h) m2 d2
  refine hfold chrom _ ?_ m d
  intro m2 d2
  have h1 : (0 : ℚ) ≤ caph * 60 := mul_nonneg h0 (by norm_num)
  have h2 : (0 : ℚ) < otEps := by unfold otEps; norm_num
  show (0 : ℚ) ≤ caph * 60 + otEps
  linarith


/-- C4: with calendar.ot_cap_hours_per_day set to caph hours, every
candidate the machine-attempt emits keeps each day of its OT usage
within caph*60 + 1e-9 of the committed usage; a fitted contiguous slot
or packed placement whose usage would violate the cap is rejected with
the ot_cap_hit flag; and across a whole decode the committed per-machine
per-day OT usage never exceeds caph*60 + 1e-9. -/
theorem C4_ot_cap (ctx : Context) (caph : ℚ)
    (hcap : ctx.calendar.ot_cap_hours_per_day = some caph) (h0 : 0 ≤ caph) :
    (∀ (winsOf : String → List Window) (allow_preempt : Bool) (free : String → Time)
        (mstate : String → String) (ot : String → ℤ → ℚ) (cur_start : Time)
        (batch : Batch) (op : Op) (mc : Machine) (c : Cand),
      (candidate_for_machine ctx winsOf (some (caph * 60)) allow_preempt
          free mstate ot cur_start batch op mc).cand = some c →
      ∀ p ∈ c.ot_usage, ot mc.machine_id p.1 + p.2 ≤ caph * 60 + otEps) ∧
    (∀ (winsOf : String → List Window) (allow_preempt : Bool) (free : String → Time)
        (mstate : String → String) (ot : String → ℤ → ℚ) (cur_start : Time)
        (batch : Batch) (op : Op) (mc : Machine) (st fn : Time),
      (op.preemptable && allow_preempt) = false →
      find_slot_contiguous
        (winsToSearch (winsOf mc.machine_id) (max cur_start (free mc.machine_id)))
        (max cur_start (free mc.machine_id))
        (lookup_matrix_setup_min ctx (mstate mc.machine_id)
            ((op.setup_state_key).getD "clean") mc op +
          get_proc_time_min ctx op batch.qty mc.machine_id batch.product_id
            (machineEffOf mc)) = some (st, fn) →
      otViolation (caph * 60) (ot mc.machine_id)
        (contigOtUsage
          (winsToSearch (winsOf mc.machine_id) (max cur_start (free mc.machine_id)))
          st fn) = true →
      (candidate_for_machine ctx winsOf (some (caph * 60)) allow_preempt
          free mstate ot cur_start batch op mc).cand = none ∧
      (candidate_for_machine ctx winsOf (some (caph * 60)) allow_preempt
          free mstate ot cur_start batch op mc).ot_cap_hit = true) ∧
    (∀ (winsOf : String → List Window) (allow_preempt : Bool) (free : String → Time)
        (mstate : String → String) (ot : String → ℤ → ℚ) (cur_start : Time)
        (batch : Batch) (op : Op) (mc : Machine) (st fn : Time) (ovh : ℚ) (k : ℕ)
        (usage : List (ℤ × ℚ)),
      (op.preemptable && allow_preempt) = true →
      pack_across_windows
        (winsToSearch (winsOf mc.machine_id) (max cur_start (free mc.machine_id)))
        (max cur_start (free mc.machine_id))
        (lookup_matrix_setup_min ctx (mstate mc.machine_id)
            ((op.setup_state_key).getD "clean") mc op +
          get_proc_time_min ctx op batch.qty mc.machine_id batch.product_id
            (machineEffOf mc))
        (lookup_matrix_setup_min ctx (mstate mc.machine_id)
            ((op.setup_state_key).getD "clean") mc op)
        op.preemption_overhead_min = some (st, fn, ovh, k, usage) →
      otViolation (caph * 60) (ot mc.machine_id) usage = true →
      (candidate_for_machine ctx winsOf (some (caph * 60)) allow_preempt
          free mstate ot cur_start batch op mc).cand = none ∧
      (candidate_for_machine ctx winsOf (some (caph * 60)) allow_preempt
          free mstate ot cur_start batch op mc).ot_cap_hit = true) ∧
    (∀ (chrom : List Batch) (base_days : ℕ) (fs0 : String → ℕ) (m : String) (d : ℤ),
      (schedule_once ctx chrom base_days fs0).ot_used m d ≤ caph * 60 + otEps) := by
  refine ⟨?_, ?_, ?_, schedule_once_inv ctx caph hcap h0⟩
  · intro winsOf allow_preempt free mstate ot cur_start batch op mc c h
    exact (candidate_ok ctx winsOf (caph * 60) allow_preempt free mstate ot
      cur_start batch op mc c h).2.1
  · intro winsOf allow_preempt free mstate ot cur_start batch op mc st fn hmode hfs hviol
    have hc : ¬ ((op.preemptable && allow_preempt) = true) := by
      rw [hmode]; simp
    unfold candidate_for_machine
    dsimp only
    rw [if_pos hc, hfs]
    dsimp only
    rw [if_pos hviol]
    exact ⟨rfl, rfl⟩
  · intro winsOf allow_preempt free mstate ot cur_start batch op mc st fn ovh k usage
      hmode hpack hviol
    unfold candidate_for_machine
    dsimp only
    rw [if_neg (not_not_intro hmode), hpack]
    dsimp only
    rw [if_pos hviol]
    exact ⟨rfl, rfl⟩

/-- A context whose calendar sets an OT cap of one hour per day. -/
def ctxW4 : Context :=
  { products := [{ product_id := "P", routing_ids := [], routing_id := none, lot_size := none }],
    routings := [], work_centers := [], machines := [],
    setup_matrices := [], speed_overrides := [], orders := [],
    calendar := { holidays := [], machine_maintenances := [], ot_windows := [],
                  ot_cap_hours_per_day := some 1, breaks := [] },
    shifts := [],
    settings := { w_makespan := none, w_tardiness := none, w_setup_cost := none,
                  w_preemption_cost := none },
    allow_job_preemption := true }

/-- Witness for C4 at a concrete capped context. -/
theorem C4_ot_cap_witness :
    (ctxW4.calendar.ot_cap_hours_per_day = some 1 ∧ (0 : ℚ) ≤ 1) ∧
    (∀ (m : String) (d : ℤ),
      (schedule_once ctxW4 [] 7 (fun _ => 0)).ot_used m d ≤ 1 * 60 + otEps) :=
  ⟨⟨rfl, by decide⟩,
    fun m d => (C4_ot_cap ctxW4 1 rfl (by decide)).2.2.2 [] 7 (fun _ => 0) m d⟩

/- ===================== Claim C2 ===================== -/

/-- Machine M1 of the C2 counterexample work center. -/
def mcM1C2 : Machine :=
  { machine_id := "M1", work_center_id := "W", initial_state := none,
    efficiency := none, shifts := [], setup_matrix_id := none, default_setup_min := none }

/-- Machine M2, listed before M1 in the machines list. -/
def mcM2C2 : Machine :=
  { machine_id := "M2", work_center_id := "W", initial_state := none,
    efficiency := none, shifts := [], setup_matrix_id := none, default_setup_min := none }

/-- A one-minute-per-unit operation. -/
def opC2 : Op :=
  { op_no := 1, name := "OP", work_center_id := "W", setup_state_key := none,
    proc_time_per_unit_min := some 1, proc_time_per_unit := none,
    setup_time_fixed_min := none, setup_time_fixed := none, setup_matrix_id := none,
    batchable := false, batch := none, preemptable := false, preemption_overhead_min := 0 }

/-- A unit batch. -/
def batchC2 : Batch :=
  { batch_id := "B1", order_id := "O1", product_id := "P", qty := 1, priority := 1,
    due_date := 1440, release_date := 0 }

/-- A context whose machines list enumerates M2 before M1. -/
def ctxC2 : Context :=
  { products := [{ product_id := "P", routing_ids := ["R"], routing_id := none, lot_size := none }],
    routings := [{ routing_id := "R", operations := [opC2] }],
    work_centers := [],
    machines := [mcM2C2, mcM1C2],
    setup_matrices := [], speed_overrides := [], orders := [],
    calendar := { holidays := [], machine_maintenances := [], ot_windows := [],
                  ot_cap_hours_per_day := none, breaks := [] },
    shifts := [],
    settings := { w_makespan := none, w_tardiness := none, w_setup_cost := none,
                  w_preemption_cost := none },
    allow_job_preemption := false }

/-- One wide regular window for every machine. -/
def winsOfC2 : String → List Window := fun _ => [{ ws := 0, we := 10, kind := WKind.REG }]

/-- All machines free at time zero. -/
def freeC2 : String → Time := fun _ => 0

/-- All machines in the clean state. -/
def mstateC2 : String → String := fun _ => "clean"

/-- No OT used yet. -/
def otC2 : String → ℤ → ℚ := fun _ _ => 0

/-- C2 counterexample: machines M2 and M1 of work center W both succeed
with the same finish time 1 and "M1" < "M2" as machine ids, yet the
machine loop selects M2 — the first machine in candidate enumeration
order — refuting the claimed tie-break by smaller machine id. -/
theorem C2_counterexample :
    wcCandidates ctxC2 "W" = [mcM2C2, mcM1C2] ∧
    (candidate_for_machine ctxC2 winsOfC2 none false freeC2 mstateC2 otC2 0
      batchC2 opC2 mcM1C2).cand.map (fun c => c.finish) = some 1 ∧
    (candidate_for_machine ctxC2 winsOfC2 none false freeC2 mstateC2 otC2 0
      batchC2 opC2 mcM2C2).cand.map (fun c => c.finish) = some 1 ∧
    mcM1C2.machine_id < mcM2C2.machine_id ∧
    (scanMachines ctxC2 winsOfC2 none false freeC2 mstateC2 otC2 0 batchC2 opC2
      (wcCandidates ctxC2 "W")).best.map (fun c => c.machine) = some "M2" := by
  refine ⟨?_, ?_, ?_, ?_, ?_⟩
  · norm_num [wcCandidates, machinesByWc, ctxC2, mcM1C2, mcM2C2, List.filter]
  · norm_num [candidate_for_machine, lookup_matrix_setup_min, lookup_cell, lookup_mat_id,
      lookup_fixed_fallback, idxWc, idxSetupMat, machineEffOf, get_proc_time_min,
      winsToSearch, find_slot_contiguous, contigOtUsage, otStep, mcM1C2, opC2, batchC2,
      ctxC2, winsOfC2, freeC2, mstateC2, otC2, List.find?, List.filter]
  · norm_num [candidate_for_machine, lookup_matrix_setup_min, lookup_cell, lookup_mat_id,
      lookup_fixed_fallback, idxWc, idxSetupMat, machineEffOf, get_proc_time_min,
      winsToSearch, find_slot_contiguous, contigOtUsage, otStep, mcM2C2, opC2, batchC2,
      ctxC2, winsOfC2, freeC2, mstateC2, otC2, List.find?, List.filter]
  · show ("M1" : String) < "M2"
    rw [String.lt_iff_toList_lt]
    decide
  · norm_num [scanMachines, scanStep, wcCandidates, machinesByWc, betterCand,
      candidate_for_machine, lookup_matrix_setup_min, lookup_cell, lookup_mat_id,
      lookup_fixed_fallback, idxWc, idxSetupMat, machineEffOf, get_proc_time_min,
      winsToSearch, find_slot_contiguous, contigOtUsage, otStep, mcM1C2, mcM2C2, opC2,
      batchC2, ctxC2, winsOfC2, freeC2, mstateC2, otC2, List.find?, List.filter,
      List.foldl]


/-- The incumbent-vs-candidate choice of the machine loop, on plain
candidates: replace only on a strictly smaller finish. -/
def pickCand (b c : Cand) : Cand := if c.finish < b.finish then c else b

theorem scanFold_some (ctx : Context) (winsOf : String → List Window) (cap : Option ℚ)
    (allow : Bool) (free : String → Time) (mstate : String → String)
    (ot : String → ℤ → ℚ) (cur : Time) (batch : Batch) (op : Op) :
    ∀ (cands : List Machine) (acc : OpScan) (b0 : Cand), acc.best = some b0 →
      (cands.foldl (scanStep ctx winsOf cap allow free mstate ot cur batch op) acc).best =
        some ((cands.filterMap (fun mc => (candidate_for_machine ctx winsOf cap allow
          free mstate ot cur batch op mc).cand)).foldl pickCand b0) := by
  intro cands
  induction cands with
  | nil => intro acc b0 h; simpa using h
  | cons mc ms ih =>
    intro acc b0 h
    rw [List.foldl_cons, List.filterMap_cons]
    cases ho : (candidate_for_machine ctx winsOf cap allow free mstate ot cur batch op
        mc).cand with
    | none =>
      dsimp only
      refine ih _ b0 ?_
      show (betterCand acc.best (candidate_for_machine ctx winsOf cap allow free mstate ot
        cur batch op mc).cand) = some b0
      rw [h, ho]
      rfl
    | some c =>
      dsimp only
      rw [List.foldl_cons]
      refine ih _ (pickCand b0 c) ?_
      show (betterCand acc.best (candidate_for_machine ctx winsOf cap allow free mstate ot
        cur batch op mc).cand) = some (pickCand b0 c)
      rw [h, ho]
      simp only [betterCand, pickCand, apply_ite]
      by_cases hf : c.finish < b0.finish
      · rw [if_pos hf, if_pos hf]
      · rw [if_neg hf, if_neg hf]

theorem scanFold_none (ctx : Context) (winsOf : String → List Window) (cap : Option ℚ)
    (allow : Bool) (free : String → Time) (mstate : String → String)
    (ot : String → ℤ → ℚ) (cur : Time) (batch : Batch) (op : Op) :
    ∀ (cands : List Machine) (acc : OpScan), acc.best = none →
      (cands.foldl (scanStep ctx winsOf cap allow free mstate ot cur batch op) acc).best =
        (match cands.filterMap (fun mc => (candidate_for_machine ctx winsOf cap allow
            free mstate ot cur batch op mc).cand) with
          | [] => none
          | c :: rest => some (rest.foldl pickCand c)) := by
  intro cands
  induction cands with
  | nil => intro acc h; simpa using h
  | cons mc ms ih =>
    intro acc h
    rw [List.foldl_cons, List.filterMap_cons]
    cases ho : (candidate_for_machine ctx winsOf cap allow free mstate ot cur batch op
        mc).cand with
    | none =>
      dsimp only
      refine ih _ ?_
      show (betterCand acc.best (candidate_for_machine ctx winsOf cap allow free mstate ot
        cur batch op mc).cand) = none
      rw [h, ho]
      rfl
    | some c =>
      dsimp only
      refine scanFold_some ctx winsOf cap allow free mstate ot cur batch op ms _ c ?_
      show (betterCand acc.best (candidate_for_machine ctx winsOf cap allow free mstate ot
        cur batch op mc).cand) = some c
      rw [h, ho]
      rfl

theorem pickFold_spec :
    ∀ (L : List Cand) (b0 : Cand),
      (L.foldl pickCand b0 = b0 ∧ ∀ c ∈ L, b0.finish ≤ c.finish) ∨
      (∃ l1 l2, L = l1 ++ (L.foldl pickCand b0) :: l2 ∧
        (L.foldl pickCand b0).finish < b0.finish ∧
        (∀ c ∈ l1, (L.foldl pickCand b0).finish < c.finish) ∧
        (∀ c ∈ l2, (L.foldl pickCand b0).finish ≤ c.finish)) := by
  intro L
  induction L with
  | nil =>
    intro b0
    exact Or.inl ⟨rfl, fun c hc => absurd hc (List.not_mem_nil _)⟩
  | cons c rest ih =>
    intro b0
    rw [List.foldl_cons]
    by_cases h : c.finish < b0.finish
    · have hp : pickCand b0 c = c := by unfold pickCand; rw [if_pos h]
      rw [hp]
      rcases ih c with ⟨he, hall⟩ | ⟨l1, l2, hsplit, hlt, h1, h2⟩
      · refine Or.inr ⟨[], rest, ?_, ?_, fun c2 hc2 => absurd hc2 (List.not_mem_nil _), ?_⟩
        · rw [he]; rfl
        · rw [he]; exact h
        · intro c2 hc2
          rw [he]
          exact hall c2 hc2
      · refine Or.inr ⟨c :: l1, l2, ?_, lt_trans hlt h, ?_, h2⟩
        · rw [List.cons_append, ← hsplit]
        · intro c2 hc2
          rcases List.mem_cons.mp hc2 with h3 | h3
          · rw [h3]; exact hlt
          · exact h1 c2 h3
    · have hp : pickCand b0 c = b0 := by unfold pickCand; rw [if_neg h]
      rw [hp]
      rcases ih b0 with ⟨he, hall⟩ | ⟨l1, l2, hsplit, hlt, h1, h2⟩
      · refine Or.inl ⟨he, fun c2 hc2 => ?_⟩
        rcases List.mem_cons.mp hc2 with h3 | h3
        · rw [h3]; exact not_lt.mp h
        · exact hall c2 h3
      · refine Or.inr ⟨c :: l1, l2, ?_, hlt, ?_, h2⟩
        · rw [List.cons_append, ← hsplit]
        · intro c2 hc2
          rcases List.mem_cons.mp hc2 with h3 | h3
          · rw [h3]; exact lt_of_lt_of_le hlt (not_lt.mp h)
          · exact h1 c2 h3

/-- C2 amended: the machine loop returns none exactly when no machine
attempt succeeds; otherwise it returns a candidate of strictly minimal
finish among the successful attempts, and among ties it keeps the first
candidate in machine enumeration order (every earlier successful
candidate has a strictly larger finish), not the smaller machine id. -/
theorem C2_machine_selection (ctx : Context) (winsOf : String → List Window)
    (cap : Option ℚ) (allow : Bool) (free : String → Time) (mstate : String → String)
    (ot : String → ℤ → ℚ) (cur : Time) (batch : Batch) (op : Op) (cands : List Machine) :
    ((scanMachines ctx winsOf cap allow free mstate ot cur batch op cands).best = none ↔
      cands.filterMap (fun mc => (candidate_for_machine ctx winsOf cap allow free mstate ot
        cur batch op mc).cand) = []) ∧
    (∀ b, (scanMachines ctx winsOf cap allow free mstate ot cur batch op cands).best =
        some b →
      (∀ c ∈ cands.filterMap (fun mc => (candidate_for_machine ctx winsOf cap allow free
          mstate ot cur batch op mc).cand), b.finish ≤ c.finish) ∧
      ∃ l1 l2, cands.filterMap (fun mc => (candidate_for_machine ctx winsOf cap allow free
          mstate ot cur batch op mc).cand) = l1 ++ b :: l2 ∧
        (∀ c ∈ l1, b.finish < c.finish) ∧ (∀ c ∈ l2, b.finish ≤ c.finish)) := by
  have hB : (scanMachines ctx winsOf cap allow free mstate ot cur batch op cands).best =
      (match cands.filterMap (fun mc => (candidate_for_machine ctx winsOf cap allow
          free mstate ot cur batch op mc).cand) with
        | [] => none
        | c :: rest => some (rest.foldl pickCand c)) :=
    scanFold_none ctx winsOf cap allow free mstate ot cur batch op cands
      { best := none, saw_no_window := true, saw_ot_cap := false,
        saw_no_contig := false, saw_pack_fail := false } rfl
  constructor
  · cases hfm : cands.filterMap (fun mc => (candidate_for_machine ctx winsOf cap allow free
        mstate ot cur batch op mc).cand) with
    | nil =>
      rw [hfm] at hB
      exact ⟨fun _ => rfl, fun _ => hB⟩
    | cons c rest =>
      rw [hfm] at hB
      constructor
      · intro h
        rw [h] at hB
        cases hB
      · intro h
        cases h
  · intro b hb
    cases hfm : cands.filterMap (fun mc => (candidate_for_machine ctx winsOf cap allow free
        mstate ot cur batch op mc).cand) with
    | nil =>
      rw [hfm] at hB
      rw [hb] at hB
      cases hB
    | cons c rest =>
      rw [hfm] at hB
      rw [hb] at hB
      have hbe : b = rest.foldl pickCand c := Option.some.inj hB
      rcases pickFold_spec rest c with ⟨he, hall⟩ | ⟨l1, l2, hsplit, hlt, h1, h2⟩
      · have hbc : b = c := by rw [hbe, he]
        refine ⟨?_, [], rest, by rw [hbc, List.nil_append], ?_, ?_⟩
        · intro c2 hc2
          rcases List.mem_cons.mp hc2 with h3 | h3
          · rw [h3, hbc]
          · rw [hbc]; exact hall c2 h3
        · intro c2 hc2
          exact absurd hc2 (List.not_mem_nil _)
        · intro c2 hc2
          rw [hbc]
          exact hall c2 hc2
      · rw [← hbe] at hsplit hlt h1 h2
        refine ⟨?_, c :: l1, l2, by rw [List.cons_append, ← hsplit], ?_, h2⟩
        · intro c2 hc2
          rcases List.mem_cons.mp hc2 with h3 | h3
          · rw [h3]; exact le_of_lt hlt
          · rw [hsplit] at h3
            rcases List.mem_append.mp h3 with h4 | h4
            · exact le_of_lt (h1 c2 h4)
            · rcases List.mem_cons.mp h4 with h5 | h5
              · rw [h5]
              · exact h2 c2 h5
        · intro c2 hc2
          rcases List.mem_cons.mp hc2 with h3 | h3
          · rw [h3]; exact hlt
          · exact h1 c2 h3


/-- The candidate the witness scan selects. -/
def candC2w : Cand :=
  { machine := "M2", start := 0, finish := 1, setup_min := 0, proc_min := 1,
    splits := 0, ot_usage := [] }

/-- Witness for C2 at the concrete two-machine scan. -/
theorem C2_machine_selection_witness :
    ((scanMachines ctxC2 winsOfC2 none false freeC2 mstateC2 otC2 0 batchC2 opC2
      (wcCandidates ctxC2 "W")).best = some candC2w) ∧
    ((∀ c ∈ (wcCandidates ctxC2 "W").filterMap (fun mc => (candidate_for_machine ctxC2
        winsOfC2 none false freeC2 mstateC2 otC2 0 batchC2 opC2 mc).cand),
      candC2w.finish ≤ c.finish) ∧
      ∃ l1 l2, (wcCandidates ctxC2 "W").filterMap (fun mc => (candidate_for_machine ctxC2
          winsOfC2 none false freeC2 mstateC2 otC2 0 batchC2 opC2 mc).cand) =
          l1 ++ candC2w :: l2 ∧
        (∀ c ∈ l1, candC2w.finish < c.finish) ∧ (∀ c ∈ l2, candC2w.finish ≤ c.finish)) :=
  ⟨by
    norm_num [scanMachines, scanStep, wcCandidates, machinesByWc, betterCand,
      candidate_for_machine, lookup_matrix_setup_min, lookup_cell, lookup_mat_id,
      lookup_fixed_fallback, idxWc, idxSetupMat, machineEffOf, get_proc_time_min,
      winsToSearch, find_slot_contiguous, contigOtUsage, otStep, mcM1C2, mcM2C2, opC2,
      batchC2, ctxC2, winsOfC2, freeC2, mstateC2, otC2, List.find?, List.filter,
      List.foldl, candC2w, Cand.mk.injEq]
    intro h
    exact absurd h (by decide),
    (C2_machine_selection ctxC2 winsOfC2 none false freeC2 mstateC2 otC2 0 batchC2 opC2
      (wcCandidates ctxC2 "W")).2 candC2w
      (by
        norm_num [scanMachines, scanStep, wcCandidates, machinesByWc, betterCand,
          candidate_for_machine, lookup_matrix_setup_min, lookup_cell, lookup_mat_id,
          lookup_fixed_fallback, idxWc, idxSetupMat, machineEffOf, get_proc_time_min,
          winsToSearch, find_slot_contiguous, contigOtUsage, otStep, mcM1C2, mcM2C2, opC2,
          batchC2, ctxC2, winsOfC2, freeC2, mstateC2, otC2, List.find?, List.filter,
          List.foldl, candC2w, Cand.mk.injEq]
        intro h
        exact absurd h (by decide))⟩

/- ===================== Claim C1 ===================== -/

/-- Strict version of interval propriety: a nonempty half-open interval. -/
theorem mergeGo_strict :
    ∀ (xs : List Interval) (cur : Interval), cur.1 < cur.2 → (∀ iv ∈ xs, iv.1 < iv.2) →
      ∀ y ∈ mergeGo cur xs, y.1 < y.2 := by
  intro xs
  induction xs with
  | nil =>
    intro cur hcur _ y hy
    simp only [mergeGo] at hy
    have h := List.mem_singleton.mp hy
    subst h
    exact hcur
  | cons p rest ih =>
    intro cur hcur hxs y hy
    obtain ⟨s, e⟩ := p
    simp only [mergeGo] at hy
    by_cases hle : s ≤ cur.2
    · rw [if_pos hle] at hy
      refine ih (cur.1, max cur.2 e) ?_ (fun iv hiv => hxs iv (List.mem_cons_of_mem _ hiv)) y hy
      exact lt_of_lt_of_le hcur (le_max_left _ _)
    · rw [if_neg hle] at hy
      rcases List.mem_cons.mp hy with h | h
      · subst h; exact hcur
      · exact ih (s, e) (hxs (s, e) (List.mem_cons_self _ _))
          (fun iv hiv => hxs iv (List.mem_cons_of_mem _ hiv)) y h

theorem merge_strict (l : List Interval) (h : ∀ iv ∈ l, iv.1 < iv.2) :
    ∀ y ∈ merge_intervals l, y.1 < y.2 := by
  unfold merge_intervals
  have hperm := List.mergeSort_perm l intervalLe
  cases hms : l.mergeSort intervalLe with
  | nil => intro y hy; exact absurd hy (List.not_mem_nil _)
  | cons x xs =>
    have hsub : ∀ iv ∈ x :: xs, iv.1 < iv.2 := by
      intro iv hiv
      refine h iv (hperm.subset ?_)
      rw [hms]; exact hiv
    intro y hy
    exact mergeGo_strict xs x (hsub x (List.mem_cons_self _ _))
      (fun iv hiv => hsub iv (List.mem_cons_of_mem _ hiv)) y hy

theorem subtract_strict (base subtracts : List Interval)
    (hbase : ∀ iv ∈ base, iv.1 < iv.2) :
    ∀ iv ∈ subtract_intervals base subtracts, iv.1 < iv.2 := by
  unfold subtract_intervals
  by_cases hb : base = []
  · rw [if_pos hb]; intro iv hiv; exact absurd hiv (List.not_mem_nil _)
  · rw [if_neg hb]
    by_cases hs : subtracts = []
    · rw [if_pos hs]; exact hbase
    · rw [if_neg hs]
      dsimp only
      intro iv hiv
      exact of_decide_eq_true (List.mem_filter.mp hiv).2

theorem foldSub_strict :
    ∀ (brs : List (ℕ × ℕ)) (base : ℤ) (dw : List Interval),
      (∀ iv ∈ dw, iv.1 < iv.2) →
      ∀ iv ∈ brs.foldl (fun dw br => subtract_intervals dw [normBreak base br]) dw,
        iv.1 < iv.2 := by
  intro brs
  induction brs with
  | nil => intro base dw h iv hiv; exact h iv hiv
  | cons br rest ih =>
    intro base dw h
    rw [List.foldl_cons]
    exact ih base _ (subtract_strict _ _ h)

theorem shiftDayWindows_strict (s : Shift) (gb : List (ℕ × ℕ)) (base : ℤ)
    (hs : s.start_time < 1440) : ∀ iv ∈ shiftDayWindows s gb base, iv.1 < iv.2 := by
  unfold shiftDayWindows
  dsimp only
  apply foldSub_strict
  intro iv hiv
  have h := List.mem_singleton.mp hiv
  subst h
  show ((base * 1440 : ℤ) : ℚ) + (s.start_time : ℚ) <
    (if ((base * 1440 : ℤ) : ℚ) + (s.end_time : ℚ) ≤ ((base * 1440 : ℤ) : ℚ) + (s.start_time : ℚ)
      then ((base * 1440 : ℤ) : ℚ) + (s.end_time : ℚ) + 1440
      else ((base * 1440 : ℤ) : ℚ) + (s.end_time : ℚ))
  by_cases hle : ((base * 1440 : ℤ) : ℚ) + (s.end_time : ℚ) ≤
      ((base * 1440 : ℤ) : ℚ) + (s.start_time : ℚ)
  · rw [if_pos hle]
    have h1 : (s.start_time : ℚ) < 1440 := by exact_mod_cast hs
    have h2 : (0 : ℚ) ≤ (s.end_time : ℚ) := Nat.cast_nonneg _
    linarith
  · rw [if_neg hle]
    exact lt_of_not_le hle

theorem regForShift_strict (ctx : Context) (anchorDay : ℤ) (days : ℕ) (s : Shift)
    (hs : s.start_time < 1440) : ∀ iv ∈ regForShift ctx anchorDay days s, iv.1 < iv.2 := by
  unfold regForShift
  apply merge_strict
  intro iv hiv
  obtain ⟨d, _, hiv2⟩ := List.mem_flatMap.mp hiv
  exact shiftDayWindows_strict s ctx.calendar.breaks (anchorDay + d) hs iv hiv2

theorem regForMachine_strict (ctx : Context) (anchor : Time) (days : ℕ) (m : Machine)
    (hdays : 1 ≤ days) (H1 : ∀ s ∈ ctx.shifts, s.start_time < 1440) :
    ∀ iv ∈ regForMachine ctx anchor days m, iv.1 < iv.2 := by
  unfold regForMachine
  dsimp only
  apply subtract_strict
  apply subtract_strict
  apply merge_strict
  intro iv hiv
  by_cases hm : (m.shifts.flatMap (fun sid =>
      match ctx.shifts.find? (fun s => s.shift_id = sid) with
      | some s => regForShift ctx (dayOf anchor) days s
      | none => [])) = []
  · rw [if_pos hm] at hiv
    have h := List.mem_singleton.mp hiv
    subst h
    show ((dayOf anchor * 1440 : ℤ) : ℚ) < ((dayOf anchor * 1440 : ℤ) : ℚ) + (days : ℚ) * 1440
    have h1 : (1 : ℚ) ≤ (days : ℚ) := by exact_mod_cast hdays
    nlinarith
  · rw [if_neg hm] at hiv
    obtain ⟨sid, _, hiv2⟩ := List.mem_flatMap.mp hiv
    cases hf : ctx.shifts.find? (fun s => s.shift_id = sid) with
    | none => rw [hf] at hiv2; exact absurd hiv2 (List.not_mem_nil _)
    | some sh =>
      rw [hf] at hiv2
      exact regForShift_strict ctx (dayOf anchor) days sh
        (H1 sh (List.mem_of_find?_eq_some hf)) iv hiv2

theorem build_strict (ctx : Context) (anchor : Time) (days : ℕ) (mid : String)
    (hdays : 1 ≤ days) (H1 : ∀ s ∈ ctx.shifts, s.start_time < 1440) :
    ∀ w ∈ build_shift_windows ctx anchor days mid, w.ws < w.we := by
  unfold build_shift_windows
  cases hm : idxMachine ctx mid with
  | none => intro w hw; exact absurd hw (List.not_mem_nil _)
  | some m =>
    unfold windowsForMachine
    dsimp only
    intro w hw
    have hw2 := (List.mergeSort_perm _ windowLe).subset hw
    rcases List.mem_append.mp hw2 with h | h
    · obtain ⟨p, hp, hpe⟩ := List.mem_map.mp h
      rw [← hpe]
      exact regForMachine_strict ctx anchor days m hdays H1 p hp
    · obtain ⟨p, hp, hpe⟩ := List.mem_map.mp h
      rw [← hpe]
      refine merge_strict _ ?_ p hp
      intro iv hiv
      obtain ⟨o, ho, hiv2⟩ := List.mem_flatMap.mp hiv
      refine subtract_strict _ _ ?_ iv hiv2
      intro iv2 hiv2b
      have h3 := List.mem_singleton.mp hiv2b
      subst h3
      refine merge_strict _ ?_ iv2 ho
      intro iv3 hiv3
      exact of_decide_eq_true (List.mem_filter.mp hiv3).2


/-- Chained windows: each window ends no later than the next starts. -/
def WChain (l : List Window) : Prop := l.Pairwise (fun a b => a.we ≤ b.ws)

theorem build_chain (ctx : Context) (anchor : Time) (days : ℕ) (mid : String)
    (hdays : 1 ≤ days) (H1 : ∀ s ∈ ctx.shifts, s.start_time < 1440) :
    WChain (build_shift_windows ctx anchor days mid) := by
  have hstrict := build_strict ctx anchor days mid hdays H1
  have hsorted : (build_shift_windows ctx anchor days mid).Pairwise
      (fun a b => a.ws ≤ b.ws) := by
    unfold build_shift_windows
    cases hm : idxMachine ctx mid with
    | none => exact List.Pairwise.nil
    | some m =>
      unfold windowsForMachine
      dsimp only
      exact (@List.sorted_mergeSort _ windowLe windowLe_trans windowLe_total _).imp
        (fun h => of_decide_eq_true h)
  have hdisj : (build_shift_windows ctx anchor days mid).Pairwise wdisj := by
    unfold build_shift_windows
    cases hm : idxMachine ctx mid with
    | none => exact List.Pairwise.nil
    | some m =>
      unfold windowsForMachine
      dsimp only
      exact (windows_sorted_disjoint (regForMachine ctx anchor days m)
        (merge_intervals ((rawOts ctx).flatMap
          (fun o => subtract_intervals [o] (regForMachine ctx anchor days m))))
        (regForMachine_pairwise ctx anchor days m)
        ((merge_pairwise_gap _).imp (fun h => ivdisj_of_gap h))
        (reg_ot_disjoint ctx anchor days m)).2.1
  have hand := hsorted.and hdisj
  refine hand.imp_of_mem ?_
  intro a b ha hb hab
  by_contra hcon
  push_neg at hcon
  refine hab.2 (max a.ws b.ws) ⟨le_max_left _ _, ?_, le_max_right _ _, ?_⟩
  · exact max_lt (hstrict a ha) hcon
  · rw [max_eq_right hab.1]
    exact hstrict b hb
  -- hcon : b.ws < a.we unused? the contradiction is direct: wdisj bars the point


theorem winsToSearch_chain (wins : List Window) (est : Time) (h : WChain wins) :
    WChain (winsToSearch wins est) := by
  unfold winsToSearch WChain
  rw [List.pairwise_map]
  refine ((h.sublist (List.filter_sublist _)).imp ?_)
  intro a b hab
  dsimp only
  exact le_trans hab (le_max_right _ _)

theorem find_slot_bounds :
    ∀ (wins : List Window) (est need : ℚ) (st fn : Time),
      find_slot_contiguous wins est need = some (st, fn) → est ≤ st ∧ fn = st + need := by
  intro wins
  induction wins with
  | nil => intro est need st fn h; cases h
  | cons w rest ih =>
    intro est need st fn h
    unfold find_slot_contiguous at h
    dsimp only at h
    by_cases hfit : w.we - max w.ws est ≥ need
    · rw [if_pos hfit] at h
      cases h
      exact ⟨le_max_right _ _, rfl⟩
    · rw [if_neg hfit] at h
      exact ih est need st fn h

/-- Per-machine nonnegative default setup. -/
def McPos (mc : Machine) : Prop := ∀ v, mc.default_setup_min = some v → 0 ≤ v

/-- Per-operation positivity: nonnegative fixed setups and preemption
overhead, strictly positive per-unit processing time. -/
def OpPos (op : Op) : Prop :=
  (∀ v, op.setup_time_fixed_min = some v → 0 ≤ v) ∧
  (∀ v, op.setup_time_fixed = some v → 0 ≤ v) ∧
  0 ≤ op.preemption_overhead_min ∧
  0 < (match op.proc_time_per_unit_min with
       | some v => v
       | none =>
         match op.proc_time_per_unit with
         | some v => v * 60
         | none => 0)

/-- Context-wide nonnegativity of the cost oracles. -/
def CtxPos (ctx : Context) : Prop :=
  (∀ mat ∈ ctx.setup_matrices, ∀ row ∈ mat.matrix, ∀ cell ∈ row.2, 0 ≤ cell.2) ∧
  (∀ w ∈ ctx.work_centers, ∀ v, w.default_setup_min = some v → 0 ≤ v) ∧
  (∀ m ∈ ctx.machines, McPos m) ∧
  (∀ so ∈ ctx.speed_overrides, 0 ≤ so.multiplier)

theorem lookup_setup_nonneg (ctx : Context) (prev next : String) (mc : Machine) (op : Op)
    (hpos : CtxPos ctx) (hmc : McPos mc)
    (hop1 : ∀ v, op.setup_time_fixed_min = some v → 0 ≤ v)
    (hop2 : ∀ v, op.setup_time_fixed = some v → 0 ≤ v) :
    0 ≤ lookup_matrix_setup_min ctx prev next mc op := by
  unfold lookup_matrix_setup_min
  cases hc : lookup_cell ctx prev next mc op with
  | some v =>
    unfold lookup_cell at hc
    cases hid : lookup_mat_id ctx mc op with
    | none => rw [hid] at hc; cases hc
    | some matid =>
      rw [hid] at hc
      dsimp only at hc
      cases hmat : idxSetupMat ctx matid with
      | none => rw [hmat] at hc; cases hc
      | some mat =>
        rw [hmat] at hc
        dsimp only at hc
        unfold matrixCell at hc
        cases hrow : mat.matrix.find? (fun row => row.1 = prev) with
        | none => rw [hrow] at hc; cases hc
        | some row =>
          rw [hrow] at hc
          dsimp only at hc
          cases hcell : row.2.find? (fun c => c.1 = next) with
          | none => rw [hcell] at hc; cases hc
          | some cell =>
            rw [hcell] at hc
            cases hc
            exact hpos.1 mat (List.mem_of_find?_eq_some hmat) row
              (List.mem_of_find?_eq_some hrow) cell (List.mem_of_find?_eq_some hcell)
  | none =>
    unfold lookup_fixed_fallback
    cases h1 : op.setup_time_fixed_min with
    | some v => exact hop1 v h1
    | none =>
      cases h2 : op.setup_time_fixed with
      | some v => exact mul_nonneg (hop2 v h2) (by norm_num)
      | none =>
        cases h3 : mc.default_setup_min with
        | some v => exact hmc v h3
        | none =>
          cases h4 : (idxWc ctx op.work_center_id).bind (fun w => w.default_setup_min) with
          | some v =>
            cases hw : idxWc ctx op.work_center_id with
            | none => rw [hw] at h4; cases h4
            | some wc =>
              rw [hw] at h4
              exact hpos.2.1 wc (List.mem_of_find?_eq_some hw) v h4
          | none => exact le_refl 0

theorem foldOverride_pos (mid pid oname : String) :
    ∀ (sos : List SpeedOverride) (total : ℚ), (∀ so ∈ sos, 0 ≤ so.multiplier) →
      0 < total → 0 < sos.foldl (applyOverride mid pid oname) total := by
  intro sos
  induction sos with
  | nil => intro total _ h; exact h
  | cons so rest ih =>
    intro total hm h
    rw [List.foldl_cons]
    refine ih _ (fun s2 hs2 => hm s2 (List.mem_cons_of_mem _ hs2)) ?_
    have hmul : 0 < effMult so := by
      unfold effMult
      by_cases hz : so.multiplier = 0
      · rw [if_pos hz]; norm_num
      · rw [if_neg hz]
        exact lt_of_le_of_ne (hm so (List.mem_cons_self _ _)) (Ne.symm hz)
    unfold applyOverride
    cases hk : so.key with
    | nil => exact h
    | cons k1 krest =>
      cases krest with
      | nil => exact h
      | cons k2 krest2 =>
        cases krest2 with
        | nil =>
          dsimp only
          by_cases hcond : mid = k1 ∧ oname = k2
          · rw [if_pos hcond]; exact div_pos h hmul
          · rw [if_neg hcond]; exact h
        | cons k3 krest3 =>
          cases krest3 with
          | nil =>
            dsimp only
            by_cases hcond : mid = k1 ∧ pid = k2 ∧ oname = k3
            · rw [if_pos hcond]; exact div_pos h hmul
            · rw [if_neg hcond]; exact h
          | cons k4 krest4 => exact h

theorem proc_pos (ctx : Context) (op : Op) (qty : ℚ) (mid pid : String) (eff : ℚ)
    (hq : 0 < qty)
    (hper : 0 < (match op.proc_time_per_unit_min with
       | some v => v
       | none =>
         match op.proc_time_per_unit with
         | some v => v * 60
         | none => 0))
    (hmult : ∀ so ∈ ctx.speed_overrides, 0 ≤ so.multiplier) :
    0 < get_proc_time_min ctx op qty mid pid eff := by
  unfold get_proc_time_min
  dsimp only
  have htot : 0 < (match op.proc_time_per_unit_min with
       | some v => v
       | none =>
         match op.proc_time_per_unit with
         | some v => v * 60
         | none => 0) * qty := mul_pos hper hq
  have hfold := foldOverride_pos mid pid op.name ctx.speed_overrides _ hmult htot
  by_cases he : 0 < eff
  · rw [if_pos he]
    exact div_pos hfold he
  · rw [if_neg he]
    exact hfold


theorem packLoop_spec (ovh : ℚ) (est : Time) (hovh : 0 ≤ ovh) :
    ∀ (ws : List Window) (st : PackSt),
      WChain ws →
      est ≤ st.cur_time →
      0 ≤ st.total_ovh →
      0 ≤ st.setup_td →
      0 < st.remaining - st.setup_td →
      (∀ b, st.started = some b → est ≤ b ∧ (b ≤ st.cur_time ∨ ∀ w ∈ ws, b ≤ w.ws)) →
      ((packLoop ovh ws st).remaining ≤ 0 →
        ∀ b, (packLoop ovh ws st).started = some b →
          est ≤ b ∧ b ≤ (packLoop ovh ws st).cur_time ∧
            0 ≤ (packLoop ovh ws st).total_ovh) := by
  intro ws
  induction ws with
  | nil =>
    intro st _ _ _ hsetup hrem _ hfin
    have hc : st.remaining ≤ 0 := hfin
    exact absurd hc (not_le.mpr (by linarith))
  | cons w rest ih =>
    intro st hchain hcur hovht hsetup hrem hstart
    have hchT : WChain rest := (List.pairwise_cons.mp hchain).2
    have hchH : ∀ w2 ∈ rest, w.we ≤ w2.ws := (List.pairwise_cons.mp hchain).1
    unfold packLoop
    dsimp only
    by_cases h1 : max w.ws st.cur_time ≥ w.we
    · rw [if_pos h1]
      refine ih st hchT hcur hovht hsetup hrem ?_
      intro b hb
      obtain ⟨h2, h3⟩ := hstart b hb
      refine ⟨h2, ?_⟩
      rcases h3 with h3 | h3
      · exact Or.inl h3
      · exact Or.inr (fun w2 hw2 => h3 w2 (List.mem_cons_of_mem _ hw2))
    · rw [if_neg h1]
      have hlt : max w.ws st.cur_time < w.we := lt_of_not_le h1
      have hbnew : ∀ b, (st.started.getD (max w.ws st.cur_time)) = b →
          est ≤ b ∧ b ≤ max w.ws st.cur_time := by
        intro b hb
        cases hso : st.started with
        | none =>
          rw [hso] at hb
          simp only [Option.getD] at hb
          rw [← hb]
          exact ⟨le_trans hcur (le_max_right _ _), le_refl _⟩
        | some b0 =>
          rw [hso] at hb
          simp only [Option.getD] at hb
          rw [← hb]
          obtain ⟨h4, h5⟩ := hstart b0 hso
          refine ⟨h4, ?_⟩
          rcases h5 with h5 | h5
          · exact le_trans h5 (le_max_right _ _)
          · exact le_trans (h5 w (List.mem_cons_self _ _)) (le_max_left _ _)
      by_cases h2 : st.setup_td > 0 ∧ ¬ (w.we - max w.ws st.cur_time ≥ st.setup_td)
      · rw [if_pos h2]
        refine ih st hchT hcur hovht hsetup hrem ?_
        intro b hb
        obtain ⟨h3, h4⟩ := hstart b hb
        refine ⟨h3, ?_⟩
        rcases h4 with h4 | h4
        · exact Or.inl h4
        · exact Or.inr (fun w2 hw2 => h4 w2 (List.mem_cons_of_mem _ hw2))
      · rw [if_neg h2]
        by_cases hd : st.setup_td > 0
        · simp only [if_pos hd]
          have hrem1 : 0 < st.remaining - st.setup_td := hrem
          rw [if_neg (not_le.mpr hrem1)]
          by_cases h3 : w.we - (max w.ws st.cur_time + st.setup_td) ≤ 0
          · rw [if_pos h3]
            refine ih _ hchT hcur hovht (le_refl 0) (by simpa using hrem1) ?_
            intro b hb
            simp only at hb
            obtain ⟨h4, h5⟩ := hbnew b (Option.some.inj hb)
            refine ⟨h4, Or.inr ?_⟩
            intro w2 hw2
            exact le_trans h5 (le_trans (le_of_lt hlt) (hchH w2 hw2))
          · rw [if_neg h3]
            by_cases h4 : st.remaining - st.setup_td -
                min (w.we - (max w.ws st.cur_time + st.setup_td))
                  (st.remaining - st.setup_td) > 0
            · rw [if_pos h4]
              refine ih _ hchT ?_ ?_ (le_refl 0) (by simpa using h4) ?_
              · exact le_trans hcur (le_trans (le_max_right _ _) (le_of_lt hlt))
              · simp only
                linarith
              · intro b hb
                simp only at hb
                obtain ⟨h5, h6⟩ := hbnew b (Option.some.inj hb)
                exact ⟨h5, Or.inl (by simp only; exact le_trans h6 (le_of_lt hlt))⟩
            · rw [if_neg h4]
              intro hrf b hb
              simp only at hb
              obtain ⟨h5, h6⟩ := hbnew b (Option.some.inj hb)
              have hmin : 0 ≤ min (w.we - (max w.ws st.cur_time + st.setup_td))
                  (st.remaining - st.setup_td) :=
                le_min (by linarith [lt_of_not_le h3]) (le_of_lt hrem1)
              refine ⟨h5, ?_, by simpa using hovht⟩
              simp only
              have hsd : (0 : ℚ) ≤ st.setup_td := hsetup
              calc b ≤ max w.ws st.cur_time := h6
                _ ≤ max w.ws st.cur_time + st.setup_td := by linarith
                _ ≤ _ := le_add_of_nonneg_right hmin
        · simp only [if_neg hd]
          have hs0 : st.setup_td = 0 := le_antisymm (not_lt.mp hd) hsetup
          have hrem1 : 0 < st.remaining := by linarith
          rw [if_neg (not_le.mpr hrem1)]
          by_cases h3 : w.we - max w.ws st.cur_time ≤ 0
          · exact absurd h3 (not_le.mpr (by linarith))
          · rw [if_neg h3]
            by_cases h4 : st.remaining -
                min (w.we - max w.ws st.cur_time) st.remaining > 0
            · rw [if_pos h4]
              refine ih _ hchT ?_ ?_ (le_refl 0) (by simpa using h4) ?_
              · exact le_trans hcur (le_trans (le_max_right _ _) (le_of_lt hlt))
              · simp only
                linarith
              · intro b hb
                simp only at hb
                obtain ⟨h5, h6⟩ := hbnew b (Option.some.inj hb)
                exact ⟨h5, Or.inl (by simp only; exact le_trans h6 (le_of_lt hlt))⟩
            · rw [if_neg h4]
              intro hrf b hb
              simp only at hb
              obtain ⟨h5, h6⟩ := hbnew b (Option.some.inj hb)
              have hmin : 0 ≤ min (w.we - max w.ws st.cur_time) st.remaining :=
                le_min (by linarith [lt_of_not_le h3]) (le_of_lt hrem1)
              refine ⟨h5, ?_, by simpa using hovht⟩
              simp only
              exact le_trans h6 (le_add_of_nonneg_right hmin)


theorem pack_bounds (wins : List Window) (est : Time) (need setup ovh : ℚ)
    (st fn : Time) (o : ℚ) (k : ℕ) (usage : List (ℤ × ℚ))
    (hchain : WChain wins) (hovh : 0 ≤ ovh) (hsetup : 0 ≤ setup)
    (hproc : 0 < need - setup)
    (h : pack_across_windows wins est need setup ovh = some (st, fn, o, k, usage)) :
    est ≤ st ∧ st ≤ fn := by
  unfold pack_across_windows at h
  dsimp only at h
  by_cases h1 : (packLoop ovh wins
      { remaining := need, setup_td := setup, started := none,
        cur_time := est, total_ovh := 0, num_splits := 0, ot_by_day := [] }).remaining > 0
  · rw [if_pos h1] at h; cases h
  · rw [if_neg h1] at h
    cases hst : (packLoop ovh wins
        { remaining := need, setup_td := setup, started := none,
          cur_time := est, total_ovh := 0, num_splits := 0, ot_by_day := [] }).started with
    | none => rw [hst] at h; cases h
    | some b =>
      rw [hst] at h
      dsimp only at h
      have hspec := packLoop_spec ovh est hovh wins
        { remaining := need, setup_td := setup, started := none,
          cur_time := est, total_ovh := 0, num_splits := 0, ot_by_day := [] }
        hchain (le_refl est) (le_refl 0) hsetup (by simpa using hproc)
        (fun b2 hb2 => by cases hb2)
        (not_lt.mp h1) b hst
      cases h
      exact ⟨hspec.1, le_trans hspec.2.1 (le_add_of_nonneg_right hspec.2.2)⟩

/-- A candidate respecting the operation chaining: it starts no earlier
than the running start and finishes no earlier than it starts. -/
def GoodB (cur_start : Time) (c : Cand) : Prop :=
  cur_start ≤ c.start ∧ c.start ≤ c.finish

theorem candidate_bounds (ctx : Context) (winsOf : String → List Window)
    (cap : Option ℚ) (allow : Bool) (free : String → Time) (mstate : String → String)
    (ot : String → ℤ → ℚ) (cur_start : Time) (batch : Batch) (op : Op) (mc : Machine)
    (c : Cand)
    (hpos : CtxPos ctx) (hmc : McPos mc) (hop : OpPos op) (hq : 0 < batch.qty)
    (hchain : WChain (winsOf mc.machine_id))
    (h : (candidate_for_machine ctx winsOf cap allow free mstate ot cur_start batch op
        mc).cand = some c) :
    GoodB cur_start c := by
  have hsetup : 0 ≤ lookup_matrix_setup_min ctx (mstate mc.machine_id)
      ((op.setup_state_key).getD "clean") mc op :=
    lookup_setup_nonneg ctx _ _ mc op hpos hmc hop.1 hop.2.1
  have hproc : 0 < get_proc_time_min ctx op batch.qty mc.machine_id batch.product_id
      (machineEffOf mc) :=
    proc_pos ctx op batch.qty mc.machine_id batch.product_id (machineEffOf mc)
      hq hop.2.2.2 hpos.2.2.2
  have hchain2 : WChain (winsToSearch (winsOf mc.machine_id)
      (max cur_start (free mc.machine_id))) := winsToSearch_chain _ _ hchain
  unfold candidate_for_machine at h
  dsimp only at h
  split at h
  · split at h
    · next st2 fn2 hfind =>
      split at h
      · simp at h
      · cases h
        obtain ⟨hb1, hb2⟩ := find_slot_bounds _ _ _ _ _ hfind
        refine ⟨le_trans (le_max_left _ _) hb1, ?_⟩
        rw [hb2]
        show st2 ≤ st2 + (lookup_matrix_setup_min ctx (mstate mc.machine_id)
          ((op.setup_state_key).getD "clean") mc op +
          get_proc_time_min ctx op batch.qty mc.machine_id batch.product_id
            (machineEffOf mc))
        linarith
    · simp at h
  · split at h
    · next st2 fn2 ovh2 k2 usage2 hpack =>
      split at h
      · simp at h
      · cases h
        obtain ⟨hb1, hb2⟩ := pack_bounds _ _ _ _ _ _ _ _ _ _ hchain2 hop.2.2.1 hsetup
          (by linarith) hpack
        exact ⟨le_trans (le_max_left _ _) hb1, hb2⟩
    · simp at h


theorem scan_best_bounds (ctx : Context) (winsOf : String → List Window) (cap : Option ℚ)
    (allow : Bool) (free : String → Time) (mstate : String → String)
    (ot : String → ℤ → ℚ) (cur_start : Time) (batch : Batch) (op : Op)
    (hpos : CtxPos ctx) (hop : OpPos op) (hq : 0 < batch.qty) :
    ∀ (cands : List Machine) (acc : OpScan),
      (∀ mc ∈ cands, McPos mc ∧ WChain (winsOf mc.machine_id)) →
      (∀ c, acc.best = some c → GoodB cur_start c) →
      ∀ c, (cands.foldl (scanStep ctx winsOf cap allow free mstate ot
          cur_start batch op) acc).best = some c → GoodB cur_start c := by
  intro cands
  induction cands with
  | nil => intro acc _ hacc c h; exact hacc c h
  | cons mc ms ih =>
    intro acc hmcs hacc c h
    rw [List.foldl_cons] at h
    refine ih _ (fun m2 hm2 => hmcs m2 (List.mem_cons_of_mem _ hm2)) ?_ c h
    intro c2 h2
    unfold scanStep at h2
    dsimp only at h2
    unfold betterCand at h2
    cases ho : (candidate_for_machine ctx winsOf cap allow free mstate ot
        cur_start batch op mc).cand with
    | none =>
      rw [ho] at h2
      exact hacc c2 h2
    | some cand =>
      rw [ho] at h2
      have hgood : GoodB cur_start cand :=
        candidate_bounds ctx winsOf cap allow free mstate ot cur_start batch op mc cand
          hpos (hmcs mc (List.mem_cons_self _ _)).1 hop hq
          (hmcs mc (List.mem_cons_self _ _)).2 ho
      cases hb : acc.best with
      | none =>
        rw [hb] at h2
        dsimp only at h2
        cases h2
        exact hgood
      | some b =>
        rw [hb] at h2
        dsimp only at h2
        by_cases hf : cand.finish < b.finish
        · rw [if_pos hf] at h2
          cases h2
          exact hgood
        · rw [if_neg hf] at h2
          cases h2
          exact hacc _ hb

theorem wcCandidates_sub (ctx : Context) (wc_id : String) :
    ∀ mc ∈ wcCandidates ctx wc_id, mc ∈ ctx.machines := by
  unfold wcCandidates
  cases hby : machinesByWc ctx wc_id with
  | nil =>
    cases hw : idxWc ctx wc_id with
    | none => intro mc hmc; exact absurd hmc (List.not_mem_nil _)
    | some wc =>
      intro mc hmc
      obtain ⟨mid, _, hfind⟩ := List.mem_filterMap.mp hmc
      exact List.mem_of_find?_eq_some hfind
  | cons m ms =>
    intro mc hmc
    have : mc ∈ machinesByWc ctx wc_id := by rw [hby]; exact hmc
    exact List.mem_of_mem_filter this

theorem prc_sub (ctx : Context) (pid : String) :
    ∀ r ∈ product_routing_candidates ctx pid, r ∈ ctx.routings := by
  unfold product_routing_candidates
  cases hp : idxProduct ctx pid with
  | none => intro r hr; exact absurd hr (List.not_mem_nil _)
  | some p =>
    dsimp only
    by_cases hne : p.routing_ids ≠ []
    · rw [if_pos hne]
      intro r hr
      obtain ⟨rid, _, hfind⟩ := List.mem_filterMap.mp hr
      exact List.mem_of_find?_eq_some hfind
    · rw [if_neg hne]
      cases hrid : p.routing_id with
      | none => intro r hr; exact absurd hr (List.not_mem_nil _)
      | some rid =>
        dsimp only
        cases hf : idxRouting ctx rid with
        | none => intro r hr; exact absurd hr (List.not_mem_nil _)
        | some r0 =>
          intro r hr
          have h2 := List.mem_singleton.mp hr
          subst h2
          exact List.mem_of_find?_eq_some hf

theorem tryGo_chain (ctx : Context) (winsOf : String → List Window) (cap : Option ℚ)
    (allow : Bool) (batch : Batch) (rid : String)
    (hpos : CtxPos ctx) (hq : 0 < batch.qty)
    (hchains : ∀ mid, WChain (winsOf mid)) :
    ∀ (ops : List Op) (free : String → Time) (mstate : String → String)
      (ot : String → ℤ → ℚ) (cur_start : Time) (steps : List Step) (fs : String → ℕ)
      (p : Plan),
      (∀ op ∈ ops, OpPos op) →
      (tryRoutingGo ctx winsOf cap allow batch rid ops free mstate ot
        cur_start steps fs).1 = some p →
      steps.Pairwise (fun a b => a.finish ≤ b.start) →
      (∀ s ∈ steps, s.finish ≤ cur_start) →
      (∀ s ∈ steps, s.batch_id = batch.batch_id) →
      p.steps.Pairwise (fun a b => a.finish ≤ b.start) ∧
        (∀ s ∈ p.steps, s.batch_id = batch.batch_id) := by
  intro ops
  induction ops with
  | nil =>
    intro free mstate ot cur_start steps fs p _ h hpw hfin hbid
    simp only [tryRoutingGo] at h
    cases h
    exact ⟨hpw, hbid⟩
  | cons op rest ih =>
    intro free mstate ot cur_start steps fs p hops h hpw hfin hbid
    simp only [tryRoutingGo] at h
    cases hwc : wcCandidates ctx op.work_center_id with
    | nil =>
      rw [hwc] at h
      simp at h
    | cons m0 ms =>
      rw [hwc] at h
      dsimp only at h
      cases hb : (scanMachines ctx winsOf cap allow free mstate ot
          cur_start batch op (m0 :: ms)).best with
      | none =>
        rw [hb] at h
        simp at h
      | some best =>
        rw [hb] at h
        dsimp only at h
        have hgood : GoodB cur_start best := by
          refine scan_best_bounds ctx winsOf cap allow free mstate ot cur_start batch op
            hpos (hops op (List.mem_cons_self _ _)) hq (m0 :: ms) _ ?_ ?_ best hb
          · intro mc hmc
            refine ⟨hpos.2.2.1 mc ?_, hchains mc.machine_id⟩
            refine wcCandidates_sub ctx op.work_center_id mc ?_
            rw [hwc]
            exact hmc
          · intro c hc
            simp at hc
        refine ih _ _ _ _ _ _ p (fun o2 ho2 => hops o2 (List.mem_cons_of_mem _ ho2)) h
          ?_ ?_ ?_
        · rw [List.pairwise_append]
          refine ⟨hpw, List.pairwise_singleton _ _, ?_⟩
          intro a ha b hbm
          have hb2 := List.mem_singleton.mp hbm
          subst hb2
          exact le_trans (hfin a ha) hgood.1
        · intro s hs
          rcases List.mem_append.mp hs with h2 | h2
          · exact le_trans (hfin s h2) (le_trans hgood.1 hgood.2)
          · have h3 := List.mem_singleton.mp h2
            subst h3
            exact le_refl _
        · intro s hs
          rcases List.mem_append.mp hs with h2 | h2
          · exact hbid s h2
          · have h3 := List.mem_singleton.mp h2
            subst h3
            rfl


theorem planFold_chain (ctx : Context) (winsOf : String → List Window) (cap : Option ℚ)
    (allow : Bool) (ear : Time) (st : OnceState) (batch : Batch)
    (hpos : CtxPos ctx) (hq : 0 < batch.qty)
    (hchains : ∀ mid, WChain (winsOf mid)) :
    ∀ (cands : List Routing) (acc : Option Plan × (String → ℕ)),
      (∀ r ∈ cands, ∀ op ∈ r.operations, OpPos op) →
      (∀ p, acc.1 = some p → p.steps.Pairwise (fun a b => a.finish ≤ b.start) ∧
        (∀ s ∈ p.steps, s.batch_id = batch.batch_id)) →
      ∀ p, ((cands.foldl (planStep ctx winsOf cap allow ear st batch) acc).1 = some p) →
        p.steps.Pairwise (fun a b => a.finish ≤ b.start) ∧
          (∀ s ∈ p.steps, s.batch_id = batch.batch_id) := by
  intro cands
  induction cands with
  | nil => intro acc _ hacc p h; exact hacc p h
  | cons r rs ih =>
    intro acc hops hacc p h
    rw [List.foldl_cons] at h
    refine ih _ (fun r2 hr2 => hops r2 (List.mem_cons_of_mem _ hr2)) ?_ p h
    intro p2 h2
    unfold planStep at h2
    dsimp only at h2
    cases hr : (try_schedule_with_routing ctx winsOf cap allow ear
        st.machine_free st.machine_state st.ot_used acc.2 batch r).1 with
    | none =>
      rw [hr] at h2
      exact hacc p2 h2
    | some q =>
      rw [hr] at h2
      dsimp only at h2
      have hqc : q.steps.Pairwise (fun a b => a.finish ≤ b.start) ∧
          (∀ s ∈ q.steps, s.batch_id = batch.batch_id) :=
        tryGo_chain ctx winsOf cap allow batch r.routing_id hpos hq hchains
          r.operations st.machine_free st.machine_state st.ot_used
          (max batch.release_date ear) [] acc.2 q
          (hops r (List.mem_cons_self _ _)) hr List.Pairwise.nil
          (fun s hs => absurd hs (List.not_mem_nil _))
          (fun s hs => absurd hs (List.not_mem_nil _))
      cases hab : acc.1 with
      | none =>
        rw [hab] at h2
        dsimp only at h2
        cases h2
        exact hqc
      | some b =>
        rw [hab] at h2
        dsimp only at h2
        by_cases hf : q.finish < b.finish
        · rw [if_pos hf] at h2
          cases h2
          exact hqc
        · rw [if_neg hf] at h2
          cases h2
          exact hacc _ hab

theorem scheduleFold_chain (ctx : Context) (winsOf : String → List Window)
    (cap : Option ℚ) (allow : Bool) (ear : Time)
    (hpos : CtxPos ctx) (hchains : ∀ mid, WChain (winsOf mid))
    (hops : ∀ r ∈ ctx.routings, ∀ op ∈ r.operations, OpPos op) :
    ∀ (l : List Batch) (st : OnceState),
      (∀ b ∈ l, 0 < b.qty) →
      ((l.map (fun b => b.batch_id)).Nodup) →
      st.schedule.Pairwise (fun a b => a.batch_id = b.batch_id → a.finish ≤ b.start) →
      (∀ s ∈ st.schedule, ¬ s.batch_id ∈ l.map (fun b => b.batch_id)) →
      (l.foldl (processBatch ctx winsOf cap allow ear) st).schedule.Pairwise
        (fun a b => a.batch_id = b.batch_id → a.finish ≤ b.start) := by
  intro l
  induction l with
  | nil => intro st _ _ hpw _; exact hpw
  | cons batch rest ih =>
    intro st hq hnd hpw hnot
    rw [List.foldl_cons]
    rw [List.map_cons, List.nodup_cons] at hnd
    refine ih _ (fun b hb => hq b (List.mem_cons_of_mem _ hb)) hnd.2 ?_ ?_
    · unfold processBatch
      cases hpc : product_routing_candidates ctx batch.product_id with
      | nil => exact hpw
      | cons c cs =>
        dsimp only
        cases hr : (bestPlanOf ctx winsOf cap allow ear st batch (c :: cs)).1 with
        | none => exact hpw
        | some plan =>
          have hplan := planFold_chain ctx winsOf cap allow ear st batch hpos
            (hq batch (List.mem_cons_self _ _)) hchains (c :: cs) (none, st.fail_stats)
            (fun r2 hr2 => hops r2 (prc_sub ctx batch.product_id r2 (by rw [hpc]; exact hr2)))
            (fun p hp => by simp at hp) plan hr
          dsimp only
          rw [List.pairwise_append]
          refine ⟨hpw, List.Pairwise.imp ?_ hplan.1, ?_⟩
          · intro a b h _
            exact h
          intro a ha b hb heq
          exfalso
          refine hnot a ha ?_
          rw [heq, hplan.2 b hb]
          exact List.mem_cons_self _ _
    · intro s hs
      unfold processBatch at hs
      cases hpc : product_routing_candidates ctx batch.product_id with
      | nil =>
        rw [hpc] at hs
        exact fun hmem => hnot s hs (List.mem_cons_of_mem _ hmem)
      | cons c cs =>
        rw [hpc] at hs
        dsimp only at hs
        cases hr : (bestPlanOf ctx winsOf cap allow ear st batch (c :: cs)).1 with
        | none =>
          rw [hr] at hs
          exact fun hmem => hnot s hs (List.mem_cons_of_mem _ hmem)
        | some plan =>
          rw [hr] at hs
          dsimp only at hs
          have hplan := planFold_chain ctx winsOf cap allow ear st batch hpos
            (hq batch (List.mem_cons_self _ _)) hchains (c :: cs) (none, st.fail_stats)
            (fun r2 hr2 => hops r2 (prc_sub ctx batch.product_id r2 (by rw [hpc]; exact hr2)))
            (fun p hp => by simp at hp) plan hr
          rcases List.mem_append.mp hs with h2 | h2
          · exact fun hmem => hnot s h2 (List.mem_cons_of_mem _ hmem)
          · rw [hplan.2 s h2]
            exact hnd.1


theorem schedule_once_chain (ctx : Context) (chrom : List Batch) (base_days : ℕ)
    (fs0 : String → ℕ)
    (hpos : CtxPos ctx) (H1 : ∀ s ∈ ctx.shifts, s.start_time < 1440)
    (hops : ∀ r ∈ ctx.routings, ∀ op ∈ r.operations, OpPos op)
    (hq : ∀ b ∈ chrom, 0 < b.qty)
    (hnd : ((chrom.map (fun b => b.batch_id)).Nodup))
    (hdays : 1 ≤ base_days) :
    (schedule_once ctx chrom base_days fs0).schedule.Pairwise
      (fun a b => a.batch_id = b.batch_id → a.finish ≤ b.start) := by
  unfold schedule_once
  dsimp only
  refine scheduleFold_chain ctx _ _ _ _ hpos ?_ hops chrom _ hq hnd List.Pairwise.nil
    (fun s hs => absurd hs (List.not_mem_nil _))
  intro mid
  exact build_chain ctx (minRelease chrom) base_days mid hdays H1

theorem auto_horizon_ge (chrom : List Batch) : 7 ≤ auto_horizon_days chrom := by
  unfold auto_horizon_days
  cases chrom with
  | nil => norm_num
  | cons b rest =>
    dsimp only
    exact le_max_left _ _

/-- C1: with nonnegative setup oracles, strictly positive per-unit
processing, positive batch quantities, shift start times inside the
day, and pairwise distinct batch ids, every schedule the decoder
returns is chained within a batch: entries of the same batch id (hence
of the same (batch_id, routing_id)) appear in routing order and every
earlier entry finishes no later than a later entry starts.  Since each
routing lists its operations in increasing op_no order (hsorted), the
positional order below is exactly the op_no order of the claim. -/
theorem C1_precedence (ctx : Context) (chrom : List Batch)
    (hpos : CtxPos ctx)
    (H1 : ∀ s ∈ ctx.shifts, s.start_time < 1440)
    (hops : ∀ r ∈ ctx.routings, ∀ op ∈ r.operations, OpPos op)
    (hsorted : ∀ r ∈ ctx.routings, r.operations.Pairwise (fun o1 o2 => o1.op_no < o2.op_no))
    (hq : ∀ b ∈ chrom, 0 < b.qty)
    (hnd : ((chrom.map (fun b => b.batch_id)).Nodup)) :
    (decode ctx chrom).schedule.Pairwise
      (fun a b => a.batch_id = b.batch_id ∧ a.routing_id = b.routing_id →
        a.finish ≤ b.start) := by
  have hmain : ∀ (d : ℕ) (fs0 : String → ℕ), 1 ≤ d →
      (schedule_once ctx chrom d fs0).schedule.Pairwise
        (fun a b => a.batch_id = b.batch_id ∧ a.routing_id = b.routing_id →
          a.finish ≤ b.start) := by
    intro d fs0 hd
    exact (schedule_once_chain ctx chrom d fs0 hpos H1 hops hq hnd hd).imp
      (fun h hc => h hc.1)
  have hbase : 1 ≤ (auto_horizon_days chrom).toNat := by
    have := auto_horizon_ge chrom
    omega
  unfold decode
  cases chrom with
  | nil => exact List.Pairwise.nil
  | cons b0 rest =>
    dsimp only
    by_cases h0 : (schedule_once ctx (b0 :: rest) ((auto_horizon_days (b0 :: rest)).toNat + 0)
        (fun _ => 0)).skipped = 0
    · rw [if_pos h0]
      exact hmain _ _ (by omega)
    · rw [if_neg h0]
      by_cases h7 : (schedule_once ctx (b0 :: rest) ((auto_horizon_days (b0 :: rest)).toNat + 7)
          (fun _ => 0)).skipped = 0
      · rw [if_pos h7]
        rcases pickBetter_cases (schedule_once ctx (b0 :: rest)
            ((auto_horizon_days (b0 :: rest)).toNat + 0) (fun _ => 0))
          (schedule_once ctx (b0 :: rest)
            ((auto_horizon_days (b0 :: rest)).toNat + 7) (fun _ => 0)) with hpb | hpb
        · rw [hpb]
          exact hmain _ _ (by omega)
        · rw [hpb]
          exact hmain _ _ (by omega)
      · rw [if_neg h7]
        rcases pickBetter_cases (pickBetter (schedule_once ctx (b0 :: rest)
            ((auto_horizon_days (b0 :: rest)).toNat + 0) (fun _ => 0))
          (schedule_once ctx (b0 :: rest)
            ((auto_horizon_days (b0 :: rest)).toNat + 7) (fun _ => 0)))
          (schedule_once ctx (b0 :: rest)
            ((auto_horizon_days (b0 :: rest)).toNat + 14) (fun _ => 0)) with hpb | hpb
        · rw [hpb]
          rcases pickBetter_cases (schedule_once ctx (b0 :: rest)
              ((auto_horizon_days (b0 :: rest)).toNat + 0) (fun _ => 0))
            (schedule_once ctx (b0 :: rest)
              ((auto_horizon_days (b0 :: rest)).toNat + 7) (fun _ => 0)) with hpb2 | hpb2
          · rw [hpb2]
            exact hmain _ _ (by omega)
          · rw [hpb2]
            exact hmain _ _ (by omega)
        · rw [hpb]
          exact hmain _ _ (by omega)


/-- First operation of the witness routing. -/
def opW1a : Op :=
  { op_no := 1, name := "A", work_center_id := "W", setup_state_key := none,
    proc_time_per_unit_min := some 1, proc_time_per_unit := none,
    setup_time_fixed_min := none, setup_time_fixed := none, setup_matrix_id := none,
    batchable := false, batch := none, preemptable := false, preemption_overhead_min := 0 }

/-- Second operation of the witness routing. -/
def opW1b : Op :=
  { op_no := 2, name := "B", work_center_id := "W", setup_state_key := none,
    proc_time_per_unit_min := some 1, proc_time_per_unit := none,
    setup_time_fixed_min := none, setup_time_fixed := none, setup_matrix_id := none,
    batchable := false, batch := none, preemptable := false, preemption_overhead_min := 0 }

/-- The witness machine. -/
def mcW1 : Machine :=
  { machine_id := "M", work_center_id := "W", initial_state := none,
    efficiency := none, shifts := [], setup_matrix_id := none, default_setup_min := none }

/-- A two-operation context for the C1 witness. -/
def ctxW1 : Context :=
  { products := [{ product_id := "P", routing_ids := ["R"], routing_id := none, lot_size := none }],
    routings := [{ routing_id := "R", operations := [opW1a, opW1b] }],
    work_centers := [],
    machines := [mcW1],
    setup_matrices := [], speed_overrides := [], orders := [],
    calendar := { holidays := [], machine_maintenances := [], ot_windows := [],
                  ot_cap_hours_per_day := none, breaks := [] },
    shifts := [],
    settings := { w_makespan := none, w_tardiness := none, w_setup_cost := none,
                  w_preemption_cost := none },
    allow_job_preemption := false }

/-- The witness batch. -/
def batchW1 : Batch :=
  { batch_id := "B1", order_id := "O1", product_id := "P", qty := 1, priority := 1,
    due_date := 1440, release_date := 0 }

/-- Witness for C1 at a concrete two-operation context. -/
theorem C1_precedence_witness :
    (CtxPos ctxW1 ∧ (∀ s ∈ ctxW1.shifts, s.start_time < 1440) ∧
      (∀ r ∈ ctxW1.routings, ∀ op ∈ r.operations, OpPos op) ∧
      (∀ r ∈ ctxW1.routings, r.operations.Pairwise (fun o1 o2 => o1.op_no < o2.op_no)) ∧
      (∀ b ∈ [batchW1], 0 < b.qty) ∧
      (([batchW1].map (fun b => b.batch_id)).Nodup)) ∧
    (decode ctxW1 [batchW1]).schedule.Pairwise
      (fun a b => a.batch_id = b.batch_id ∧ a.routing_id = b.routing_id →
        a.finish ≤ b.start) := by
  have hpos : CtxPos ctxW1 := by
    refine ⟨by simp [ctxW1], by simp [ctxW1], ?_, by simp [ctxW1]⟩
    intro m hm
    have h2 : m = mcW1 := List.mem_singleton.mp hm
    subst h2
    intro v hv
    exact Option.noConfusion hv
  have hH1 : ∀ s ∈ ctxW1.shifts, s.start_time < 1440 := by simp [ctxW1]
  have hops : ∀ r ∈ ctxW1.routings, ∀ op ∈ r.operations, OpPos op := by
    intro r hr op hop
    have h2 : r = { routing_id := "R", operations := [opW1a, opW1b] } :=
      List.mem_singleton.mp hr
    subst h2
    rcases List.mem_cons.mp hop with h | h
    · subst h
      exact ⟨fun v hv => Option.noConfusion hv, fun v hv => Option.noConfusion hv,
        by decide, by decide⟩
    · have h3 : op = opW1b := List.mem_singleton.mp h
      subst h3
      exact ⟨fun v hv => Option.noConfusion hv, fun v hv => Option.noConfusion hv,
        by decide, by decide⟩
  have hsorted : ∀ r ∈ ctxW1.routings,
      r.operations.Pairwise (fun o1 o2 => o1.op_no < o2.op_no) := by
    intro r hr
    have h2 : r = { routing_id := "R", operations := [opW1a, opW1b] } :=
      List.mem_singleton.mp hr
    subst h2
    exact List.pairwise_cons.mpr ⟨fun o ho => by
      have h3 : o = opW1b := List.mem_singleton.mp ho
      subst h3
      decide, List.pairwise_singleton _ _⟩
  exact ⟨⟨hpos, hH1, hops, hsorted, by decide, by decide⟩,
    C1_precedence ctxW1 [batchW1] hpos hH1 hops hsorted (by decide) (by decide)⟩

end Scheduler
